import Mathlib

/-!
# Scalar replacement of aggregates: a shallow embedding

Embedding of `lib/Transforms/ScalarReplAggregates-skeleton/ScalarReplAggregates-skeleton.cpp`.

The IR is modelled by value. A function is its entry block followed by the
other blocks, a block is the list of its instructions, and an instruction
carries an identity (`id`, standing for the address of the C++ object), its
name, its kind, its result type and its operand list. An operand that is the
result of an instruction carries the identity and the type of that instruction.
The use list of a value is recomputed from the function body, one entry per
use, in program order.

A run ends with an error where the C++ code stops at an assertion: a `cast<T>`
applied to a value of another class, the `assert(0)` of the redirect loop, and
the assertion of `replaceAllUsesWith` that the two values have one type. The
loops take a bound on the number of their iterations and end with the error
`outOfFuel` when it is used up.

The promotion utility (`isAllocaPromotable`, `PromoteMemToReg`) belongs to the
library, not to this file; it is a parameter of the driver. So does the symbol
table of the function, which decides the name a new instruction ends up with;
its decision is a parameter of the splitter.
-/

namespace SROA

/-! ## Types and values -/

/-- IR types, as far as the pass inspects them. -/
inductive Ty where
  | void
  | int (bits : Nat)
  | float
  | ptr (pointee : Ty)
  | struct (fields : List Ty)
  | array (len : Nat) (elem : Ty)
  | vector (len : Nat) (elem : Ty)

/-- The test `isa<StructType>(T)`. -/
def Ty.isStruct : Ty → Bool
  | .struct _ => true
  | _ => false

/-- The test `isa<PointerType>(T)`. -/
def Ty.isPointer : Ty → Bool
  | .ptr _ => true
  | _ => false

mutual
/-- Equality of types is decidable. -/
def Ty.decEq : (a b : Ty) → Decidable (a = b)
  | .void, .void => isTrue rfl
  | .int m, .int n =>
    if h : m = n then isTrue (by rw [h]) else isFalse (by intro e; cases e; exact h rfl)
  | .float, .float => isTrue rfl
  | .ptr a, .ptr b =>
    match Ty.decEq a b with
    | isTrue h => isTrue (by rw [h])
    | isFalse h => isFalse (by intro e; cases e; exact h rfl)
  | .struct as, .struct bs =>
    match Ty.decEqList as bs with
    | isTrue h => isTrue (by rw [h])
    | isFalse h => isFalse (by intro e; cases e; exact h rfl)
  | .array m a, .array n b =>
    if hn : m = n then
      match Ty.decEq a b with
      | isTrue h => isTrue (by rw [h, hn])
      | isFalse h => isFalse (by intro e; cases e; exact h rfl)
    else isFalse (by intro e; cases e; exact hn rfl)
  | .vector m a, .vector n b =>
    if hn : m = n then
      match Ty.decEq a b with
      | isTrue h => isTrue (by rw [h, hn])
      | isFalse h => isFalse (by intro e; cases e; exact h rfl)
    else isFalse (by intro e; cases e; exact hn rfl)
  | .void, .int _ | .void, .float | .void, .ptr _
  | .void, .struct _ | .void, .array _ _ | .void, .vector _ _
  | .int _, .void | .int _, .float | .int _, .ptr _
  | .int _, .struct _ | .int _, .array _ _ | .int _, .vector _ _
  | .float, .void | .float, .int _ | .float, .ptr _
  | .float, .struct _ | .float, .array _ _ | .float, .vector _ _
  | .ptr _, .void | .ptr _, .int _ | .ptr _, .float
  | .ptr _, .struct _ | .ptr _, .array _ _ | .ptr _, .vector _ _
  | .struct _, .void | .struct _, .int _ | .struct _, .float
  | .struct _, .ptr _ | .struct _, .array _ _ | .struct _, .vector _ _
  | .array _ _, .void | .array _ _, .int _ | .array _ _, .float
  | .array _ _, .ptr _ | .array _ _, .struct _ | .array _ _, .vector _ _
  | .vector _ _, .void | .vector _ _, .int _ | .vector _ _, .float
  | .vector _ _, .ptr _ | .vector _ _, .struct _ | .vector _ _, .array _ _ =>
    isFalse (by intro e; cases e)
/-- Equality of lists of types is decidable. -/
def Ty.decEqList : (as bs : List Ty) → Decidable (as = bs)
  | [], [] => isTrue rfl
  | [], _ :: _ => isFalse (by intro e; cases e)
  | _ :: _, [] => isFalse (by intro e; cases e)
  | a :: as, b :: bs =>
    match Ty.decEq a b with
    | isTrue h =>
      match Ty.decEqList as bs with
      | isTrue h2 => isTrue (by rw [h, h2])
      | isFalse h2 => isFalse (by intro e; cases e; exact h2 rfl)
    | isFalse h => isFalse (by intro e; cases e; exact h rfl)
end

instance : DecidableEq Ty := Ty.decEq

/-- Whether a type is an integer type. -/
def Ty.isInt : Ty → Bool
  | .int _ => true
  | _ => false

/-- Whether a type is a vector type. -/
def Ty.isVector : Ty → Bool
  | .vector _ _ => true
  | _ => false

/-- The call `T->getNumContainedTypes()` together with `T->getContainedType(I)`
for a struct type: the list of its element types. -/
def Ty.containedTypes : Ty → List Ty
  | .struct fs => fs
  | _ => []

mutual
/-- Number of struct type constructors occurring in a type (the type itself
included when it is a struct). -/
def Ty.structNodes : Ty → Nat
  | .struct fs => 1 + Ty.structNodesList fs
  | _ => 0
/-- Sum of `Ty.structNodes` over a list of types. -/
def Ty.structNodesList : List Ty → Nat
  | [] => 0
  | t :: ts => Ty.structNodes t + Ty.structNodesList ts
end

/-- Values that can stand in an operand slot.  `inst id ty` is the result of the
instruction with identity `id`; `constInt`, `constSplat` (a constant vector whose
elements are all the same integer) and `undef` are the members of class
`Constant`, of which only `constInt` is a `ConstantInt`. -/
inductive Value where
  | inst (id : Nat) (ty : Ty)
  | arg (idx : Nat) (ty : Ty)
  | constInt (bits : Nat) (val : Nat)
  | constSplat (len : Nat) (bits : Nat) (val : Nat)
  | undef (ty : Ty)
  deriving DecidableEq

/-- The call `V->getType()`. -/
def Value.getType : Value → Ty
  | .inst _ ty => ty
  | .arg _ ty => ty
  | .constInt bits _ => .int bits
  | .constSplat len bits _ => .vector len (.int bits)
  | .undef ty => ty

/-- The test `isa<Constant>(V)`. -/
def Value.isConstant : Value → Bool
  | .constInt _ _ => true
  | .constSplat _ _ _ => true
  | .undef _ => true
  | _ => false

/-- The test `isa<ConstantInt>(V)`. -/
def Value.isConstantInt : Value → Bool
  | .constInt _ _ => true
  | _ => false

/-- The call `C->isZeroValue()` on a constant: an integer zero or an all-zero
vector (which is `zeroinitializer`); `undef` is not a zero value. -/
def Value.isZeroValue : Value → Bool
  | .constInt _ v => v == 0
  | .constSplat _ _ v => v == 0
  | _ => false

/-- Whether an operand is the result of the instruction with identity `id`. -/
def Value.isInst (id : Nat) : Value → Bool
  | .inst j _ => j == id
  | _ => false

/-- The call `CI->getLimitedValue()`: the zero-extended value, capped at the
largest 64-bit number. -/
def getLimitedValue (val : Nat) : Nat := min val (2 ^ 64 - 1)

/-! ## Instructions and functions -/

/-- Instruction classes the pass distinguishes with `dyn_cast`. -/
inductive InstKind where
  | alloca (allocTy : Ty) (align : Nat)
  | gep
  | load
  | store
  | call
  | ret
  | br
  | other
  deriving DecidableEq

/-- An instruction. Operand 0 of a `gep` is the pointer operand, the others are
its indices; the operand of an `alloca` is its array size. -/
structure Instruction where
  id : Nat
  name : String
  kind : InstKind
  ty : Ty
  operands : List Value
  deriving DecidableEq

/-- The test `isa<AllocaInst>(I)`. -/
def Instruction.isAlloca (I : Instruction) : Bool :=
  match I.kind with
  | .alloca _ _ => true
  | _ => false

/-- The test `isa<GetElementPtrInst>(I)`. -/
def Instruction.isGEP (I : Instruction) : Bool :=
  match I.kind with
  | .gep => true
  | _ => false

/-- The call `AI->getAllocatedType()`; instructions that are not allocations
have none. -/
def Instruction.getAllocatedType (I : Instruction) : Option Ty :=
  match I.kind with
  | .alloca t _ => some t
  | _ => none

/-- The call `AI->getAlignment()`. -/
def Instruction.getAlignment (I : Instruction) : Nat :=
  match I.kind with
  | .alloca _ a => a
  | _ => 0

/-- The call `I->getOperand(i)`. -/
def Instruction.getOperand (I : Instruction) (i : Nat) : Option Value :=
  I.operands[i]?

/-- The call `GEP->getNumIndices()`, the operand count less one. -/
def Instruction.getNumIndices (I : Instruction) : Nat :=
  I.operands.length - 1

/-- The value an instruction defines, as it appears in operand slots. -/
def Instruction.asValue (I : Instruction) : Value :=
  .inst I.id I.ty

/-- A function: the entry block and the remaining blocks, each block the list
of its instructions, the terminator last. -/
structure Function where
  entry : List Instruction
  rest : List (List Instruction)
  deriving DecidableEq

/-- All instructions of a function, block after block. -/
def Function.insts (F : Function) : List Instruction :=
  F.entry ++ F.rest.flatten

/-- Apply a rewriting of instruction lists to every block. -/
def Function.mapBlocks (g : List Instruction → List Instruction) (F : Function) : Function :=
  { entry := g F.entry, rest := F.rest.map g }

/-- The user list of the value defined by instruction `id`: one entry per use,
in program order. -/
def users (F : Function) (id : Nat) : List Instruction :=
  F.insts.flatMap (fun U => List.replicate (U.operands.countP (Value.isInst id)) U)

/-- An identity no instruction of the function has: what a freshly constructed
instruction object gets. -/
def Function.freshId (F : Function) : Nat :=
  (F.insts.map (fun I => I.id)).foldr max 0 + 1

/-- Insert `newI` before the instruction `id` in a block. -/
def insertBeforeList (id : Nat) (newI : Instruction) : List Instruction → List Instruction
  | [] => []
  | I :: rest =>
    if I.id = id then newI :: I :: rest else I :: insertBeforeList id newI rest

/-- Construction of an instruction with an insert-before position. -/
def Function.insertBefore (F : Function) (id : Nat) (newI : Instruction) : Function :=
  F.mapBlocks (insertBeforeList id newI)

/-- One instruction after `old->replaceAllUsesWith(new)`. -/
def Instruction.replaceUses (old : Nat) (new : Value) (I : Instruction) : Instruction :=
  { I with operands := I.operands.map (fun v => if v.isInst old then new else v) }

/-- The call `old->replaceAllUsesWith(new)`. -/
def Function.replaceAllUsesWith (F : Function) (old : Nat) (new : Value) : Function :=
  F.mapBlocks (List.map (Instruction.replaceUses old new))

/-- The call `I->eraseFromParent()`. -/
def Function.eraseFromParent (F : Function) (id : Nat) : Function :=
  F.mapBlocks (List.filter (fun I => I.id != id))

/-! ## The legality check -/

/-- Ways a run ends without a result. -/
inductive Err where
  | castFailed
  | indexOutOfRange
  | typeMismatch
  | outOfFuel
  deriving DecidableEq

/-- Body of the loop of `checkGEPU1Format` for one user: `ok true` lets the loop
go on, `ok false` is `return false`, and the error is the failed
`cast<Constant>` on operand 1. A GEP with two indices has three operands; the
last branch of the `match` is never taken. -/
def checkUser (U : Instruction) : Except Err Bool :=
  if U.isGEP then
    if U.getNumIndices != 2 then .ok false
    else
      match U.operands with
      | [p, i1, i2] =>
        if !p.getType.isPointer then .ok false
        else if !i1.isConstant then .error .castFailed
        else if !i1.isZeroValue then .ok false
        else if !i2.isConstant then .ok false
        else .ok true
      | _ => .ok false
  else .ok false

/-- The loop of `checkGEPU1Format` over a user list. -/
def checkUsers : List Instruction → Except Err Bool
  | [] => .ok true
  | U :: us =>
    match checkUser U with
    | .ok true => checkUsers us
    | r => r

/-- `SROA::checkGEPU1Format`. -/
def checkGEPU1Format (F : Function) (Alloca : Instruction) : Except Err Bool :=
  checkUsers (users F Alloca.id)

/-! ## The splitter -/

/-- The pass state: the function under transformation and the two statistics
counters of the file. -/
structure State where
  F : Function
  NumExpanded : Nat
  NumPromoted : Nat

/-- The symbol table of a function, which belongs to the library: an
instruction constructed with a name and an insert position is entered in it, and
the name it ends up with is the requested one when no other value of the
function has it and one the table makes unique otherwise. The table is not part
of the code of this file; its decision is a parameter: a function of the
function as it is when the body of the work-list loop starts, of the identity of
the new instruction and of the requested name. -/
structure ValueSymbolTable where
  makeUniqueName : Function → Nat → String → String

/-- The object built by `new AllocaInst(structT->getContainedType(I), nullptr,
AI->getAlignment(), AI->getName() + ".SROA." + Twine(I), AI)`; an absent array
size is the constant `i32 1`. The constructor asks the symbol table for the
name; `uniqueName` is the table's answer for the new object. -/
def newFieldAlloca (uniqueName : Nat → String → String) (AI : Instruction) (fieldTy : Ty)
    (I : Nat) (id : Nat) : Instruction :=
  { id := id
    name := uniqueName id (AI.name ++ ".SROA." ++ toString I)
    kind := .alloca fieldTy AI.getAlignment
    ty := .ptr fieldTy
    operands := [.constInt 32 1] }

/-- The loop over the contained types: each new allocation is inserted before
`AI`; the result is the function and `newAllocas` in push order. -/
def createAllocas (uniqueName : Nat → String → String) (AI : Instruction) :
    List Ty → Nat → Function → Function × List Instruction
  | [], _, F => (F, [])
  | t :: ts, I, F =>
    let newAI := newFieldAlloca uniqueName AI t I F.freshId
    let r := createAllocas uniqueName AI ts (I + 1) (F.insertBefore AI.id newAI)
    (r.1, newAI :: r.2)

/-- The loop over the users of `AI` that redirects every GEP to the field
allocation its second index selects. `oldInst` is kept with its back at the
head of the list. The three errors are the failed `cast<ConstantInt>`, the
`assert(0)` on an index past `newAllocas`, and the assertion of
`replaceAllUsesWith` that both values have one type. -/
def redirectLoop (newAllocas : List Instruction) :
    List Instruction → Function → List Instruction → Except Err (Function × List Instruction)
  | [], F, oldInst => .ok (F, oldInst)
  | U :: us, F, oldInst =>
    if U.isGEP then
      match U.getOperand 2 with
      | some (.constInt _ val) =>
        match newAllocas[getLimitedValue val]? with
        | none => .error .indexOutOfRange
        | some newAI =>
          if newAI.ty = U.ty then
            redirectLoop newAllocas us (F.replaceAllUsesWith U.id newAI.asValue) (U :: oldInst)
          else .error .typeMismatch
      | _ => .error .castFailed
    else redirectLoop newAllocas us F oldInst

/-- The loop that erases the obsolete GEPs, from the back of `oldInst`. -/
def eraseLoop : List Instruction → Function → Function
  | [], F => F
  | I :: oldInst, F => eraseLoop oldInst (F.eraseFromParent I.id)

/-- The body of the work-list loop for an allocation that passed both tests:
the new function and `newAllocas`. An allocated type that is not a struct has
no contained type to make an allocation for. The users the redirect loop goes
through are those `AI` has when the loop starts: the loop replaces uses of the
GEPs, not of `AI`. -/
def splitAlloca (Sym : ValueSymbolTable) (F : Function) (AI : Instruction) :
    Except Err (Function × List Instruction) :=
  let fields := match AI.getAllocatedType with
    | some t => t.containedTypes
    | none => []
  let r := createAllocas (Sym.makeUniqueName F) AI fields 0 F
  match redirectLoop r.2 (users r.1 AI.id) r.1 [] with
  | .error e => .error e
  | .ok (F2, oldInst) => .ok ((eraseLoop oldInst F2).eraseFromParent AI.id, r.2)

/-- The test `isa<StructType>(AI->getAllocatedType())`. -/
def Instruction.isStructAlloca (I : Instruction) : Bool :=
  match I.kind with
  | .alloca t _ => t.isStruct
  | _ => false

/-- The work-list loop of `performScalarRepl`. The work list is kept with its
back at the head of the list; the fuel bounds the number of iterations. -/
def workLoop (Sym : ValueSymbolTable) :
    Nat → List Instruction → Bool × State → Except Err (Bool × State)
  | _, [], r => .ok r
  | 0, _ :: _, _ => .error .outOfFuel
  | fuel + 1, AI :: workList, (changed, st) =>
    if !AI.isStructAlloca then workLoop Sym fuel workList (changed, st)
    else
      match checkGEPU1Format st.F AI with
      | .error e => .error e
      | .ok false => workLoop Sym fuel workList (changed, st)
      | .ok true =>
        match splitAlloca Sym st.F AI with
        | .error e => .error e
        | .ok (F2, newAllocas) =>
          workLoop Sym fuel (newAllocas.reverse ++ workList)
            (true, { st with F := F2, NumExpanded := st.NumExpanded + 1 })

mutual
/-- Number of work-list iterations an allocation of this type can cause: one
for itself and, when it is a struct, those of its fields. -/
def Ty.workCost : Ty → Nat
  | .struct fs => 1 + Ty.workCostList fs
  | _ => 1
/-- Sum of `Ty.workCost` over a list of types. -/
def Ty.workCostList : List Ty → Nat
  | [] => 0
  | t :: ts => Ty.workCost t + Ty.workCostList ts
end

/-- Work cost of an instruction on the work list. -/
def Instruction.workCost (I : Instruction) : Nat :=
  match I.kind with
  | .alloca t _ => t.workCost
  | _ => 1

/-- Fuel that lets the work-list loop drain a work list. -/
def workListFuel (workList : List Instruction) : Nat :=
  (workList.map Instruction.workCost).sum

/-- The allocations the scan `for (I = BB.begin(), E = --BB.end(); I != E; ++I)`
of the entry block finds: the last instruction is not looked at. -/
def entryAllocas (F : Function) : List Instruction :=
  F.entry.dropLast.filter Instruction.isAlloca

/-- `SROA::performScalarRepl`. -/
def performScalarRepl (Sym : ValueSymbolTable) (st : State) : Except Err (Bool × State) :=
  let workList := (entryAllocas st.F).reverse
  workLoop Sym (workListFuel workList) workList (false, st)

/-! ## Promotion and the driver -/

/-- The two services of the promotion utility the pass calls. -/
structure Mem2Reg where
  isAllocaPromotable : Function → Instruction → Bool
  PromoteMemToReg : List Instruction → Function → Function

/-- The vector `Allocas` after one scan of the entry block: the allocations the
promotion utility declares promotable. -/
def promotableAllocas (P : Mem2Reg) (F : Function) : List Instruction :=
  (entryAllocas F).filter (P.isAllocaPromotable F)

/-- The loop of `performPromotion`; the fuel bounds the number of scans. -/
def promotionLoop (P : Mem2Reg) : Nat → Bool × State → Except Err (Bool × State)
  | 0, _ => .error .outOfFuel
  | fuel + 1, (Changed, st) =>
    let Allocas := promotableAllocas P st.F
    if Allocas.isEmpty then .ok (Changed, st)
    else
      promotionLoop P fuel
        (true, { st with F := P.PromoteMemToReg Allocas st.F
                         NumPromoted := st.NumPromoted + Allocas.length })

/-- `SROA::performPromotion`. -/
def performPromotion (P : Mem2Reg) (fuel : Nat) (st : State) : Except Err (Bool × State) :=
  promotionLoop P fuel (false, st)

/-- The `while (1)` loop of `runOnFunction`; `rounds` bounds its iterations. -/
def fixpointLoop (Sym : ValueSymbolTable) (P : Mem2Reg) (fuel : Nat) :
    Nat → Bool × State → Except Err (Bool × State)
  | 0, _ => .error .outOfFuel
  | rounds + 1, (Changed, st) =>
    match performScalarRepl Sym st with
    | .error e => .error e
    | .ok (false, st1) => .ok (Changed, st1)
    | .ok (true, st1) =>
      match performPromotion P fuel st1 with
      | .error e => .error e
      | .ok (false, st2) => .ok (true, st2)
      | .ok (true, st2) => fixpointLoop Sym P fuel rounds (true, st2)

/-- `SROA::runOnFunction`. -/
def runOnFunction (Sym : ValueSymbolTable) (P : Mem2Reg) (fuel rounds : Nat) (st : State) :
    Except Err (Bool × State) :=
  match performPromotion P fuel st with
  | .error e => .error e
  | .ok (Changed, st0) => fixpointLoop Sym P fuel rounds (Changed, st0)

/-! ## Well-formed IR

The invariants of the IR the pass relies on: every instruction object is one
object, every operand that is an instruction result is the result of an
instruction of the function and has its type, allocations and struct field
accesses are typed, and the entry block ends in a terminator. -/

/-- The field a struct index selects, following `StructType::indexValid`: the
index is a 32-bit constant integer or a constant vector of one repeated 32-bit
integer. -/
def structIndex : Value → Option Nat
  | .constInt bits k => if bits = 32 ∧ k < 2 ^ 32 then some k else none
  | .constSplat _ bits k => if bits = 32 ∧ k < 2 ^ 32 then some k else none
  | _ => none

/-- An operand that is an instruction result names an instruction of the list
and carries its type. -/
def Value.resolvesIn (insts : List Instruction) : Value → Bool
  | .inst id ty => insts.any (fun I => decide (I.id = id) && decide (I.ty = ty))
  | _ => true

/-- Typing of the instructions the pass looks into. An allocation yields a
pointer to its allocated type and has integer operands. A GEP whose pointer
operand points to a struct has, as second index, a valid struct index in range,
and when it has no further index and no vector index it yields a pointer to the
selected field. -/
def Instruction.wellTyped (U : Instruction) : Bool :=
  match U.kind with
  | .alloca t _ => decide (U.ty = .ptr t) && U.operands.all (fun v => v.getType.isInt)
  | .gep =>
    match U.operands with
    | p :: i1 :: i2 :: rest =>
      match p.getType with
      | .ptr (.struct fs) =>
        match structIndex i2 with
        | some k =>
          decide (k < fs.length) &&
            (!rest.isEmpty || i1.getType.isVector || i2.getType.isVector ||
              decide (fs[k]?.map Ty.ptr = some U.ty))
        | none => false
      | _ => true
    | _ => true
  | _ => true

/-- Terminator instructions. -/
def Instruction.isTerminator (I : Instruction) : Bool :=
  match I.kind with
  | .ret => true
  | .br => true
  | _ => false

/-- Well-formed functions. -/
def WellFormed (F : Function) : Prop :=
  (F.insts.map (fun I => I.id)).Nodup ∧
  (∀ U ∈ F.insts, ∀ v ∈ U.operands, v.resolvesIn F.insts = true) ∧
  (∀ U ∈ F.insts, U.wellTyped = true) ∧
  F.entry.getLast?.map Instruction.isTerminator = some true

instance (F : Function) : Decidable (WellFormed F) := by
  unfold WellFormed; infer_instance

/-! ## The contract of the legality check, in the words of the specification -/

/-- A use of the form the specification asks for: a field-address computation
with exactly two index operands, addressing from a pointer-typed value, whose
first index is the constant zero and whose second index is a compile-time
constant integer. -/
def specU1Format (U : Instruction) : Bool :=
  U.isGEP && (U.getNumIndices == 2) &&
    match U.getOperand 0, U.getOperand 1, U.getOperand 2 with
    | some p, some i1, some i2 =>
      p.getType.isPointer && (i1.isConstantInt && i1.isZeroValue) && i2.isConstantInt
    | _, _, _ => false

/-- Eligibility as the specification states it: every use of the allocation is
of that form. -/
def specEligible (F : Function) (A : Instruction) : Bool :=
  (users F A.id).all specU1Format

/-! ## Measures -/

/-- Number of struct-typed allocations in the function. -/
def structAllocaCount (F : Function) : Nat :=
  (F.insts.filter Instruction.isStructAlloca).length

/-- Struct type constructors in the allocated type of an allocation. -/
def Instruction.structNodes (I : Instruction) : Nat :=
  match I.kind with
  | .alloca t _ => t.structNodes
  | _ => 0

/-- Struct type constructors over all allocations of the function. -/
def structNodeCount (F : Function) : Nat :=
  (F.insts.map Instruction.structNodes).sum

/-! ## Auxiliary predicates -/

/-- Position of an allocation: it stands in the entry block after `pre` and
before `post`, and its identity occurs nowhere else. -/
structure At (F : Function) (A : Instruction) (pre post : List Instruction) : Prop where
  entry : F.entry = pre ++ A :: post
  pre : ∀ I ∈ pre, I.id ≠ A.id
  rest : ∀ b ∈ F.rest, ∀ I ∈ b, I.id ≠ A.id

/-- The list `newAllocas` of a split in closed form: field `I + i` gets the
identity `base + i`. -/
def fieldAllocas (uniqueName : Nat → String → String) (A : Instruction) :
    List Ty → Nat → Nat → List Instruction
  | [], _, _ => []
  | t :: ts, I, base =>
    newFieldAlloca uniqueName A t I base :: fieldAllocas uniqueName A ts (I + 1) (base + 1)

/-- Rewrite every operand of an instruction. -/
def Instruction.mapOperands (σ : Value → Value) (I : Instruction) : Instruction :=
  { I with operands := I.operands.map σ }

/-- The field allocation the redirect loop picks for a GEP: the entry of
`newAllocas` at its constant second index. -/
def redirectTarget (newAllocas : List Instruction) (G : Instruction) : Option Instruction :=
  match G.getOperand 2 with
  | some (.constInt _ val) => newAllocas[getLimitedValue val]?
  | _ => none

/-- An operand after the redirect loop went through the users `gs`: a result of
one of the GEPs among them has become the field allocation picked for it. -/
def redirectOperand (newAllocas : List Instruction) : List Instruction → Value → Value
  | [], v => v
  | G :: gs, v =>
    if G.isGEP && v.isInst G.id then
      match redirectTarget newAllocas G with
      | some n => n.asValue
      | none => v
    else redirectOperand newAllocas gs v

/-- Instructions a split leaves in place: all but the allocation `A` and the
GEPs among its users `gs`. -/
def splitKeep (A : Instruction) (gs : List Instruction) (I : Instruction) : Bool :=
  (I.id != A.id) && !(gs.any (fun G => G.isGEP && (G.id == I.id)))

/-- What a split does to a block, in closed form: the obsolete instructions are
gone and the operands of the others are redirected. -/
def splitBlock (A : Instruction) (newAllocas gs : List Instruction)
    (l : List Instruction) : List Instruction :=
  (l.filter (splitKeep A gs)).map (Instruction.mapOperands (redirectOperand newAllocas gs))

/-- One successful split: in the well-formed function `F` the struct allocation
`A` of the entry block passes the legality check and the body of the work-list
loop turns `F` into `F2`, creating `newAllocas`. -/
structure Split (Sym : ValueSymbolTable) (F : Function) (A : Instruction) (F2 : Function)
    (newAllocas : List Instruction) : Prop where
  wf : WellFormed F
  mem : A ∈ F.entry
  struct : A.isStructAlloca = true
  accepted : checkGEPU1Format F A = .ok true
  result : splitAlloca Sym F A = .ok (F2, newAllocas)

/-! ## Sample functions -/

/-- The struct type `{ i32, i32 }`. -/
def pairTy : Ty := .struct [.int 32, .int 32]

/-- The allocation `%a = alloca { i32, i32 }, align 4`. -/
def pairAlloca : Instruction :=
  { id := 1, name := "a", kind := .alloca pairTy 4, ty := .ptr pairTy
    operands := [.constInt 32 1] }

/-- A function that stores to field 1 of `%a` and loads field 0:
```
  %a  = alloca { i32, i32 }, align 4
  %p0 = getelementptr { i32, i32 }, { i32, i32 }* %a, i32 0, i32 0
  %p1 = getelementptr { i32, i32 }, { i32, i32 }* %a, i32 0, i32 1
  store i32 7, i32* %p1
  %v  = load i32, i32* %p0
  ret i32 %v
``` -/
def pairFn : Function :=
  { entry :=
      [ pairAlloca,
        { id := 2, name := "p0", kind := .gep, ty := .ptr (.int 32)
          operands := [.inst 1 (.ptr pairTy), .constInt 32 0, .constInt 32 0] },
        { id := 3, name := "p1", kind := .gep, ty := .ptr (.int 32)
          operands := [.inst 1 (.ptr pairTy), .constInt 32 0, .constInt 32 1] },
        { id := 4, name := "", kind := .store, ty := .void
          operands := [.constInt 32 7, .inst 3 (.ptr (.int 32))] },
        { id := 5, name := "v", kind := .load, ty := .int 32
          operands := [.inst 2 (.ptr (.int 32))] },
        { id := 6, name := "", kind := .ret, ty := .void
          operands := [.inst 5 (.int 32)] } ]
    rest := [] }

/-- A well-formed function whose only field access selects the field with a
constant vector index, so that the GEP yields a vector of pointers:
```
  %a = alloca { i32, i32 }, align 4
  %g = getelementptr { i32, i32 }, { i32, i32 }* %a, i32 0, <2 x i32> <i32 1, i32 1>
  ret void
``` -/
def splatIndexFn : Function :=
  { entry :=
      [ pairAlloca,
        { id := 2, name := "g", kind := .gep, ty := .vector 2 (.ptr (.int 32))
          operands := [.inst 1 (.ptr pairTy), .constInt 32 0, .constSplat 2 32 1] },
        { id := 3, name := "", kind := .ret, ty := .void, operands := [] } ]
    rest := [] }

/-- A well-formed function that hands the address of a field to a call:
```
  %a  = alloca { i32, i32 }, align 4
  %p0 = getelementptr { i32, i32 }, { i32, i32 }* %a, i32 0, i32 0
  call void @f(i32* %p0)
  ret void
``` -/
def escapeFn : Function :=
  { entry :=
      [ pairAlloca,
        { id := 2, name := "p0", kind := .gep, ty := .ptr (.int 32)
          operands := [.inst 1 (.ptr pairTy), .constInt 32 0, .constInt 32 0] },
        { id := 3, name := "", kind := .call, ty := .void
          operands := [.inst 2 (.ptr (.int 32))] },
        { id := 4, name := "", kind := .ret, ty := .void, operands := [] } ]
    rest := [] }

/-- A well-formed function whose field access has a first index that is not a
constant (`%n` is the first argument of the function):
```
  %a = alloca { i32, i32 }, align 4
  %g = getelementptr { i32, i32 }, { i32, i32 }* %a, i32 %n, i32 0
  ret void
``` -/
def varIndexFn : Function :=
  { entry :=
      [ pairAlloca,
        { id := 2, name := "g", kind := .gep, ty := .ptr (.int 32)
          operands := [.inst 1 (.ptr pairTy), .arg 0 (.int 32), .constInt 32 0] },
        { id := 3, name := "", kind := .ret, ty := .void, operands := [] } ]
    rest := [] }

/-- The struct type `{ { i32 }, { i32 } }`. -/
def nestedTy : Ty := .struct [.struct [.int 32], .struct [.int 32]]

/-- The allocation `%s = alloca { { i32 }, { i32 } }, align 4`. -/
def nestedAlloca : Instruction :=
  { id := 1, name := "s", kind := .alloca nestedTy 4, ty := .ptr nestedTy
    operands := [.constInt 32 1] }

/-- A well-formed function whose struct has struct fields, the addresses of which
go to calls:
```
  %s  = alloca { { i32 }, { i32 } }, align 4
  %g0 = getelementptr { { i32 }, { i32 } }, { { i32 }, { i32 } }* %s, i32 0, i32 0
  %g1 = getelementptr { { i32 }, { i32 } }, { { i32 }, { i32 } }* %s, i32 0, i32 1
  call void @f({ i32 }* %g0)
  call void @f({ i32 }* %g1)
  ret void
``` -/
def nestedFn : Function :=
  { entry :=
      [ nestedAlloca,
        { id := 2, name := "g0", kind := .gep, ty := .ptr (.struct [.int 32])
          operands := [.inst 1 (.ptr nestedTy), .constInt 32 0, .constInt 32 0] },
        { id := 3, name := "g1", kind := .gep, ty := .ptr (.struct [.int 32])
          operands := [.inst 1 (.ptr nestedTy), .constInt 32 0, .constInt 32 1] },
        { id := 4, name := "", kind := .call, ty := .void
          operands := [.inst 2 (.ptr (.struct [.int 32]))] },
        { id := 5, name := "", kind := .call, ty := .void
          operands := [.inst 3 (.ptr (.struct [.int 32]))] },
        { id := 6, name := "", kind := .ret, ty := .void, operands := [] } ]
    rest := [] }

/-! ## The condition documented on the legality check -/

/-- A use of the result of the GEP `g` as the pointer argument of a load or of
a store: the pointer loaded from or stored into, not the value being stored. -/
def isLoadStorePointerUse (g : Nat) (U : Instruction) : Bool :=
  match U.kind with
  | .load => true
  | .store =>
    match U.getOperand 0 with
    | some v => !v.isInst g
    | none => true
  | _ => false

/-- The condition (U1) of the comment above `checkGEPU1Format`: every user of
the allocation is a GEP of the form `getelementptr ptr, 0, constant` whose
result is used only by GEPs of that form or as the pointer argument of a load
or store. -/
def docU1 (F : Function) (A : Instruction) : Bool :=
  (users F A.id).all (fun G =>
    specU1Format G &&
      (users F G.id).all (fun U => specU1Format U || isLoadStorePointerUse G.id U))

/-- Invariant of the work-list loop: the function is well-formed, the work list
consists of distinct allocations of the entry block, and every struct
allocation the scan of the entry block would find is either still on the work
list or is rejected by the legality check. -/
structure WorkInv (workList : List Instruction) (F : Function) : Prop where
  wf : WellFormed F
  nodup : (workList.map (fun I => I.id)).Nodup
  mem : ∀ B ∈ workList, B ∈ F.entry ∧ B.isAlloca = true
  examined : ∀ B ∈ entryAllocas F, B.isStructAlloca = true →
    B ∈ workList ∨ checkGEPU1Format F B = .ok false

/-! ## Assumptions on the promotion utility -/

/-- The promotion utility returns well-formed IR: promoting the batch the
driver hands over keeps a well-formed function well-formed. -/
def Mem2Reg.PreservesWellFormed (P : Mem2Reg) : Prop :=
  ∀ G : Function, WellFormed G → promotableAllocas P G ≠ [] →
    WellFormed (P.PromoteMemToReg (promotableAllocas P G) G)

/-- The promotion utility removes each promoted allocation and creates no
allocation: the allocations of the function after promoting the batch the
driver hands over are those it had, less the batch. -/
def Mem2Reg.RemovesPromoted (P : Mem2Reg) : Prop :=
  ∀ G : Function, WellFormed G →
    (P.PromoteMemToReg (promotableAllocas P G) G).insts.filter Instruction.isAlloca =
      (G.insts.filter Instruction.isAlloca).filter
        (fun I => !((promotableAllocas P G).any (fun B => B.id == I.id)))

/-- Sum of a measure of the allocated types over the allocations of a
function. -/
def allocaSum (g : Ty → Nat) (F : Function) : Nat :=
  (F.insts.map (fun I =>
    match I.kind with
    | .alloca t _ => g t
    | _ => 0)).sum

/-- A measure of types that counts a struct as one more than its fields
together. -/
def StructAdditive (g : Ty → Nat) : Prop :=
  ∀ fs : List Ty, g (.struct fs) = 1 + (fs.map g).sum

/-- Work cost of the allocations of a function: a bound on the number of
allocations it can ever hold. -/
def allocaCost (F : Function) : Nat := allocaSum Ty.workCost F

mutual
/-- Nesting depth of struct types. -/
def Ty.depth : Ty → Nat
  | .struct fs => 1 + Ty.depthList fs
  | _ => 0
/-- Largest nesting depth in a list of types. -/
def Ty.depthList : List Ty → Nat
  | [] => 0
  | t :: ts => max (Ty.depth t) (Ty.depthList ts)
end

mutual
/-- Number of fields of a struct type, those of nested structs included. -/
def Ty.fieldCount : Ty → Nat
  | .struct fs => Ty.fieldCountList fs
  | _ => 0
/-- Fields of a list of field types: one for each and those nested in it. -/
def Ty.fieldCountList : List Ty → Nat
  | [] => 0
  | t :: ts => 1 + Ty.fieldCount t + Ty.fieldCountList ts
end

/-- Nesting depth plus field count, summed over the allocations of a
function. -/
def roundBound (F : Function) : Nat :=
  allocaSum (fun t => t.depth + t.fieldCount) F

/-- A promotion utility that promotes exactly the allocations without uses and
erases them, as `PromoteMemToReg` does with an allocation that has no use. -/
def unusedAllocaUtility : Mem2Reg :=
  { isAllocaPromotable := fun F AI => (users F AI.id).isEmpty
    PromoteMemToReg := fun Allocas F => eraseLoop Allocas F }

/-- The function `pairFn` after the split of `%a`:
```
  %a.SROA.0 = alloca i32, align 4
  %a.SROA.1 = alloca i32, align 4
  store i32 7, i32* %a.SROA.1
  %v = load i32, i32* %a.SROA.0
  ret i32 %v
``` -/
def pairFnSplit : Function :=
  { entry :=
      [ { id := 7, name := "a.SROA.0", kind := .alloca (.int 32) 4, ty := .ptr (.int 32)
          operands := [.constInt 32 1] },
        { id := 8, name := "a.SROA.1", kind := .alloca (.int 32) 4, ty := .ptr (.int 32)
          operands := [.constInt 32 1] },
        { id := 4, name := "", kind := .store, ty := .void
          operands := [.constInt 32 7, .inst 8 (.ptr (.int 32))] },
        { id := 5, name := "v", kind := .load, ty := .int 32
          operands := [.inst 7 (.ptr (.int 32))] },
        { id := 6, name := "", kind := .ret, ty := .void
          operands := [.inst 5 (.int 32)] } ]
    rest := [] }

/-- The allocations the split of `%s` in `nestedFn` creates. -/
def nestedNewAllocas : List Instruction :=
  [ { id := 7, name := "s.SROA.0", kind := .alloca (.struct [.int 32]) 4
      ty := .ptr (.struct [.int 32]), operands := [.constInt 32 1] },
    { id := 8, name := "s.SROA.1", kind := .alloca (.struct [.int 32]) 4
      ty := .ptr (.struct [.int 32]), operands := [.constInt 32 1] } ]

/-- The function `nestedFn` after the split of `%s`:
```
  %s.SROA.0 = alloca { i32 }, align 4
  %s.SROA.1 = alloca { i32 }, align 4
  call void @f({ i32 }* %s.SROA.0)
  call void @f({ i32 }* %s.SROA.1)
  ret void
``` -/
def nestedFnSplit : Function :=
  { entry := nestedNewAllocas ++
      [ { id := 4, name := "", kind := .call, ty := .void
          operands := [.inst 7 (.ptr (.struct [.int 32]))] },
        { id := 5, name := "", kind := .call, ty := .void
          operands := [.inst 8 (.ptr (.struct [.int 32]))] },
        { id := 6, name := "", kind := .ret, ty := .void, operands := [] } ]
    rest := [] }

/-- A well-formed function that steps from the address of field 0 to field 1
with a one-index GEP on the field address:
```
  %a  = alloca { i32, i32 }, align 4
  %p0 = getelementptr { i32, i32 }, { i32, i32 }* %a, i32 0, i32 0
  %p1 = getelementptr { i32, i32 }, { i32, i32 }* %a, i32 0, i32 1
  store i32 7, i32* %p1
  %q  = getelementptr i32, i32* %p0, i32 1
  %v  = load i32, i32* %q
  ret i32 %v
``` -/
def fieldStepFn : Function :=
  { entry :=
      [ pairAlloca,
        { id := 2, name := "p0", kind := .gep, ty := .ptr (.int 32)
          operands := [.inst 1 (.ptr pairTy), .constInt 32 0, .constInt 32 0] },
        { id := 3, name := "p1", kind := .gep, ty := .ptr (.int 32)
          operands := [.inst 1 (.ptr pairTy), .constInt 32 0, .constInt 32 1] },
        { id := 4, name := "", kind := .store, ty := .void
          operands := [.constInt 32 7, .inst 3 (.ptr (.int 32))] },
        { id := 5, name := "q", kind := .gep, ty := .ptr (.int 32)
          operands := [.inst 2 (.ptr (.int 32)), .constInt 32 1] },
        { id := 6, name := "v", kind := .load, ty := .int 32
          operands := [.inst 5 (.ptr (.int 32))] },
        { id := 7, name := "", kind := .ret, ty := .void
          operands := [.inst 6 (.int 32)] } ]
    rest := [] }

/-- The function `fieldStepFn` after the split of `%a`:
```
  %a.SROA.0 = alloca i32, align 4
  %a.SROA.1 = alloca i32, align 4
  store i32 7, i32* %a.SROA.1
  %q  = getelementptr i32, i32* %a.SROA.0, i32 1
  %v  = load i32, i32* %q
  ret i32 %v
``` -/
def fieldStepFnSplit : Function :=
  { entry :=
      [ { id := 8, name := "a.SROA.0", kind := .alloca (.int 32) 4, ty := .ptr (.int 32)
          operands := [.constInt 32 1] },
        { id := 9, name := "a.SROA.1", kind := .alloca (.int 32) 4, ty := .ptr (.int 32)
          operands := [.constInt 32 1] },
        { id := 4, name := "", kind := .store, ty := .void
          operands := [.constInt 32 7, .inst 9 (.ptr (.int 32))] },
        { id := 5, name := "q", kind := .gep, ty := .ptr (.int 32)
          operands := [.inst 8 (.ptr (.int 32)), .constInt 32 1] },
        { id := 6, name := "v", kind := .load, ty := .int 32
          operands := [.inst 5 (.ptr (.int 32))] },
        { id := 7, name := "", kind := .ret, ty := .void
          operands := [.inst 6 (.int 32)] } ]
    rest := [] }

/-! ## Execution of straight-line entry blocks

A reference semantics of the IR for the instructions of the samples, used to
compare what a function returns before and after the pass. It is the usual
object-based memory model: every allocation is an object of its own, an address
is an object and an offset in it counted in scalar slots, and a load or store
outside the object it addresses has no defined behaviour. -/

mutual
/-- Number of scalar slots of a value of a type. -/
def Ty.slots : Ty → Nat
  | .struct fs => Ty.slotsList fs
  | .array n t => n * Ty.slots t
  | .vector n t => n * Ty.slots t
  | _ => 1
/-- Number of scalar slots of a sequence of fields. -/
def Ty.slotsList : List Ty → Nat
  | [] => 0
  | t :: ts => Ty.slots t + Ty.slotsList ts
end

/-- Run-time values: an integer, an address, or an undefined value. -/
inductive RVal where
  | int (n : Nat)
  | addr (object : Nat) (offset : Nat)
  | undef
  deriving DecidableEq

/-- The machine state: the values of the instructions executed so far and the
objects allocated so far, each under the identity of its instruction. -/
structure Machine where
  regs : List (Nat × RVal)
  objects : List (Nat × List RVal)

/-- The run-time value of an operand. -/
def Machine.eval (m : Machine) : Value → Option RVal
  | .inst id _ => m.regs.lookup id
  | .constInt _ v => some (.int v)
  | .undef _ => some .undef
  | _ => none

/-- Execution of a block up to its `ret`: the returned value, or `none` when
the behaviour is not defined (or the block leaves the modelled instructions). -/
def execBlock : List Instruction → Machine → Option RVal
  | [], _ => none
  | I :: rest, m =>
    match I.kind, I.operands with
    | .alloca t _, _ =>
      execBlock rest
        { regs := (I.id, .addr I.id 0) :: m.regs
          objects := (I.id, List.replicate t.slots .undef) :: m.objects }
    | .gep, [p, i1, i2] =>
      match m.eval p, m.eval i1, p.getType, structIndex i2 with
      | some (.addr b off), some (.int a), .ptr (.struct fs), some k =>
        execBlock rest
          { m with regs :=
              (I.id, .addr b (off + a * Ty.slotsList fs + Ty.slotsList (fs.take k))) :: m.regs }
      | _, _, _, _ => none
    | .gep, [p, i1] =>
      match m.eval p, m.eval i1, p.getType with
      | some (.addr b off), some (.int a), .ptr t =>
        execBlock rest { m with regs := (I.id, .addr b (off + a * t.slots)) :: m.regs }
      | _, _, _ => none
    | .store, [v, p] =>
      match m.eval v, m.eval p with
      | some x, some (.addr b off) =>
        match m.objects.lookup b with
        | some cells =>
          if off < cells.length then
            execBlock rest
              { m with objects := (b, cells.set off x) :: m.objects }
          else none
        | none => none
      | _, _ => none
    | .load, [p] =>
      match m.eval p with
      | some (.addr b off) =>
        match m.objects.lookup b with
        | some cells =>
          match cells[off]? with
          | some x => execBlock rest { m with regs := (I.id, x) :: m.regs }
          | none => none
        | none => none
      | _ => none
    | .ret, [v] => m.eval v
    | .ret, [] => some .undef
    | _, _ => none

/-- What a function without arguments whose body is its entry block returns. -/
def execFunction (F : Function) : Option RVal :=
  execBlock F.entry { regs := [], objects := [] }

/-! ## Runs of the loops, as sequences of their effects -/

/-- A run of the loop of `performPromotion` from the function `F` to the
function `F2`, with the batches it hands to `PromoteMemToReg`, in order: every
batch is what the scan of the entry block finds promotable in the function at
that moment, it is not empty, and the run ends at the first scan that finds
nothing. -/
inductive PromotionRun (P : Mem2Reg) : Function → List (List Instruction) → Function → Prop
  | done (F : Function) : promotableAllocas P F = [] → PromotionRun P F [] F
  | step (F F2 : Function) (batches : List (List Instruction)) :
      promotableAllocas P F ≠ [] →
      PromotionRun P (P.PromoteMemToReg (promotableAllocas P F) F) batches F2 →
      PromotionRun P F (promotableAllocas P F :: batches) F2

/-- A run of the work-list loop of `performScalarRepl` from the work list
`workList` and the function `F` to the function `F2`, with the allocations it
splits, in order: an allocation at the back of the work list is skipped when it
is not of struct type or fails the legality check, and is split otherwise, its
new allocations going on the work list. -/
inductive WorkRun (Sym : ValueSymbolTable) :
    List Instruction → Function → List Instruction → Function → Prop
  | done (F : Function) : WorkRun Sym [] F [] F
  | skip (AI : Instruction) (workList : List Instruction) (F F2 : Function)
      (splits : List Instruction) :
      AI.isStructAlloca = false ∨ checkGEPU1Format F AI = .ok false →
      WorkRun Sym workList F splits F2 → WorkRun Sym (AI :: workList) F splits F2
  | split (AI : Instruction) (workList : List Instruction) (F F1 F2 : Function)
      (newAllocas splits : List Instruction) :
      AI.isStructAlloca = true → checkGEPU1Format F AI = .ok true →
      splitAlloca Sym F AI = .ok (F1, newAllocas) →
      WorkRun Sym (newAllocas.reverse ++ workList) F1 splits F2 →
      WorkRun Sym (AI :: workList) F (AI :: splits) F2

/-- A function with an allocation that is never used, next to one that is:
```
  %d = alloca i32, align 4
  %e = alloca i32, align 4
  store i32 7, i32* %e
  ret void
``` -/
def deadAllocaFn : Function :=
  { entry :=
      [ { id := 1, name := "d", kind := .alloca (.int 32) 4, ty := .ptr (.int 32)
          operands := [.constInt 32 1] },
        { id := 2, name := "e", kind := .alloca (.int 32) 4, ty := .ptr (.int 32)
          operands := [.constInt 32 1] },
        { id := 3, name := "", kind := .store, ty := .void
          operands := [.constInt 32 7, .inst 2 (.ptr (.int 32))] },
        { id := 4, name := "", kind := .ret, ty := .void, operands := [] } ]
    rest := [] }

/-- The function `deadAllocaFn` without `%d`. -/
def deadAllocaFnPromoted : Function :=
  { entry :=
      [ { id := 2, name := "e", kind := .alloca (.int 32) 4, ty := .ptr (.int 32)
          operands := [.constInt 32 1] },
        { id := 3, name := "", kind := .store, ty := .void
          operands := [.constInt 32 7, .inst 2 (.ptr (.int 32))] },
        { id := 4, name := "", kind := .ret, ty := .void, operands := [] } ]
    rest := [] }

/-- A function whose struct has struct fields that are accessed field by field:
```
  %s  = alloca { { i32 }, { i32 } }, align 4
  %g0 = getelementptr { { i32 }, { i32 } }, { { i32 }, { i32 } }* %s, i32 0, i32 0
  %g1 = getelementptr { { i32 }, { i32 } }, { { i32 }, { i32 } }* %s, i32 0, i32 1
  %h0 = getelementptr { i32 }, { i32 }* %g0, i32 0, i32 0
  %h1 = getelementptr { i32 }, { i32 }* %g1, i32 0, i32 0
  store i32 7, i32* %h1
  %v  = load i32, i32* %h0
  ret i32 %v
``` -/
def deepFn : Function :=
  { entry :=
      [ nestedAlloca,
        { id := 2, name := "g0", kind := .gep, ty := .ptr (.struct [.int 32])
          operands := [.inst 1 (.ptr nestedTy), .constInt 32 0, .constInt 32 0] },
        { id := 3, name := "g1", kind := .gep, ty := .ptr (.struct [.int 32])
          operands := [.inst 1 (.ptr nestedTy), .constInt 32 0, .constInt 32 1] },
        { id := 4, name := "h0", kind := .gep, ty := .ptr (.int 32)
          operands := [.inst 2 (.ptr (.struct [.int 32])), .constInt 32 0, .constInt 32 0] },
        { id := 5, name := "h1", kind := .gep, ty := .ptr (.int 32)
          operands := [.inst 3 (.ptr (.struct [.int 32])), .constInt 32 0, .constInt 32 0] },
        { id := 6, name := "", kind := .store, ty := .void
          operands := [.constInt 32 7, .inst 5 (.ptr (.int 32))] },
        { id := 7, name := "v", kind := .load, ty := .int 32
          operands := [.inst 4 (.ptr (.int 32))] },
        { id := 8, name := "", kind := .ret, ty := .void
          operands := [.inst 7 (.int 32)] } ]
    rest := [] }

/-- The function `deepFn` after the splits of `%s`, `%s.SROA.1` and `%s.SROA.0`:
```
  %s.SROA.0.SROA.0 = alloca i32, align 4
  %s.SROA.1.SROA.0 = alloca i32, align 4
  store i32 7, i32* %s.SROA.1.SROA.0
  %v = load i32, i32* %s.SROA.0.SROA.0
  ret i32 %v
``` -/
def deepFnSplit : Function :=
  { entry :=
      [ { id := 12, name := "s.SROA.0.SROA.0", kind := .alloca (.int 32) 4
          ty := .ptr (.int 32), operands := [.constInt 32 1] },
        { id := 11, name := "s.SROA.1.SROA.0", kind := .alloca (.int 32) 4
          ty := .ptr (.int 32), operands := [.constInt 32 1] },
        { id := 6, name := "", kind := .store, ty := .void
          operands := [.constInt 32 7, .inst 11 (.ptr (.int 32))] },
        { id := 7, name := "v", kind := .load, ty := .int 32
          operands := [.inst 12 (.ptr (.int 32))] },
        { id := 8, name := "", kind := .ret, ty := .void
          operands := [.inst 7 (.int 32)] } ]
    rest := [] }

/-! ## The erase discipline -/

/-- The body of the work-list loop up to the end of the redirect loop: the
function at that point and `oldInst`, its back at the head of the list. -/
def redirectStage (Sym : ValueSymbolTable) (F : Function) (AI : Instruction) :
    Except Err (Function × List Instruction) :=
  let fields := match AI.getAllocatedType with
    | some t => t.containedTypes
    | none => []
  let r := createAllocas (Sym.makeUniqueName F) AI fields 0 F
  redirectLoop r.2 (users r.1 AI.id) r.1 []

/-- The erase loop of `eraseLoop`, watched: true when every instruction, at the
moment `eraseFromParent` is called on it, has an empty user list. -/
def eraseLoopUnused : List Instruction → Function → Bool
  | [], _ => true
  | I :: oldInst, F =>
    (users F I.id).isEmpty && eraseLoopUnused oldInst (F.eraseFromParent I.id)

/-! ## The work-list loop with a log -/

/-- What a run of the work-list loop did: the allocations it took from the work
list, in order, and the new allocations its splits put on the work list, in
order. -/
structure WorkLog where
  examined : List Instruction
  pushed : List Instruction

/-- Add one iteration in front of a log: `AI` was taken from the work list and
`newAllocas` were put on it. -/
def WorkLog.step (AI : Instruction) (newAllocas : List Instruction)
    (r : (Bool × State) × WorkLog) : (Bool × State) × WorkLog :=
  (r.1, ⟨AI :: r.2.examined, newAllocas ++ r.2.pushed⟩)

/-- The work-list loop `workLoop`, branch for branch, with the log of its
iterations next to its result. -/
def workLoopLog (Sym : ValueSymbolTable) : Nat → List Instruction → Bool × State →
    Except Err ((Bool × State) × WorkLog)
  | _, [], r => .ok (r, ⟨[], []⟩)
  | 0, _ :: _, _ => .error .outOfFuel
  | fuel + 1, AI :: workList, (changed, st) =>
    if !AI.isStructAlloca then
      (workLoopLog Sym fuel workList (changed, st)).map (WorkLog.step AI [])
    else
      match checkGEPU1Format st.F AI with
      | .error e => .error e
      | .ok false => (workLoopLog Sym fuel workList (changed, st)).map (WorkLog.step AI [])
      | .ok true =>
        match splitAlloca Sym st.F AI with
        | .error e => .error e
        | .ok (F2, newAllocas) =>
          (workLoopLog Sym fuel (newAllocas.reverse ++ workList)
            (true, { st with F := F2, NumExpanded := st.NumExpanded + 1 })).map
              (WorkLog.step AI newAllocas)

/-- `performScalarRepl` with the log of its work-list loop. -/
def performScalarReplLog (Sym : ValueSymbolTable) (st : State) :
    Except Err ((Bool × State) × WorkLog) :=
  let workList := (entryAllocas st.F).reverse
  workLoopLog Sym (workListFuel workList) workList (false, st)

/-- The log of the splitter on `deepFn`: `%s`, then the field allocations from
the back of the work list. -/
def deepFnLog : WorkLog :=
  { examined :=
      [ nestedAlloca,
        { id := 10, name := "s.SROA.1", kind := .alloca (.struct [.int 32]) 4
          ty := .ptr (.struct [.int 32]), operands := [.constInt 32 1] },
        { id := 11, name := "s.SROA.1.SROA.0", kind := .alloca (.int 32) 4
          ty := .ptr (.int 32), operands := [.constInt 32 1] },
        { id := 9, name := "s.SROA.0", kind := .alloca (.struct [.int 32]) 4
          ty := .ptr (.struct [.int 32]), operands := [.constInt 32 1] },
        { id := 12, name := "s.SROA.0.SROA.0", kind := .alloca (.int 32) 4
          ty := .ptr (.int 32), operands := [.constInt 32 1] } ]
    pushed :=
      [ { id := 9, name := "s.SROA.0", kind := .alloca (.struct [.int 32]) 4
          ty := .ptr (.struct [.int 32]), operands := [.constInt 32 1] },
        { id := 10, name := "s.SROA.1", kind := .alloca (.struct [.int 32]) 4
          ty := .ptr (.struct [.int 32]), operands := [.constInt 32 1] },
        { id := 11, name := "s.SROA.1.SROA.0", kind := .alloca (.int 32) 4
          ty := .ptr (.int 32), operands := [.constInt 32 1] },
        { id := 12, name := "s.SROA.0.SROA.0", kind := .alloca (.int 32) 4
          ty := .ptr (.int 32), operands := [.constInt 32 1] } ] }

/-! ## A sample symbol table -/

/-- The first of `name ++ "k"`, `name ++ "k+1"`, and so on, that is not in
`taken`, among at most `fuel` candidates. -/
def firstFreeName (taken : List String) (name : String) : Nat → Nat → String
  | 0, k => name ++ toString k
  | fuel + 1, k =>
    if (name ++ toString k) ∈ taken then firstFreeName taken name fuel (k + 1)
    else name ++ toString k

/-- A sample symbol table, in the state it has for a function just read in: a
requested name that no instruction of the function has is granted, and
otherwise a counter that starts at one is appended until no instruction has the
name. -/
def sampleSymbolTable : ValueSymbolTable :=
  { makeUniqueName := fun F _ name =>
      if name ∈ F.insts.map (fun I => I.name) then
        firstFreeName (F.insts.map (fun I => I.name)) name F.insts.length 1
      else name }

/-- A function in which an allocation already has the name the split of `%a`
asks for:
```
  %a        = alloca { i32, i32 }, align 4
  %a.SROA.0 = alloca i32, align 4
  %p0       = getelementptr { i32, i32 }, { i32, i32 }* %a, i32 0, i32 0
  store i32 7, i32* %p0
  store i32 8, i32* %a.SROA.0
  ret void
``` -/
def clashFn : Function :=
  { entry :=
      [ pairAlloca,
        { id := 2, name := "a.SROA.0", kind := .alloca (.int 32) 4, ty := .ptr (.int 32)
          operands := [.constInt 32 1] },
        { id := 3, name := "p0", kind := .gep, ty := .ptr (.int 32)
          operands := [.inst 1 (.ptr pairTy), .constInt 32 0, .constInt 32 0] },
        { id := 4, name := "", kind := .store, ty := .void
          operands := [.constInt 32 7, .inst 3 (.ptr (.int 32))] },
        { id := 5, name := "", kind := .store, ty := .void
          operands := [.constInt 32 8, .inst 2 (.ptr (.int 32))] },
        { id := 6, name := "", kind := .ret, ty := .void, operands := [] } ]
    rest := [] }

end SROA

/-! # The branch classifier (`BranchInstCount.cpp`)

The pass walks every instruction of every basic block of a function and, for
each branch instruction, increments statistics counters. It reads from a value
only its dynamic class (`dyn_cast`), the predicate of a comparison and the
incoming values of a phi node, so a value is modelled by just that. The counters
are natural numbers without a bound. -/

namespace BranchInstCount

/-- The predicates of `CmpInst::Predicate`, with the names the source uses; the
four the source never names fall under the `default:` of its `switch`. -/
inductive Predicate where
  | FCMP_FALSE | FCMP_OEQ | FCMP_OGT | FCMP_OGE | FCMP_OLT | FCMP_OLE | FCMP_ONE | FCMP_ORD
  | FCMP_UNO | FCMP_UEQ | FCMP_UGT | FCMP_UGE | FCMP_ULT | FCMP_ULE | FCMP_UNE | FCMP_TRUE
  | ICMP_EQ | ICMP_NE | ICMP_UGT | ICMP_UGE | ICMP_ULT | ICMP_ULE
  | ICMP_SGT | ICMP_SGE | ICMP_SLT | ICMP_SLE
  deriving DecidableEq

/-- A value as the pass sees it: a comparison with its predicate, a phi node
with its incoming values, a binary operator, or anything else (an argument, a
constant, a basic block label, another instruction). -/
inductive Value where
  | cmpInst (pred : Predicate)
  | phiNode (incoming : List Value)
  | binaryOperator
  | other

/-- An instruction: a branch with its operand list, or anything else. A
conditional branch has the operands condition, false target, true target; an
unconditional branch has its target as only operand. -/
inductive Instruction where
  | branchInst (operands : List Value)
  | other

/-- `BranchInst::isConditional`: the branch has three operands. -/
def Instruction.isConditional : Instruction → Bool
  | .branchInst [_, _, _] => true
  | _ => false

/-- `BranchInst::isUnconditional`: the branch has one operand. -/
def Instruction.isUnconditional : Instruction → Bool
  | .branchInst [_] => true
  | _ => false

/-- `BranchInst::getCondition` of a conditional branch. -/
def Instruction.getCondition : Instruction → Option Value
  | .branchInst [c, _, _] => some c
  | _ => none

/-- A function: its basic blocks, each a list of instructions. -/
structure Function where
  blocks : List (List Instruction)

/-- All instructions of a function, block by block. -/
def Function.insts (F : Function) : List Instruction := F.blocks.flatten

/-- The eight `STATISTIC` counters of the file. -/
@[ext]
structure Statistics where
  NumCondBranch : Nat
  NumUncondBranch : Nat
  NumEqBranch : Nat
  NumGTBranch : Nat
  NumLTBranch : Nat
  NumNEqBranch : Nat
  NumGEBranch : Nat
  NumLEBranch : Nat
  deriving DecidableEq

/-- The `switch (cmpInst->getPredicate())` on the condition of a branch. -/
def countCmp (p : Predicate) (s : Statistics) : Statistics :=
  match p with
  | .ICMP_EQ | .FCMP_OEQ | .FCMP_UEQ => { s with NumEqBranch := s.NumEqBranch + 1 }
  | .ICMP_SGT | .ICMP_UGT | .FCMP_OGT | .FCMP_UGT => { s with NumGTBranch := s.NumGTBranch + 1 }
  | .ICMP_SLT | .ICMP_ULT | .FCMP_OLT | .FCMP_ULT => { s with NumLTBranch := s.NumLTBranch + 1 }
  | .ICMP_NE | .FCMP_ONE | .FCMP_UNE => { s with NumNEqBranch := s.NumNEqBranch + 1 }
  | .ICMP_UGE | .ICMP_SGE | .FCMP_OGE | .FCMP_UGE => { s with NumGEBranch := s.NumGEBranch + 1 }
  | .ICMP_ULE | .ICMP_SLE | .FCMP_OLE | .FCMP_ULE => { s with NumLEBranch := s.NumLEBranch + 1 }
  | _ => s

/-- The body of the loop over the incoming values of a phi node. -/
def countIncoming (phiNodeCC : Value) (s : Statistics) : Statistics :=
  match phiNodeCC with
  | .cmpInst p =>
    if p = .ICMP_EQ then { s with NumEqBranch := s.NumEqBranch + 1 }
    else if p = .ICMP_NE then { s with NumNEqBranch := s.NumNEqBranch + 1 }
    else s
  | _ => s

/-- The loop `for (i = 0; i < phiNode->getNumIncomingValues(); i++)`. -/
def countPhi : List Value → Statistics → Statistics
  | [], s => s
  | v :: vs, s => countPhi vs (countIncoming v s)

/-- The body of the inner loop of `runOnFunction`, for one instruction. -/
def visitInstruction (I : Instruction) (s : Statistics) : Statistics :=
  match I with
  | .branchInst [brInstCC, _, _] =>
    let s1 := { s with NumCondBranch := s.NumCondBranch + 1 }
    match brInstCC with
    | .cmpInst p => countCmp p s1
    | .phiNode incoming => countPhi incoming s1
    | .binaryOperator => s1
    | .other => s1
  | .branchInst [_] => { s with NumUncondBranch := s.NumUncondBranch + 1 }
  | .branchInst _ => s
  | .other => s

/-- The loop over the instructions of one basic block. -/
def visitBlock : List Instruction → Statistics → Statistics
  | [], s => s
  | I :: Is, s => visitBlock Is (visitInstruction I s)

/-- The loop over the basic blocks of the function. -/
def visitBlocks : List (List Instruction) → Statistics → Statistics
  | [], s => s
  | b :: bs, s => visitBlocks bs (visitBlock b s)

/-- `BranchInstCount::runOnFunction`: the counters after the run, and the
result `false`. -/
def runOnFunction (F : Function) (s : Statistics) : Bool × Statistics :=
  (false, visitBlocks F.blocks s)

/-- `isa<BranchInst>`. -/
def Instruction.isBranchInst : Instruction → Bool
  | .branchInst _ => true
  | .other => false

/-- The value is a comparison with the predicate `p`. -/
def Value.isCmpWith (p : Predicate) : Value → Bool
  | .cmpInst q => decide (q = p)
  | _ => false

/-! ## Counters as a whole -/

/-- All counters at zero. -/
def Statistics.zero : Statistics := ⟨0, 0, 0, 0, 0, 0, 0, 0⟩

/-- Counter-wise sum. -/
def Statistics.add (a b : Statistics) : Statistics :=
  ⟨a.NumCondBranch + b.NumCondBranch, a.NumUncondBranch + b.NumUncondBranch,
    a.NumEqBranch + b.NumEqBranch, a.NumGTBranch + b.NumGTBranch,
    a.NumLTBranch + b.NumLTBranch, a.NumNEqBranch + b.NumNEqBranch,
    a.NumGEBranch + b.NumGEBranch, a.NumLEBranch + b.NumLEBranch⟩

/-- The counters in the order of their declaration. -/
def Statistics.toList (s : Statistics) : List Nat :=
  [s.NumCondBranch, s.NumUncondBranch, s.NumEqBranch, s.NumGTBranch, s.NumLTBranch,
    s.NumNEqBranch, s.NumGEBranch, s.NumLEBranch]

/-- The six comparison classes. -/
inductive CmpClass where
  | Eq | NEq | Gt | Ge | Lt | Le
  deriving DecidableEq

/-- The counter of a comparison class. -/
def Statistics.classCounter (s : Statistics) : CmpClass → Nat
  | .Eq => s.NumEqBranch
  | .NEq => s.NumNEqBranch
  | .Gt => s.NumGTBranch
  | .Ge => s.NumGEBranch
  | .Lt => s.NumLTBranch
  | .Le => s.NumLEBranch

/-! ## The predicate table of the specification -/

/-- The predicate table in the words of the specification: integer equal and
ordered or unordered float equal go to Eq; signed or unsigned greater-than and
ordered or unordered float greater-than go to Gt; likewise less-than to Lt; the
not-equal variants to NEq; the greater-or-equal variants to Ge; the
less-or-equal variants to Le. -/
def specTable : List (List Predicate × CmpClass) :=
  [ ([.ICMP_EQ, .FCMP_OEQ, .FCMP_UEQ], .Eq),
    ([.ICMP_SGT, .ICMP_UGT, .FCMP_OGT, .FCMP_UGT], .Gt),
    ([.ICMP_SLT, .ICMP_ULT, .FCMP_OLT, .FCMP_ULT], .Lt),
    ([.ICMP_NE, .FCMP_ONE, .FCMP_UNE], .NEq),
    ([.ICMP_SGE, .ICMP_UGE, .FCMP_OGE, .FCMP_UGE], .Ge),
    ([.ICMP_SLE, .ICMP_ULE, .FCMP_OLE, .FCMP_ULE], .Le) ]

/-- The predicates the specification names as outside the table: always-false,
always-true, ordered, unordered. -/
def specOutside : List Predicate := [.FCMP_FALSE, .FCMP_TRUE, .FCMP_ORD, .FCMP_UNO]

/-- The classes the table gives a predicate: one for every row that lists it. -/
def specClasses (p : Predicate) : List CmpClass :=
  (specTable.filter (fun row => decide (p ∈ row.1))).map (fun row => row.2)

/-! ## Sample functions -/

/-- A function whose last conditional branch is on a phi node that merges a
float equality test with a constant; the first conditional branch is on an
argument:
```
entry:
  %c1 = fcmp oeq double %x, %y
  br i1 %k, label %a, label %join
a:
  br label %join
join:
  %c = phi i1 [ %c1, %entry ], [ false, %a ]
  br i1 %c, label %t, label %f
t:
  ret void
f:
  ret void
``` -/
def phiFloatEqFn : Function :=
  { blocks :=
      [ [.other, .branchInst [.other, .other, .other]],
        [.branchInst [.other]],
        [.other, .branchInst [.phiNode [.cmpInst .FCMP_OEQ, .other], .other, .other]],
        [.other],
        [.other] ] }

/-- A function whose only conditional branch is on a phi node that merges two
integer equality tests:
```
entry:
  %c1 = icmp eq i32 %x, 0
  %c2 = icmp eq i32 %y, 0
  switch i32 %z, label %a [ i32 0, label %b ]
a:
  br label %join
b:
  br label %join
join:
  %c = phi i1 [ %c1, %a ], [ %c2, %b ]
  br i1 %c, label %t, label %f
t:
  ret void
f:
  ret void
``` -/
def phiTwoEqFn : Function :=
  { blocks :=
      [ [.other, .other, .other],
        [.branchInst [.other]],
        [.branchInst [.other]],
        [.other, .branchInst [.phiNode [.cmpInst .ICMP_EQ, .cmpInst .ICMP_EQ], .other, .other]],
        [.other],
        [.other] ] }

/-- A function with a conditional branch on a comparison, one on an
exclusive-or and an unconditional branch:
```
entry:
  %c = icmp slt i32 %x, %y
  br i1 %c, label %a, label %b
a:
  %d = xor i1 %c, %k
  br i1 %d, label %b, label %e
b:
  br label %e
e:
  ret void
``` -/
def xorFn : Function :=
  { blocks :=
      [ [.other, .branchInst [.cmpInst .ICMP_SLT, .other, .other]],
        [.other, .branchInst [.binaryOperator, .other, .other]],
        [.branchInst [.other]],
        [.other] ] }

/-- What one instruction is to add to the counter of the comparison class `k`.
A conditional branch on a comparison adds one when the table of the
specification gives the predicate the class, and nothing otherwise. A
conditional branch on a phi node adds, for the classes Eq and NEq, the number
of incoming values that are an `icmp eq`, respectively an `icmp ne`. Every other
instruction adds nothing. -/
def classDelta (k : CmpClass) : Instruction → Nat
  | .branchInst [condition, _, _] =>
    match condition with
    | .cmpInst p => if k ∈ specClasses p then 1 else 0
    | .phiNode incoming =>
      match k with
      | .Eq => incoming.countP (Value.isCmpWith .ICMP_EQ)
      | .NEq => incoming.countP (Value.isCmpWith .ICMP_NE)
      | _ => 0
    | _ => 0
  | _ => 0

/-- The instruction is a conditional branch whose condition is directly a
comparison to which the table of the specification gives the class `k`. -/
def Instruction.isCmpBranchOfClass (k : CmpClass) : Instruction → Bool
  | .branchInst [condition, _, _] =>
    match condition with
    | .cmpInst p => decide (k ∈ specClasses p)
    | _ => false
  | _ => false

/-- The instruction is a conditional branch on a phi node. -/
def Instruction.isPhiBranch : Instruction → Bool
  | .branchInst [condition, _, _] =>
    match condition with
    | .phiNode _ => true
    | _ => false
  | _ => false

/-- A function with two conditional branches on equality tests, one on a
signed less-than test, and an unconditional branch:
```
entry:
  %c = icmp eq i32 %x, %y
  br i1 %c, label %a, label %b
a:
  %d = fcmp ueq double %u, %v
  br i1 %d, label %b, label %e
b:
  %f = icmp slt i32 %x, 0
  br i1 %f, label %e, label %g
g:
  br label %e
e:
  ret void
``` -/
def cmpFn : Function :=
  { blocks :=
      [ [.other, .branchInst [.cmpInst .ICMP_EQ, .other, .other]],
        [.other, .branchInst [.cmpInst .FCMP_UEQ, .other, .other]],
        [.other, .branchInst [.cmpInst .ICMP_SLT, .other, .other]],
        [.branchInst [.other]],
        [.other] ] }

end BranchInstCount

/-! # Theorems -/

namespace SROA

/-! The theorems hold for every symbol table `Sym`, and the lemmas on the loop
that creates the field allocations for every answer `uniqueName` of a table. -/

variable {Sym : ValueSymbolTable} {uniqueName : Nat → String → String}

/-! ### The legality check -/

/-- The test on the number of indices is the test on the shape of the operand
list. -/
theorem checkUser_eq (U : Instruction) :
    checkUser U =
      if U.isGEP then
        match U.operands with
        | [p, i1, i2] =>
          if !p.getType.isPointer then .ok false
          else if !i1.isConstant then .error .castFailed
          else if !i1.isZeroValue then .ok false
          else if !i2.isConstant then .ok false
          else .ok true
        | _ => .ok false
      else .ok false := by
  obtain ⟨id, name, kind, ty, ops⟩ := U
  simp only [checkUser, Instruction.getNumIndices]
  match ops with
  | [] => simp
  | [_] => simp
  | [_, _] => simp
  | [_, _, _] => simp
  | _ :: _ :: _ :: _ :: _ => simp

theorem checkUser_eq_ok_true_iff (U : Instruction) :
    checkUser U = .ok true ↔
      U.isGEP = true ∧ ∃ p i1 i2, U.operands = [p, i1, i2] ∧ p.getType.isPointer = true ∧
        i1.isConstant = true ∧ i1.isZeroValue = true ∧ i2.isConstant = true := by
  rw [checkUser_eq]
  constructor
  · intro h
    split at h
    · rename_i hg
      split at h
      · rename_i p i1 i2 hops
        refine ⟨hg, p, i1, i2, hops, ?_⟩
        cases hp : p.getType.isPointer <;> cases h1 : i1.isConstant <;>
          cases hz : i1.isZeroValue <;> cases h2 : i2.isConstant <;> simp_all
      · simp at h
    · simp at h
  · rintro ⟨hg, p, i1, i2, hops, hp, h1, hz, h2⟩
    simp [hg, hops, hp, h1, hz, h2]

theorem checkUsers_eq_ok_true_iff (us : List Instruction) :
    checkUsers us = .ok true ↔ ∀ U ∈ us, checkUser U = .ok true := by
  induction us with
  | nil => simp [checkUsers]
  | cons U us ih =>
    simp only [checkUsers, List.mem_cons, forall_eq_or_imp]
    cases h : checkUser U with
    | error e => simp
    | ok b =>
      cases b
      · simp
      · simp [ih]

/-- What the legality check tests: it returns eligible exactly when every user
of the allocation is a GEP with three operands whose pointer operand is of
pointer type, whose first index is a constant with zero value and whose second
index is a constant. -/
theorem checkGEPU1Format_eq_ok_true_iff (F : Function) (A : Instruction) :
    checkGEPU1Format F A = .ok true ↔
      ∀ U ∈ users F A.id, U.isGEP = true ∧ ∃ p i1 i2, U.operands = [p, i1, i2] ∧
        p.getType.isPointer = true ∧ i1.isConstant = true ∧ i1.isZeroValue = true ∧
        i2.isConstant = true := by
  rw [checkGEPU1Format, checkUsers_eq_ok_true_iff]
  constructor
  · intro h U hU; exact (checkUser_eq_ok_true_iff U).1 (h U hU)
  · intro h U hU; exact (checkUser_eq_ok_true_iff U).2 (h U hU)

theorem checkUsers_eq_ok_false_iff (us : List Instruction) :
    checkUsers us = .ok false ↔
      ∃ pre U post, us = pre ++ U :: post ∧ (∀ V ∈ pre, checkUser V = .ok true) ∧
        checkUser U = .ok false := by
  induction us with
  | nil => simp [checkUsers]
  | cons U us ih =>
    simp only [checkUsers]
    cases h : checkUser U with
    | error e =>
      simp only [reduceCtorEq, false_iff]
      rintro ⟨pre, V, post, heq, hpre, hV⟩
      cases pre with
      | nil => simp at heq; rw [← heq.1, h] at hV; cases hV
      | cons W pre =>
        simp at heq
        have := hpre W (by simp)
        rw [← heq.1, h] at this; cases this
    | ok b =>
      cases b
      · simp only [true_iff]
        exact ⟨[], U, us, rfl, by simp, h⟩
      · simp only [ih]
        constructor
        · rintro ⟨pre, V, post, heq, hpre, hV⟩
          refine ⟨U :: pre, V, post, by simp [heq], ?_, hV⟩
          intro W hW
          rcases List.mem_cons.1 hW with rfl | hW
          · exact h
          · exact hpre W hW
        · rintro ⟨pre, V, post, heq, hpre, hV⟩
          cases pre with
          | nil => simp at heq; rw [← heq.1, h] at hV; cases hV
          | cons W pre =>
            simp at heq
            exact ⟨pre, V, post, heq.2, fun X hX => hpre X (by simp [hX]), hV⟩


/-! ### Instructions of a rewritten function -/

theorem insts_mapBlocks_map (f : Instruction → Instruction) (F : Function) :
    (F.mapBlocks (List.map f)).insts = F.insts.map f := by
  simp [Function.mapBlocks, Function.insts, List.map_flatten]

theorem insts_mapBlocks_filter (p : Instruction → Bool) (F : Function) :
    (F.mapBlocks (List.filter p)).insts = F.insts.filter p := by
  simp [Function.mapBlocks, Function.insts, List.filter_flatten]

theorem insts_replaceAllUsesWith (F : Function) (old : Nat) (new : Value) :
    (F.replaceAllUsesWith old new).insts = F.insts.map (Instruction.replaceUses old new) :=
  insts_mapBlocks_map _ F

theorem insts_eraseFromParent (F : Function) (id : Nat) :
    (F.eraseFromParent id).insts = F.insts.filter (fun I => I.id != id) :=
  insts_mapBlocks_filter _ F

theorem insertBeforeList_of_not_mem (id : Nat) (n : Instruction) (l : List Instruction)
    (h : ∀ I ∈ l, I.id ≠ id) : insertBeforeList id n l = l := by
  induction l with
  | nil => rfl
  | cons I l ih =>
    have hI : I.id ≠ id := h I (by simp)
    simp [insertBeforeList, hI, ih (fun J hJ => h J (by simp [hJ]))]

theorem insertBeforeList_split (id : Nat) (n A : Instruction) (pre post : List Instruction)
    (hA : A.id = id) (h : ∀ I ∈ pre, I.id ≠ id) :
    insertBeforeList id n (pre ++ A :: post) = pre ++ n :: A :: post := by
  induction pre with
  | nil => simp [insertBeforeList, hA]
  | cons I pre ih =>
    have hI : I.id ≠ id := h I (by simp)
    simp [insertBeforeList, hI, ih (fun J hJ => h J (by simp [hJ]))]

theorem insertBefore_at {F : Function} {A : Instruction} {pre post : List Instruction}
    (h : At F A pre post) (n : Instruction) :
    F.insertBefore A.id n = { entry := pre ++ n :: A :: post, rest := F.rest } := by
  unfold Function.insertBefore Function.mapBlocks
  congr 1
  · rw [h.entry]; exact insertBeforeList_split _ _ _ _ _ rfl h.pre
  · conv_rhs => rw [← List.map_id F.rest]
    apply List.map_congr_left
    intro b hb
    exact insertBeforeList_of_not_mem _ _ _ (h.rest b hb)


/-! ### Fresh identities -/

theorem foldr_max_append (l1 l2 : List Nat) :
    (l1 ++ l2).foldr max 0 = max (l1.foldr max 0) (l2.foldr max 0) := by
  induction l1 with
  | nil => simp
  | cons x l1 ih => simp [ih, max_assoc]

theorem le_foldr_max {l : List Nat} {x : Nat} (h : x ∈ l) : x ≤ l.foldr max 0 := by
  induction l with
  | nil => cases h
  | cons y l ih =>
    rcases List.mem_cons.1 h with rfl | h
    · simp
    · have := ih h
      simp only [List.foldr_cons]; omega

theorem id_lt_freshId {F : Function} {I : Instruction} (h : I ∈ F.insts) :
    I.id < F.freshId := by
  unfold Function.freshId
  have : I.id ∈ F.insts.map (fun I => I.id) := List.mem_map_of_mem _ h
  have := le_foldr_max this
  omega

theorem At.mem_insts_at {F : Function} {A : Instruction} {pre post : List Instruction}
    (h : At F A pre post) : A ∈ F.insts := by
  simp [Function.insts, h.entry]

theorem At.mem_entry {F : Function} {A : Instruction} {pre post : List Instruction}
    (h : At F A pre post) : A ∈ F.entry := by
  simp [h.entry]

theorem freshId_insert {F : Function} {A : Instruction} {pre post : List Instruction}
    (h : At F A pre post) (n : Instruction) (hn : n.id = F.freshId) :
    Function.freshId { entry := pre ++ n :: A :: post, rest := F.rest } = F.freshId + 1 := by
  have h1 : F.freshId = (((pre ++ A :: post) ++ F.rest.flatten).map (fun I => I.id)).foldr max 0 + 1 := by
    simp [Function.freshId, Function.insts, h.entry]
  simp only [Function.freshId, Function.insts] at h1 ⊢
  simp only [List.map_append, List.map_cons, foldr_max_append, List.foldr_cons] at h1 ⊢
  rw [hn, Function.freshId, Function.insts, h.entry]
  simp only [List.map_append, List.map_cons, foldr_max_append, List.foldr_cons]
  omega

theorem At.insert {F : Function} {A : Instruction} {pre post : List Instruction}
    (h : At F A pre post) (n : Instruction) (hn : n.id = F.freshId) :
    At { entry := pre ++ n :: A :: post, rest := F.rest } A (pre ++ [n]) post := by
  refine ⟨by simp, ?_, h.rest⟩
  intro I hI
  rcases List.mem_append.1 hI with hI | hI
  · exact h.pre I hI
  · have : I = n := by simpa using hI
    subst this
    have := id_lt_freshId h.mem_insts_at
    omega

theorem fieldAllocas_length (A : Instruction) (fs : List Ty) (I base : Nat) :
    (fieldAllocas uniqueName A fs I base).length = fs.length := by
  induction fs generalizing I base with
  | nil => rfl
  | cons t ts ih => simp [fieldAllocas, ih]

theorem fieldAllocas_getElem? (A : Instruction) (fs : List Ty) (I base i : Nat) :
    (fieldAllocas uniqueName A fs I base)[i]? =
      fs[i]?.map (fun t => newFieldAlloca uniqueName A t (I + i) (base + i)) := by
  induction fs generalizing I base i with
  | nil => simp [fieldAllocas]
  | cons t ts ih =>
    cases i with
    | zero => simp [fieldAllocas]
    | succ i =>
      simp only [fieldAllocas, List.getElem?_cons_succ, ih]
      congr 1
      funext t
      congr 1 <;> omega

theorem mem_fieldAllocas {A : Instruction} {fs : List Ty} {I base : Nat} {n : Instruction}
    (h : n ∈ fieldAllocas uniqueName A fs I base) :
    ∃ i t, fs[i]? = some t ∧ n = newFieldAlloca uniqueName A t (I + i) (base + i) := by
  obtain ⟨i, hi⟩ := List.mem_iff_getElem?.1 h
  rw [fieldAllocas_getElem?] at hi
  cases hf : fs[i]? with
  | none => simp [hf] at hi
  | some t => exact ⟨i, t, hf, by simpa [hf] using hi.symm⟩

/-- The creation loop in closed form. -/
theorem createAllocas_spec (A : Instruction) (fs : List Ty) :
    ∀ (I : Nat) (F : Function) (pre post : List Instruction), At F A pre post →
      createAllocas uniqueName A fs I F =
        ({ entry := pre ++ fieldAllocas uniqueName A fs I F.freshId ++ A :: post, rest := F.rest },
          fieldAllocas uniqueName A fs I F.freshId) := by
  induction fs with
  | nil => intro I F pre post h; simp [createAllocas, fieldAllocas, ← h.entry]
  | cons t ts ih =>
    intro I F pre post h
    simp only [createAllocas]
    rw [insertBefore_at h]
    have h2 := h.insert (newFieldAlloca uniqueName A t I F.freshId) rfl
    rw [ih (I + 1) _ _ _ h2, freshId_insert h _ rfl]
    simp [fieldAllocas]

/-! ### The redirect and erase loops in closed form -/

theorem replaceUses_eq (old : Nat) (new : Value) :
    Instruction.replaceUses old new =
      Instruction.mapOperands (fun v => if v.isInst old then new else v) := rfl

theorem mapOperands_mapOperands (σ τ : Value → Value) (I : Instruction) :
    (I.mapOperands σ).mapOperands τ = I.mapOperands (τ ∘ σ) := by
  simp [Instruction.mapOperands]

theorem mapBlocks_mapBlocks (g h : List Instruction → List Instruction) (F : Function) :
    (F.mapBlocks g).mapBlocks h = F.mapBlocks (h ∘ g) := by
  simp [Function.mapBlocks]

theorem mapBlocks_id (F : Function) : F.mapBlocks (fun l => l) = F := by
  cases F; simp [Function.mapBlocks]

theorem mapOperands_id (I : Instruction) : I.mapOperands (fun v => v) = I := by
  cases I; simp [Instruction.mapOperands]

theorem redirectTarget_eq_some {news : List Instruction} {G n : Instruction}
    (h : redirectTarget news G = some n) :
    ∃ bits val, G.getOperand 2 = some (.constInt bits val) ∧
      news[getLimitedValue val]? = some n := by
  unfold redirectTarget at h
  split at h
  · rename_i bits val hop; exact ⟨bits, val, hop, h⟩
  · cases h

/-- One step of the redirect loop on a GEP for which a field allocation of the
right type is found. -/
theorem redirectLoop_cons_some {news : List Instruction} {U n : Instruction}
    (us : List Instruction) (F : Function) (old : List Instruction)
    (hg : U.isGEP = true) (hn : redirectTarget news U = some n) (ht : n.ty = U.ty) :
    redirectLoop news (U :: us) F old =
      redirectLoop news us (F.replaceAllUsesWith U.id n.asValue) (U :: old) := by
  obtain ⟨bits, val, hop, hget⟩ := redirectTarget_eq_some hn
  simp [redirectLoop, hg, hop, hget, ht]

theorem redirectLoop_cons_not_gep {news : List Instruction} {U : Instruction}
    (us : List Instruction) (F : Function) (old : List Instruction)
    (hg : U.isGEP = false) :
    redirectLoop news (U :: us) F old = redirectLoop news us F old := by
  simp [redirectLoop, hg]

/-- A step of the redirect loop that does not end the run found a field
allocation of the right type. -/
theorem redirectLoop_cons_ok {news : List Instruction} {U : Instruction}
    {us : List Instruction} {F : Function} {old : List Instruction}
    {r : Function × List Instruction}
    (hg : U.isGEP = true) (h : redirectLoop news (U :: us) F old = .ok r) :
    ∃ n, redirectTarget news U = some n ∧ n.ty = U.ty := by
  simp only [redirectLoop, hg, if_true] at h
  unfold redirectTarget
  split at h
  · rename_i bits val hop
    cases hn : news[getLimitedValue val]? with
    | none => simp [hn] at h
    | some n =>
      simp only [hn] at h
      by_cases ht : n.ty = U.ty
      · exact ⟨n, rfl, ht⟩
      · simp [ht] at h
  · cases h

/-- The redirect loop succeeds exactly when it finds a field allocation of the
right type for every GEP among the users. -/
theorem redirectLoop_isOk_iff (news : List Instruction) (us : List Instruction) :
    ∀ (F : Function) (old : List Instruction),
      (∃ r, redirectLoop news us F old = .ok r) ↔
        ∀ U ∈ us, U.isGEP = true → ∃ n, redirectTarget news U = some n ∧ n.ty = U.ty := by
  induction us with
  | nil => intro F old; simp [redirectLoop]
  | cons U us ih =>
    intro F old
    simp only [List.mem_cons, forall_eq_or_imp]
    cases hg : U.isGEP with
    | false => rw [redirectLoop_cons_not_gep us F old hg]; simp [ih]
    | true =>
      constructor
      · rintro ⟨r, hr⟩
        obtain ⟨n, hn, ht⟩ := redirectLoop_cons_ok hg hr
        rw [redirectLoop_cons_some us F old hg hn ht] at hr
        exact ⟨fun _ => ⟨n, hn, ht⟩, (ih _ _).1 ⟨r, hr⟩⟩
      · rintro ⟨h1, h2⟩
        obtain ⟨n, hn, ht⟩ := h1 rfl
        rw [redirectLoop_cons_some us F old hg hn ht]
        exact (ih _ _).2 h2

/-- The redirect loop in closed form. -/
theorem redirectLoop_spec (news : List Instruction) (us : List Instruction)
    (hfresh : ∀ n ∈ news, ∀ G ∈ us, n.id ≠ G.id) :
    ∀ (F : Function) (old : List Instruction) (r : Function × List Instruction),
      redirectLoop news us F old = .ok r →
        r = (F.mapBlocks (List.map (Instruction.mapOperands (redirectOperand news us))),
              (us.filter Instruction.isGEP).reverse ++ old) := by
  induction us with
  | nil =>
    intro F old r h
    simp only [redirectLoop, Except.ok.injEq] at h
    subst h
    have h1 : redirectOperand news [] = fun v => v := by funext v; rfl
    have h2 : Instruction.mapOperands (fun v => v) = fun I => I := by
      funext I; exact mapOperands_id I
    have h3 : List.map (fun I : Instruction => I) = fun l => l := by
      funext l; exact List.map_id' l
    simp only [h1, h2, h3, mapBlocks_id, List.filter_nil, List.reverse_nil, List.nil_append]
  | cons U us ih =>
    intro F old r h
    have hfresh2 : ∀ n ∈ news, ∀ G ∈ us, n.id ≠ G.id :=
      fun n hn G hG => hfresh n hn G (by simp [hG])
    cases hg : U.isGEP with
    | false =>
      rw [redirectLoop_cons_not_gep us F old hg] at h
      rw [ih hfresh2 F old r h]
      simp [redirectOperand, hg]
    | true =>
      obtain ⟨n, hn, ht⟩ := redirectLoop_cons_ok hg h
      rw [redirectLoop_cons_some us F old hg hn ht] at h
      rw [ih hfresh2 _ _ r h]
      obtain ⟨bits, val, hop, hget⟩ := redirectTarget_eq_some hn
      have hnmem : n ∈ news := List.mem_iff_getElem?.2 ⟨_, hget⟩
      congr 1
      · simp only [Function.replaceAllUsesWith, mapBlocks_mapBlocks, replaceUses_eq]
        congr 1
        funext l
        simp only [Function.comp, List.map_map]
        congr 1
        funext I
        simp only [Function.comp, mapOperands_mapOperands]
        congr 1
        funext v
        simp only [Function.comp, redirectOperand, hg, Bool.true_and, hn]
        by_cases hv : v.isInst U.id = true
        · simp only [hv, if_true]
          -- the new allocation is none of the later GEPs
          have : ∀ gs : List Instruction, (∀ G ∈ gs, n.id ≠ G.id) →
              redirectOperand news gs n.asValue = n.asValue := by
            intro gs hgs
            induction gs with
            | nil => rfl
            | cons G gs ihg =>
              have hne : n.id ≠ G.id := hgs G (by simp)
              have hi : n.asValue.isInst G.id = false := by
                simp [Instruction.asValue, Value.isInst, hne]
              simp only [redirectOperand, hi, Bool.and_false, Bool.false_eq_true, if_false]
              exact ihg (fun G' hG' => hgs G' (by simp [hG']))
          exact this us (hfresh2 n hnmem)
        · simp [hv]
      · simp [List.filter_cons, hg]

theorem eraseLoop_spec (old : List Instruction) :
    ∀ F : Function, eraseLoop old F =
      F.mapBlocks (List.filter (fun I => !(old.any (fun G => G.id == I.id)))) := by
  induction old with
  | nil =>
    intro F
    have : (List.filter (fun _ : Instruction => true)) = fun l => l := by
      funext l; simp
    simp [eraseLoop, this, mapBlocks_id]
  | cons G old ih =>
    intro F
    simp only [eraseLoop, ih, Function.eraseFromParent, mapBlocks_mapBlocks]
    congr 1
    funext l
    simp only [Function.comp, List.filter_filter]
    congr 1
    funext I
    by_cases h : G.id = I.id
    · simp [h]
    · have h2 : ¬ I.id = G.id := fun e => h e.symm
      have e1 : (I.id != G.id) = true := by simp [h2]
      have e2 : (G.id == I.id) = false := by simp [h]
      rw [e1, List.any_cons, e2]; simp

/-! ### Users -/

theorem mem_users {F : Function} {id : Nat} {U : Instruction} :
    U ∈ users F id ↔ U ∈ F.insts ∧ ∃ v ∈ U.operands, v.isInst id = true := by
  simp only [users, List.mem_flatMap, List.mem_replicate, ne_eq, List.countP_eq_zero, not_forall,
    Classical.not_imp, not_not]
  constructor
  · rintro ⟨a, ha, ⟨v, hv, hvi⟩, rfl⟩
    exact ⟨ha, v, hv, hvi⟩
  · rintro ⟨hU, v, hv, hvi⟩
    exact ⟨U, hU, ⟨v, hv, hvi⟩, rfl⟩

theorem users_congr_insts {F G : Function} (h : F.insts = G.insts) (id : Nat) :
    users F id = users G id := by
  simp [users, h]

theorem users_mapOperands (F : Function) (σ : Value → Value) (id : Nat)
    (h : ∀ U ∈ F.insts, ∀ v ∈ U.operands, (σ v).isInst id = v.isInst id) :
    users (F.mapBlocks (List.map (Instruction.mapOperands σ))) id =
      (users F id).map (Instruction.mapOperands σ) := by
  simp only [users, insts_mapBlocks_map, List.flatMap_map, List.map_flatMap]
  apply List.flatMap_congr
  intro U hU
  simp only [List.map_replicate]
  congr 1
  simp only [Instruction.mapOperands, List.countP_map]
  apply List.countP_congr
  intro v hv
  simp [h U hU v hv]

theorem users_filter (F : Function) (p : Instruction → Bool) (id : Nat) :
    users (F.mapBlocks (List.filter p)) id = (users F id).filter p := by
  simp only [users, insts_mapBlocks_filter, List.filter_flatMap]
  induction F.insts with
  | nil => rfl
  | cons U l ih =>
    simp only [List.filter_cons, List.flatMap_cons]
    cases hp : p U
    · simp [ih, List.filter_replicate, hp]
    · simp [ih, List.filter_replicate, hp]

theorem users_insert_fieldAllocas (F : Function) {A : Instruction} {pre post : List Instruction}
    (h : At F A pre post) (fs : List Ty) (I base : Nat) (id : Nat) :
    users { entry := pre ++ fieldAllocas uniqueName A fs I base ++ A :: post, rest := F.rest } id =
      users F id := by
  have hz : (fieldAllocas uniqueName A fs I base).flatMap
      (fun U => List.replicate (U.operands.countP (Value.isInst id)) U) = [] := by
    rw [List.flatMap_eq_nil_iff]
    intro n hn
    obtain ⟨i, t, -, rfl⟩ := mem_fieldAllocas hn
    simp [newFieldAlloca, Value.isInst]
  simp only [users, Function.insts, h.entry, List.flatMap_append, hz, List.nil_append,
    List.append_assoc]

theorem mapOperands_id_eq (σ : Value → Value) (I : Instruction) :
    (I.mapOperands σ).id = I.id := rfl

/-- A successful split in closed form. -/
theorem splitAlloca_spec {F F2 : Function} {A : Instruction} {pre post news : List Instruction}
    {fs : List Ty} {al : Nat} (hat : At F A pre post) (hk : A.kind = .alloca (.struct fs) al)
    (h : splitAlloca Sym F A = .ok (F2, news)) :
    news = fieldAllocas (Sym.makeUniqueName F) A fs 0 F.freshId ∧
      F2 = Function.mapBlocks (splitBlock A news (users F A.id))
        { entry := pre ++ news ++ A :: post, rest := F.rest } ∧
      ∀ G ∈ users F A.id, G.isGEP = true → ∃ n, redirectTarget news G = some n ∧ n.ty = G.ty := by
  unfold splitAlloca at h
  simp only [Instruction.getAllocatedType, hk, Ty.containedTypes] at h
  rw [createAllocas_spec A fs 0 F pre post hat] at h
  simp only [users_insert_fieldAllocas F hat] at h
  split at h
  · cases h
  · rename_i F3 old hred
    simp only [Except.ok.injEq, Prod.mk.injEq] at h
    obtain ⟨hF, hnews⟩ := h
    subst hnews
    have hfresh : ∀ n ∈ fieldAllocas (Sym.makeUniqueName F) A fs 0 F.freshId,
        ∀ G ∈ users F A.id, n.id ≠ G.id := by
      intro n hn G hG
      obtain ⟨i, t, -, rfl⟩ := mem_fieldAllocas hn
      have := id_lt_freshId (mem_users.1 hG).1
      simp only [newFieldAlloca]; omega
    have hok := (redirectLoop_isOk_iff _ _ _ _).1 ⟨_, hred⟩
    have hspec := redirectLoop_spec _ _ hfresh _ _ _ hred
    simp only [Prod.mk.injEq] at hspec
    obtain ⟨h3, hold⟩ := hspec
    refine ⟨rfl, ?_, hok⟩
    rw [← hF, eraseLoop_spec, h3, hold, Function.eraseFromParent, mapBlocks_mapBlocks,
      mapBlocks_mapBlocks]
    congr 1
    funext l
    simp only [Function.comp, splitBlock, List.append_nil, List.filter_filter, List.filter_map]
    congr 1
    apply List.filter_congr
    intro I _
    simp only [Function.comp, splitKeep, mapOperands_id_eq, List.any_reverse, List.any_filter]
  

/-! ### Consequences of well-formedness -/

theorem WellFormed.id_inj {F : Function} (h : WellFormed F) {I J : Instruction}
    (hI : I ∈ F.insts) (hJ : J ∈ F.insts) (e : I.id = J.id) : I = J :=
  List.inj_on_of_nodup_map h.1 hI hJ e

theorem WellFormed.resolves {F : Function} (h : WellFormed F) {U : Instruction}
    (hU : U ∈ F.insts) {id : Nat} {ty : Ty} (hv : Value.inst id ty ∈ U.operands) :
    ∃ I ∈ F.insts, I.id = id ∧ I.ty = ty := by
  have := h.2.1 U hU _ hv
  simpa [Value.resolvesIn] using this

theorem WellFormed.at_of_mem_entry {F : Function} (h : WellFormed F) {A : Instruction}
    (hA : A ∈ F.entry) : ∃ pre post, At F A pre post := by
  obtain ⟨pre, post, he⟩ := List.append_of_mem hA
  have hn := h.1
  simp only [Function.insts, he, List.map_append, List.map_cons, List.append_assoc] at hn
  rw [List.nodup_append] at hn
  obtain ⟨-, h2, h3⟩ := hn
  refine ⟨pre, post, ⟨he, ?_, ?_⟩⟩
  · intro I hI e
    exact h3 (List.mem_map_of_mem _ hI) (by simp [e])
  · intro b hb I hI e
    rw [List.cons_append, List.nodup_cons] at h2
    apply h2.1
    rw [← e]
    apply List.mem_append_right
    apply List.mem_map_of_mem
    exact List.mem_flatten.2 ⟨b, hb, hI⟩

theorem isInst_iff {id : Nat} {v : Value} :
    v.isInst id = true ↔ ∃ ty, v = .inst id ty := by
  cases v <;> simp [Value.isInst]

theorem isConstant_not_isInst {v : Value} (h : v.isConstant = true) (id : Nat) :
    v.isInst id = false := by
  cases v <;> simp_all [Value.isInst, Value.isConstant]

theorem alloca_typed {U : Instruction} {t : Ty} {al : Nat} (hk : U.kind = .alloca t al)
    (h : U.wellTyped = true) : U.ty = .ptr t ∧ ∀ v ∈ U.operands, v.getType.isInt = true := by
  simpa [Instruction.wellTyped, hk] using h

theorem isAlloca_iff {U : Instruction} : U.isAlloca = true ↔ ∃ t al, U.kind = .alloca t al := by
  unfold Instruction.isAlloca
  cases U.kind <;> simp

theorem isGEP_iff {U : Instruction} : U.isGEP = true ↔ U.kind = .gep := by
  unfold Instruction.isGEP
  cases U.kind <;> simp

/-- An allocation is not among the users of another allocation. -/
theorem WellFormed.alloca_not_user {F : Function} (h : WellFormed F) {A B : Instruction}
    (hA : A ∈ F.insts) (hB : B ∈ F.insts) (hAa : A.isAlloca = true) (hBa : B.isAlloca = true) :
    A ∉ users F B.id := by
  intro hu
  obtain ⟨-, v, hv, hvi⟩ := mem_users.1 hu
  obtain ⟨ty, rfl⟩ := isInst_iff.1 hvi
  obtain ⟨I, hI, e1, e2⟩ := h.resolves hA hv
  have := h.id_inj hI hB e1
  subst this
  obtain ⟨t, al, hk⟩ := isAlloca_iff.1 hBa
  obtain ⟨t2, al2, hk2⟩ := isAlloca_iff.1 hAa
  have h1 := (alloca_typed hk (h.2.2.1 _ hI)).1
  have h2 := (alloca_typed hk2 (h.2.2.1 _ hA)).2 _ hv
  simp [Value.getType, ← e2, h1, Ty.isInt] at h2

/-- Shape of the users of an allocation the legality check accepts. -/
theorem accepted_user {F : Function} {A G : Instruction}
    (hacc : checkGEPU1Format F A = .ok true) (hG : G ∈ users F A.id) :
    G ∈ F.insts ∧ G.isGEP = true ∧ ∃ p i1 i2, G.operands = [p, i1, i2] ∧
      p.isInst A.id = true ∧ p.getType.isPointer = true ∧ i1.isConstant = true ∧
      i1.isZeroValue = true ∧ i2.isConstant = true := by
  have h1 := (checkUsers_eq_ok_true_iff _).1 hacc G hG
  obtain ⟨hg, p, i1, i2, hops, hp, hc1, hz, hc2⟩ := (checkUser_eq_ok_true_iff G).1 h1
  obtain ⟨hmem, v, hv, hvi⟩ := mem_users.1 hG
  refine ⟨hmem, hg, p, i1, i2, hops, ?_, hp, hc1, hz, hc2⟩
  rw [hops] at hv
  simp only [List.mem_cons, List.mem_singleton, List.not_mem_nil, or_false] at hv
  rcases hv with rfl | rfl | rfl
  · exact hvi
  · rw [isConstant_not_isInst hc1] at hvi; cases hvi
  · rw [isConstant_not_isInst hc2] at hvi; cases hvi

/-! ### The redirected operand -/

theorem redirectOperand_of_not_gep_result (news : List Instruction) (gs : List Instruction)
    (v : Value) (h : ∀ G ∈ gs, G.isGEP = true → v.isInst G.id = false) :
    redirectOperand news gs v = v := by
  induction gs with
  | nil => rfl
  | cons G gs ih =>
    simp only [redirectOperand]
    cases hg : G.isGEP with
    | false => simpa using ih (fun G' hG' => h G' (by simp [hG']))
    | true =>
      simp only [h G (by simp) hg, Bool.and_false, Bool.false_eq_true, if_false]
      exact ih (fun G' hG' => h G' (by simp [hG']))

theorem redirectOperand_cases (news : List Instruction) (gs : List Instruction) (v : Value) :
    redirectOperand news gs v = v ∨
      ∃ G ∈ gs, G.isGEP = true ∧ v.isInst G.id = true ∧
        ∃ n, redirectTarget news G = some n ∧ redirectOperand news gs v = n.asValue := by
  induction gs with
  | nil => exact Or.inl rfl
  | cons G gs ih =>
    simp only [redirectOperand]
    by_cases hc : (G.isGEP && v.isInst G.id) = true
    · simp only [hc, if_true]
      cases hn : redirectTarget news G with
      | none => exact Or.inl rfl
      | some n =>
        simp only [Bool.and_eq_true] at hc
        exact Or.inr ⟨G, by simp, hc.1, hc.2, n, hn, rfl⟩
    · simp only [hc, if_false]
      rcases ih with h | ⟨G', hG', h1, h2, n, h3, h4⟩
      · exact Or.inl h
      · exact Or.inr ⟨G', by simp [hG'], h1, h2, n, h3, h4⟩

/-- The operand that was the result of a redirected GEP is the field allocation
picked for that GEP. -/
theorem redirectOperand_of_gep_result (news : List Instruction) (gs : List Instruction)
    (hinj : ∀ G ∈ gs, ∀ G' ∈ gs, G.id = G'.id → G = G')
    {G n : Instruction} {v : Value} (hG : G ∈ gs) (hg : G.isGEP = true)
    (hv : v.isInst G.id = true) (hn : redirectTarget news G = some n) :
    redirectOperand news gs v = n.asValue := by
  induction gs with
  | nil => cases hG
  | cons G' gs ih =>
    simp only [redirectOperand]
    by_cases hc : (G'.isGEP && v.isInst G'.id) = true
    · simp only [hc, if_true]
      simp only [Bool.and_eq_true] at hc
      obtain ⟨ty, rfl⟩ := isInst_iff.1 hv
      have e : G'.id = G.id := by
        have := hc.2; simp only [Value.isInst, beq_iff_eq] at this; exact this.symm
      have := hinj G' (by simp) G hG e
      subst this
      simp [hn]
    · simp only [hc, if_false]
      rcases List.mem_cons.1 hG with rfl | hG2
      · simp [hg, hv] at hc
      · exact ih (fun a ha b hb => hinj a (by simp [ha]) b (by simp [hb])) hG2

/-! ### One split -/

theorem isStructAlloca_iff {U : Instruction} :
    U.isStructAlloca = true ↔ ∃ fs al, U.kind = .alloca (.struct fs) al := by
  unfold Instruction.isStructAlloca
  cases hk : U.kind with
  | alloca t al => cases t <;> simp [Ty.isStruct]
  | _ => simp

theorem isStructAlloca_isAlloca {U : Instruction} (h : U.isStructAlloca = true) :
    U.isAlloca = true := by
  obtain ⟨fs, al, hk⟩ := isStructAlloca_iff.1 h
  simp [Instruction.isAlloca, hk]

theorem mem_insts_of_mem_entry {F : Function} {I : Instruction} (h : I ∈ F.entry) :
    I ∈ F.insts := by
  simp [Function.insts, h]

theorem insts_mapBlocks_splitBlock (A : Instruction) (news gs : List Instruction)
    (F : Function) :
    (F.mapBlocks (splitBlock A news gs)).insts =
      (F.insts.filter (splitKeep A gs)).map
        (Instruction.mapOperands (redirectOperand news gs)) := by
  have : splitBlock A news gs =
      (List.map (Instruction.mapOperands (redirectOperand news gs))) ∘
        (List.filter (splitKeep A gs)) := by
    funext l; rfl
  rw [this, ← mapBlocks_mapBlocks, insts_mapBlocks_map, insts_mapBlocks_filter]

/-- The closed form of a split, with the data it speaks of. -/
theorem Split.spec {F F2 : Function} {A : Instruction} {news : List Instruction}
    (h : Split Sym F A F2 news) :
    ∃ pre post fs al, At F A pre post ∧ A.kind = .alloca (.struct fs) al ∧
      news = fieldAllocas (Sym.makeUniqueName F) A fs 0 F.freshId ∧
      F2 = Function.mapBlocks (splitBlock A news (users F A.id))
        { entry := pre ++ news ++ A :: post, rest := F.rest } := by
  obtain ⟨pre, post, hat⟩ := h.wf.at_of_mem_entry h.mem
  obtain ⟨fs, al, hk⟩ := isStructAlloca_iff.1 h.struct
  obtain ⟨h1, h2, -⟩ := splitAlloca_spec hat hk h.result
  exact ⟨pre, post, fs, al, hat, hk, h1, h2⟩

theorem Split.target {F F2 : Function} {A : Instruction} {news : List Instruction}
    (h : Split Sym F A F2 news) {G : Instruction} (hG : G ∈ users F A.id) :
    ∃ n, redirectTarget news G = some n ∧ n.ty = G.ty ∧ n ∈ news := by
  obtain ⟨pre, post, hat⟩ := h.wf.at_of_mem_entry h.mem
  obtain ⟨fs, al, hk⟩ := isStructAlloca_iff.1 h.struct
  obtain ⟨-, -, h3⟩ := splitAlloca_spec hat hk h.result
  obtain ⟨n, hn, ht⟩ := h3 G hG (accepted_user h.accepted hG).2.1
  obtain ⟨bits, val, -, hget⟩ := redirectTarget_eq_some hn
  exact ⟨n, hn, ht, List.mem_iff_getElem?.2 ⟨_, hget⟩⟩

theorem Split.new_props {F F2 : Function} {A : Instruction} {news : List Instruction}
    (h : Split Sym F A F2 news) {n : Instruction} (hn : n ∈ news) :
    F.freshId ≤ n.id ∧ n.operands = [.constInt 32 1] ∧ n.isAlloca = true ∧
      n.wellTyped = true ∧ (∀ I ∈ F.insts, I.id ≠ n.id) := by
  obtain ⟨pre, post, fs, al, hat, hk, h1, -⟩ := h.spec
  subst h1
  obtain ⟨i, t, -, rfl⟩ := mem_fieldAllocas hn
  refine ⟨by simp [newFieldAlloca], rfl, rfl, ?_, ?_⟩
  · simp [Instruction.wellTyped, newFieldAlloca, Value.getType, Ty.isInt]
  · intro I hI
    have := id_lt_freshId hI
    simp only [newFieldAlloca]; omega

theorem Split.news_nodup {F F2 : Function} {A : Instruction} {news : List Instruction}
    (h : Split Sym F A F2 news) : (news.map (fun I => I.id)).Nodup := by
  obtain ⟨pre, post, fs, al, hat, hk, h1, -⟩ := h.spec
  subst h1
  have : ∀ (fs : List Ty) (I base : Nat),
      (fieldAllocas (Sym.makeUniqueName F) A fs I base).map (fun I => I.id) =
        List.range' base fs.length := by
    intro fs
    induction fs with
    | nil => intro I base; rfl
    | cons t ts ih =>
      intro I base
      simp [fieldAllocas, ih, newFieldAlloca, List.range'_succ]
  rw [this]
  exact List.nodup_range' _ _

theorem splitKeep_iff {A : Instruction} {gs : List Instruction} {I : Instruction} :
    splitKeep A gs I = true ↔
      I.id ≠ A.id ∧ ∀ G ∈ gs, G.isGEP = true → G.id ≠ I.id := by
  simp [splitKeep]

theorem Split.keep_new {F F2 : Function} {A : Instruction} {news : List Instruction}
    (h : Split Sym F A F2 news) {n : Instruction} (hn : n ∈ news) :
    splitKeep A (users F A.id) n = true := by
  have hp := (h.new_props hn).2.2.2.2
  rw [splitKeep_iff]
  refine ⟨fun e => hp A (mem_insts_of_mem_entry h.mem) e.symm, ?_⟩
  intro G hG _
  exact hp G (mem_users.1 hG).1

theorem Split.map_new {F F2 : Function} {A : Instruction} {news : List Instruction}
    (h : Split Sym F A F2 news) {n : Instruction} (hn : n ∈ news) (σ : Value → Value)
    (hσ : ∀ v, v.isConstant = true → σ v = v) :
    n.mapOperands σ = n := by
  have hp := (h.new_props hn).2.1
  cases n
  simp only [Instruction.mapOperands] at hp ⊢
  subst hp
  simp [hσ (.constInt 32 1) rfl]

theorem redirectOperand_const (news gs : List Instruction) (v : Value)
    (h : v.isConstant = true) : redirectOperand news gs v = v :=
  redirectOperand_of_not_gep_result news gs v (fun G _ _ => isConstant_not_isInst h G.id)

/-- Membership in the function a split produces. -/
theorem Split.mem_insts {F F2 : Function} {A : Instruction} {news : List Instruction}
    (h : Split Sym F A F2 news) {J : Instruction} :
    J ∈ F2.insts ↔
      J ∈ news ∨ ∃ I ∈ F.insts, splitKeep A (users F A.id) I = true ∧
        J = I.mapOperands (redirectOperand news (users F A.id)) := by
  obtain ⟨pre, post, fs, al, hat, hk, h1, h2⟩ := h.spec
  have hmem : ∀ I : Instruction,
      I ∈ Function.insts { entry := pre ++ news ++ A :: post, rest := F.rest } ↔
        I ∈ news ∨ I ∈ F.insts := by
    intro I
    simp only [Function.insts, hat.entry, List.mem_append, List.mem_cons]
    tauto
  rw [h2, insts_mapBlocks_splitBlock]
  simp only [List.mem_map, List.mem_filter, hmem]
  constructor
  · rintro ⟨I, ⟨hI, hkeep⟩, rfl⟩
    rcases hI with hI | hI
    · rw [h.map_new hI _ (redirectOperand_const _ _)]
      exact Or.inl hI
    · exact Or.inr ⟨I, hI, hkeep, rfl⟩
  · rintro (hJ | ⟨I, hI, hkeep, rfl⟩)
    · exact ⟨J, ⟨Or.inl hJ, h.keep_new hJ⟩, h.map_new hJ _ (redirectOperand_const _ _)⟩
    · exact ⟨I, ⟨Or.inr hI, hkeep⟩, rfl⟩

theorem wellTyped_mapOperands (σ : Value → Value) (U : Instruction)
    (h : ∀ v ∈ U.operands, (σ v).getType = v.getType ∧ structIndex (σ v) = structIndex v) :
    (U.mapOperands σ).wellTyped = U.wellTyped := by
  obtain ⟨id, name, kind, ty, ops⟩ := U
  simp only [Instruction.mapOperands] at h ⊢
  cases kind with
  | alloca t al =>
    simp only [Instruction.wellTyped, List.all_map]
    congr 1
    rw [Bool.eq_iff_iff]
    simp only [List.all_eq_true, Function.comp]
    constructor
    · intro h2 v hv; rw [← (h v hv).1]; exact h2 v hv
    · intro h2 v hv; rw [(h v hv).1]; exact h2 v hv
  | gep =>
    simp only [Instruction.wellTyped]
    match ops, h with
    | [], _ => rfl
    | [_], _ => rfl
    | [_, _], _ => rfl
    | p :: i1 :: i2 :: rest, h =>
      simp only [List.map_cons]
      rw [(h p (by simp)).1, (h i1 (by simp)).1, (h i2 (by simp)).1, (h i2 (by simp)).2]
      have : (List.map σ rest).isEmpty = rest.isEmpty := by cases rest <;> rfl
      rw [this]
  | load => rfl
  | store => rfl
  | call => rfl
  | ret => rfl
  | br => rfl
  | other => rfl

theorem redirectOperand_structIndex (news gs : List Instruction) (v : Value) :
    structIndex (redirectOperand news gs v) = structIndex v := by
  rcases redirectOperand_cases news gs v with h | ⟨G, -, -, hv, n, -, h⟩
  · rw [h]
  · obtain ⟨ty, rfl⟩ := isInst_iff.1 hv
    rw [h]; rfl

theorem redirectOperand_isConstant (news gs : List Instruction) (v : Value) :
    (redirectOperand news gs v).isConstant = v.isConstant := by
  rcases redirectOperand_cases news gs v with h | ⟨G, -, -, hv, n, -, h⟩
  · rw [h]
  · obtain ⟨ty, rfl⟩ := isInst_iff.1 hv
    rw [h]; rfl

theorem redirectOperand_isZeroValue (news gs : List Instruction) (v : Value) :
    (redirectOperand news gs v).isZeroValue = v.isZeroValue := by
  rcases redirectOperand_cases news gs v with h | ⟨G, -, -, hv, n, -, h⟩
  · rw [h]
  · obtain ⟨ty, rfl⟩ := isInst_iff.1 hv
    rw [h]; rfl

/-- Redirecting keeps the type of every operand. -/
theorem Split.redirect_getType {F F2 : Function} {A : Instruction} {news : List Instruction}
    (h : Split Sym F A F2 news) {U : Instruction} (hU : U ∈ F.insts) {v : Value}
    (hv : v ∈ U.operands) :
    (redirectOperand news (users F A.id) v).getType = v.getType := by
  rcases redirectOperand_cases news (users F A.id) v with e | ⟨G, hG, -, hvi, n, hn, e⟩
  · rw [e]
  · obtain ⟨ty, rfl⟩ := isInst_iff.1 hvi
    obtain ⟨I, hI, e1, e2⟩ := h.wf.resolves hU hv
    have := h.wf.id_inj hI (mem_users.1 hG).1 e1
    subst this
    obtain ⟨n', hn', ht, -⟩ := h.target hG
    rw [hn] at hn'
    cases hn'
    rw [e]
    simp [Instruction.asValue, Value.getType, ht, e2]

theorem Split.users_inj {F F2 : Function} {A : Instruction} {news : List Instruction}
    (h : Split Sym F A F2 news) :
    ∀ G ∈ users F A.id, ∀ G' ∈ users F A.id, G.id = G'.id → G = G' :=
  fun _ hG _ hG' e => h.wf.id_inj (mem_users.1 hG).1 (mem_users.1 hG').1 e

theorem Split.nodup {F F2 : Function} {A : Instruction} {news : List Instruction}
    (h : Split Sym F A F2 news) : (F2.insts.map (fun I => I.id)).Nodup := by
  obtain ⟨pre, post, fs, al, hat, hk, h1, h2⟩ := h.spec
  rw [h2, insts_mapBlocks_splitBlock, List.map_map]
  have e : ((fun I : Instruction => I.id) ∘
      Instruction.mapOperands (redirectOperand news (users F A.id))) = fun I => I.id := rfl
  rw [e]
  apply List.Nodup.sublist (List.Sublist.map _ (List.filter_sublist _))
  have hp : List.Perm (Function.insts { entry := pre ++ news ++ A :: post, rest := F.rest })
      (news ++ F.insts) := by
    simp only [Function.insts, hat.entry, List.append_assoc]
    rw [← List.append_assoc pre news, ← List.append_assoc news pre]
    exact List.Perm.append_right _ List.perm_append_comm
  rw [(hp.map _).nodup_iff, List.map_append, List.nodup_append]
  refine ⟨h.news_nodup, h.wf.1, ?_⟩
  intro x hx hx2
  obtain ⟨n, hn, rfl⟩ := List.mem_map.1 hx
  obtain ⟨I, hI, e⟩ := List.mem_map.1 hx2
  exact (h.new_props hn).2.2.2.2 I hI e

theorem Split.not_keep_user {F F2 : Function} {A : Instruction} {news : List Instruction}
    (h : Split Sym F A F2 news) {G : Instruction} (hG : G ∈ users F A.id) :
    splitKeep A (users F A.id) G = false := by
  have hg := (accepted_user h.accepted hG).2.1
  cases hk : splitKeep A (users F A.id) G with
  | false => rfl
  | true => exact absurd rfl ((splitKeep_iff.1 hk).2 G hG hg)

theorem Split.redirect_target_mem {F F2 : Function} {A : Instruction} {news : List Instruction}
    (_h : Split Sym F A F2 news) {G n : Instruction} (hn : redirectTarget news G = some n) :
    n ∈ news := by
  obtain ⟨bits, val, -, hget⟩ := redirectTarget_eq_some hn
  exact List.mem_iff_getElem?.2 ⟨_, hget⟩

/-- An instruction that stays and the definition of one of its operands: the
definition stays too, unless the operand is redirected. -/
theorem Split.operand_def_kept {F F2 : Function} {A : Instruction} {news : List Instruction}
    (h : Split Sym F A F2 news) {I I0 : Instruction} (hI : I ∈ F.insts)
    (hkeep : splitKeep A (users F A.id) I = true) {ty : Ty}
    (hv : Value.inst I0.id ty ∈ I.operands) (hI0 : I0 ∈ F.insts)
    (hfix : redirectOperand news (users F A.id) (.inst I0.id ty) = .inst I0.id ty) :
    splitKeep A (users F A.id) I0 = true := by
  rw [splitKeep_iff]
  constructor
  · intro e
    have hu : I ∈ users F A.id :=
      mem_users.2 ⟨hI, _, hv, by simp [Value.isInst, e]⟩
    rw [h.not_keep_user hu] at hkeep
    cases hkeep
  · intro G hG hg e
    obtain ⟨n, hn, -, hmem⟩ := h.target hG
    have hvi : (Value.inst I0.id ty).isInst G.id = true := by simp [Value.isInst, e]
    have := redirectOperand_of_gep_result news _ h.users_inj hG hg hvi hn
    rw [hfix] at this
    simp only [Instruction.asValue, Value.inst.injEq] at this
    exact (h.new_props hmem).2.2.2.2 I0 hI0 this.1

theorem Split.resolves_after {F F2 : Function} {A : Instruction} {news : List Instruction}
    (h : Split Sym F A F2 news) :
    ∀ U ∈ F2.insts, ∀ v ∈ U.operands, v.resolvesIn F2.insts = true := by
  intro J hJ v' hv'
  rcases h.mem_insts.1 hJ with hn | ⟨I, hI, hkeep, rfl⟩
  · rw [(h.new_props hn).2.1] at hv'
    simp only [List.mem_singleton] at hv'
    subst hv'; rfl
  · simp only [Instruction.mapOperands, List.mem_map] at hv'
    obtain ⟨v, hv, rfl⟩ := hv'
    rcases redirectOperand_cases news (users F A.id) v with e | ⟨G, hG, -, hvi, n, hn, e⟩
    · rw [e]
      cases v with
      | inst id ty =>
        obtain ⟨I0, hI0, e1, e2⟩ := h.wf.resolves hI hv
        subst e1
        have hk0 := h.operand_def_kept hI hkeep hv hI0 e
        simp only [Value.resolvesIn, List.any_eq_true, Bool.and_eq_true, decide_eq_true_eq]
        exact ⟨_, h.mem_insts.2 (Or.inr ⟨I0, hI0, hk0, rfl⟩), rfl, e2⟩
      | _ => rfl
    · rw [e]
      have hmem := h.redirect_target_mem hn
      simp only [Instruction.asValue, Value.resolvesIn, List.any_eq_true, Bool.and_eq_true,
        decide_eq_true_eq]
      exact ⟨n, h.mem_insts.2 (Or.inl hmem), rfl, rfl⟩

theorem Split.typed {F F2 : Function} {A : Instruction} {news : List Instruction}
    (h : Split Sym F A F2 news) : ∀ U ∈ F2.insts, U.wellTyped = true := by
  intro J hJ
  rcases h.mem_insts.1 hJ with hn | ⟨I, hI, hkeep, rfl⟩
  · exact (h.new_props hn).2.2.2.1
  · rw [wellTyped_mapOperands _ _
      (fun v hv => ⟨h.redirect_getType hI hv, redirectOperand_structIndex _ _ v⟩)]
    exact h.wf.2.2.1 I hI

theorem isTerminator_not_isAlloca {I : Instruction} (h : I.isTerminator = true) :
    I.isAlloca = false := by
  unfold Instruction.isTerminator at h
  unfold Instruction.isAlloca
  cases hk : I.kind <;> simp_all

theorem isTerminator_not_isGEP {I : Instruction} (h : I.isTerminator = true) :
    I.isGEP = false := by
  unfold Instruction.isTerminator at h
  unfold Instruction.isGEP
  cases hk : I.kind <;> simp_all

/-- In a well-formed function a terminator stays through a split. -/
theorem Split.keep_terminator {F F2 : Function} {A : Instruction} {news : List Instruction}
    (h : Split Sym F A F2 news) {T : Instruction} (hT : T ∈ F.insts)
    (ht : T.isTerminator = true) : splitKeep A (users F A.id) T = true := by
  rw [splitKeep_iff]
  constructor
  · intro e
    have := h.wf.id_inj hT (mem_insts_of_mem_entry h.mem) e
    subst this
    have := isTerminator_not_isAlloca ht
    rw [isStructAlloca_isAlloca h.struct] at this
    cases this
  · intro G hG hg e
    have := h.wf.id_inj (mem_users.1 hG).1 hT e
    subst this
    rw [isTerminator_not_isGEP ht] at hg
    cases hg

theorem Split.terminated {F F2 : Function} {A : Instruction} {news : List Instruction}
    (h : Split Sym F A F2 news) :
    F2.entry.getLast?.map Instruction.isTerminator = some true := by
  obtain ⟨pre, post, fs, al, hat, hk, h1, h2⟩ := h.spec
  have ht := h.wf.2.2.2
  cases hl : F.entry.getLast? with
  | none => simp [hl] at ht
  | some T =>
    simp only [hl, Option.map_some', Option.some.injEq] at ht
    obtain ⟨ys, hys⟩ := List.getLast?_eq_some_iff.1 hl
    have hTm : T ∈ F.insts := mem_insts_of_mem_entry (by simp [hys])
    have hkeep := h.keep_terminator hTm ht
    -- the terminator comes after the allocation
    have hpost : ∃ post', post = post' ++ [T] := by
      rcases List.eq_nil_or_concat post with hp | ⟨post', T', hp⟩
      · exfalso
        rw [hat.entry, hp] at hl
        rw [List.getLast?_concat] at hl
        cases hl
        have := isTerminator_not_isAlloca ht
        rw [isStructAlloca_isAlloca h.struct] at this
        cases this
      · rw [hat.entry, hp] at hl
        rw [List.concat_eq_append] at hp
        have : (pre ++ A :: (post' ++ [T'])).getLast? = some T' := by
          rw [show pre ++ A :: (post' ++ [T']) = (pre ++ A :: post') ++ [T'] by simp]
          exact List.getLast?_concat _
        rw [List.concat_eq_append, this] at hl
        cases hl
        exact ⟨post', hp⟩
    obtain ⟨post', rfl⟩ := hpost
    rw [h2]
    simp only [Function.mapBlocks]
    rw [show pre ++ news ++ A :: (post' ++ [T]) = (pre ++ news ++ A :: post') ++ [T] by simp]
    simp only [splitBlock, List.filter_append, List.filter_cons, hkeep, if_true,
      List.filter_nil, List.map_append, List.map_cons, List.map_nil]
    rw [List.getLast?_concat]
    simpa [Instruction.isTerminator, Instruction.mapOperands] using ht

/-- A split keeps the function well-formed. -/
theorem Split.wellFormed {F F2 : Function} {A : Instruction} {news : List Instruction}
    (h : Split Sym F A F2 news) : WellFormed F2 :=
  ⟨h.nodup, h.resolves_after, h.typed, h.terminated⟩

/-! ### Eligibility in the words of the specification -/

theorem specU1Format_iff (U : Instruction) :
    specU1Format U = true ↔
      U.isGEP = true ∧ ∃ p i1 i2, U.operands = [p, i1, i2] ∧ p.getType.isPointer = true ∧
        i1.isConstantInt = true ∧ i1.isZeroValue = true ∧ i2.isConstantInt = true := by
  obtain ⟨id, name, kind, ty, ops⟩ := U
  simp only [specU1Format, Instruction.getNumIndices, Instruction.getOperand]
  match ops with
  | [] => simp
  | [_] => simp
  | [_, _] => simp
  | [p, i1, i2] => simp [and_assoc]
  | _ :: _ :: _ :: _ :: _ => simp

theorem isConstantInt_isConstant {v : Value} (h : v.isConstantInt = true) :
    v.isConstant = true := by
  cases v <;> simp_all [Value.isConstantInt, Value.isConstant]

theorem specEligible_accepted {F : Function} {A : Instruction}
    (h : specEligible F A = true) : checkGEPU1Format F A = .ok true := by
  rw [checkGEPU1Format, checkUsers_eq_ok_true_iff]
  intro U hU
  simp only [specEligible, List.all_eq_true] at h
  obtain ⟨hg, p, i1, i2, hops, hp, h1, hz, h2⟩ := (specU1Format_iff U).1 (h U hU)
  exact (checkUser_eq_ok_true_iff U).2
    ⟨hg, p, i1, i2, hops, hp, isConstantInt_isConstant h1, hz, isConstantInt_isConstant h2⟩

theorem getLimitedValue_of_lt {k : Nat} (h : k < 2 ^ 32) : getLimitedValue k = k := by
  unfold getLimitedValue
  have : (2 : Nat) ^ 32 ≤ 2 ^ 64 - 1 := by norm_num
  omega

/-- Typing of a two-index GEP on a pointer to a struct whose indices are
constant integers: the second index is a field number and the GEP yields a
pointer to that field. -/
theorem gep_typed {G : Instruction} {p i1 : Value} {bits val : Nat} {fs : List Ty}
    (hg : G.isGEP = true) (hops : G.operands = [p, i1, .constInt bits val])
    (hp : p.getType = .ptr (.struct fs)) (h1 : i1.isConstantInt = true)
    (ht : G.wellTyped = true) :
    val < 2 ^ 32 ∧ ∃ t, fs[val]? = some t ∧ G.ty = .ptr t := by
  have hk := isGEP_iff.1 hg
  have hv1 : i1.getType.isVector = false := by
    cases i1 with
    | constInt b v => rfl
    | _ => simp [Value.isConstantInt] at h1
  have hsi : structIndex (.constInt bits val) =
      if bits = 32 ∧ val < 2 ^ 32 then some val else none := rfl
  simp only [Instruction.wellTyped, hk, hops, hp] at ht
  rw [hsi] at ht
  by_cases hb : bits = 32 ∧ val < 2 ^ 32
  · rw [if_pos hb] at ht
    have hv2 : (Value.constInt bits val).getType.isVector = false := rfl
    simp only [List.isEmpty_nil, Bool.not_true, Bool.false_or, hv1, hv2,
      Bool.and_eq_true, decide_eq_true_eq, Option.map_eq_some'] at ht
    obtain ⟨-, t, h3, h4⟩ := ht
    exact ⟨hb.2, t, h3, h4.symm⟩
  · rw [if_neg hb] at ht
    cases ht

/-- An allocation that is eligible in the words of the specification is split
without an error. -/
theorem split_succeeds {F : Function} {A : Instruction} (hwf : WellFormed F)
    (hmem : A ∈ F.entry) (hs : A.isStructAlloca = true) (hel : specEligible F A = true) :
    ∃ F2 news, Split Sym F A F2 news := by
  obtain ⟨pre, post, hat⟩ := hwf.at_of_mem_entry hmem
  obtain ⟨fs, al, hk⟩ := isStructAlloca_iff.1 hs
  have hacc := specEligible_accepted hel
  have hAm := mem_insts_of_mem_entry hmem
  have hAty := (alloca_typed hk (hwf.2.2.1 A hAm)).1
  suffices hs : ∃ r, splitAlloca Sym F A = .ok r by
    obtain ⟨⟨F2, news⟩, hr⟩ := hs
    exact ⟨F2, news, hwf, hmem, hs, hacc, hr⟩
  unfold splitAlloca
  simp only [Instruction.getAllocatedType, hk, Ty.containedTypes]
  rw [createAllocas_spec A fs 0 F pre post hat]
  simp only [users_insert_fieldAllocas F hat]
  have hok : ∃ r, redirectLoop (fieldAllocas (Sym.makeUniqueName F) A fs 0 F.freshId)
      (users F A.id)
      { entry := pre ++ fieldAllocas (Sym.makeUniqueName F) A fs 0 F.freshId ++ A :: post
        rest := F.rest } [] =
        .ok r := by
    rw [redirectLoop_isOk_iff]
    intro G hG hg
    simp only [specEligible, List.all_eq_true] at hel
    obtain ⟨-, p, i1, i2, hops, -, h1, -, h2⟩ := (specU1Format_iff G).1 (hel G hG)
    obtain ⟨hGm, -, p', i1', i2', hops', hpi, -⟩ := accepted_user hacc hG
    rw [hops] at hops'
    simp only [List.cons.injEq, and_true] at hops'
    obtain ⟨rfl, rfl, rfl⟩ := hops'
    obtain ⟨ty, rfl⟩ := isInst_iff.1 hpi
    have hvm : Value.inst A.id ty ∈ G.operands := by rw [hops]; simp
    obtain ⟨I, hI, e1, e2⟩ := hwf.resolves hGm hvm
    have := hwf.id_inj hI hAm e1
    subst this
    cases i2 with
    | constInt bits val =>
      have hpt : (Value.inst I.id ty).getType = .ptr (.struct fs) := by
        simp [Value.getType, ← e2, hAty]
      obtain ⟨hlt, t, hft, hty⟩ := gep_typed hg hops hpt h1 (hwf.2.2.1 G hGm)
      refine ⟨newFieldAlloca (Sym.makeUniqueName F) I t val (F.freshId + val), ?_, ?_⟩
      · simp [redirectTarget, Instruction.getOperand, hops, getLimitedValue_of_lt hlt,
          fieldAllocas_getElem?, hft]
      · simp [newFieldAlloca, hty]
    | _ => simp [Value.isConstantInt] at h2
  obtain ⟨⟨F3, old⟩, hr⟩ := hok
  rw [hr]
  exact ⟨_, rfl⟩

theorem WellFormed.at_of_entry_eq {F : Function} (h : WellFormed F) {A : Instruction}
    {pre post : List Instruction} (he : F.entry = pre ++ A :: post) : At F A pre post := by
  have hn := h.1
  simp only [Function.insts, he, List.map_append, List.map_cons, List.append_assoc] at hn
  rw [List.nodup_append] at hn
  obtain ⟨-, h2, h3⟩ := hn
  refine ⟨he, ?_, ?_⟩
  · intro I hI e
    exact h3 (List.mem_map_of_mem _ hI) (by simp [e])
  · intro b hb I hI e
    rw [List.cons_append, List.nodup_cons] at h2
    apply h2.1
    rw [← e]
    apply List.mem_append_right
    apply List.mem_map_of_mem
    exact List.mem_flatten.2 ⟨b, hb, hI⟩

/-- The entry block after a split: the new allocations stand where the old one
stood. -/
theorem Split.entry_eq {F F2 : Function} {A : Instruction} {news : List Instruction}
    (h : Split Sym F A F2 news) {pre post : List Instruction} (he : F.entry = pre ++ A :: post) :
    F2.entry = splitBlock A news (users F A.id) pre ++ news ++
        splitBlock A news (users F A.id) post ∧
      F2.rest = F.rest.map (splitBlock A news (users F A.id)) := by
  have hat := h.wf.at_of_entry_eq he
  obtain ⟨fs, al, hk⟩ := isStructAlloca_iff.1 h.struct
  obtain ⟨-, h2, -⟩ := splitAlloca_spec hat hk h.result
  rw [h2]
  simp only [Function.mapBlocks, and_true]
  have hA : splitKeep A (users F A.id) A = false := by simp [splitKeep]
  have hn : splitBlock A news (users F A.id) news = news := by
    simp only [splitBlock]
    rw [List.filter_eq_self.2 (fun n hn => h.keep_new hn)]
    conv_rhs => rw [← List.map_id news]
    apply List.map_congr_left
    intro n hn
    exact h.map_new hn _ (redirectOperand_const _ _)
  have happ : ∀ l1 l2, splitBlock A news (users F A.id) (l1 ++ l2) =
      splitBlock A news (users F A.id) l1 ++ splitBlock A news (users F A.id) l2 := by
    intro l1 l2; simp [splitBlock]
  rw [happ, happ, hn]
  congr 1
  simp [splitBlock, List.filter_cons, hA]

/-! ## C2: the field allocations a split creates -/

/-- C2 as stated fails: in the well-formed `clashFn` the eligible allocation `%a`
stands next to an allocation that already has the name `a.SROA.0`. Whatever the
symbol table does, as long as the name it gives the first new allocation is not
one an instruction of the function has, that allocation is not named
`A.name ++ ".SROA." ++ 0`. With the sample table the two new allocations are
`a.SROA.01` and `a.SROA.1`. -/
theorem new_alloca_name_can_differ :
    WellFormed clashFn ∧ pairAlloca ∈ clashFn.entry ∧ pairAlloca.isStructAlloca = true ∧
      specEligible clashFn pairAlloca = true ∧
      (∀ S : ValueSymbolTable,
        (∀ I ∈ clashFn.insts,
          I.name ≠ S.makeUniqueName clashFn clashFn.freshId "a.SROA.0") →
          ∃ F2 newAllocas n, splitAlloca S clashFn pairAlloca = .ok (F2, newAllocas) ∧
            newAllocas[0]? = some n ∧ n.name ≠ pairAlloca.name ++ ".SROA." ++ toString 0) ∧
      ∃ F2 newAllocas, splitAlloca sampleSymbolTable clashFn pairAlloca = .ok (F2, newAllocas) ∧
        newAllocas.map (fun n => n.name) = ["a.SROA.01", "a.SROA.1"] := by
  refine ⟨by decide, by decide, by decide, by decide, ?_, _, _, rfl, by decide⟩
  intro S hS
  refine ⟨_, _, _, rfl, rfl, ?_⟩
  intro e
  exact hS (Instruction.mk 2 "a.SROA.0" (.alloca (.int 32) 4) (.ptr (.int 32)) [.constInt 32 1])
    (by decide) e.symm

/-- C2, amended. For an allocation `A` of a struct type with fields `fs` that
stands in the entry block after `pre` and before `post` and is eligible, the
body of the work-list loop returns; it creates exactly `fs.length` new
allocations, the `i`-th with the type of field `i`, the alignment of `A` and the
name the symbol table of the function gives on the request
`A.name ++ ".SROA." ++ i`, which is that very string whenever the table grants
the request; in the resulting entry block they stand in field order between what
is left of `pre` and what is left of `post`, that is, where `A` stood; and an
iteration of the work-list loop of `performScalarRepl` that takes `A` from the
work list goes on with that function and with the new allocations pushed. -/
theorem performScalarRepl_creates_field_allocas (F : Function) (A : Instruction)
    (pre post : List Instruction) (fs : List Ty) (al : Nat)
    (hwf : WellFormed F) (hentry : F.entry = pre ++ A :: post)
    (hk : A.kind = .alloca (.struct fs) al) (hel : specEligible F A = true) :
    ∃ F2 newAllocas, splitAlloca Sym F A = .ok (F2, newAllocas) ∧
      newAllocas.length = fs.length ∧
      (∀ (i : Nat) (t : Ty), fs[i]? = some t → ∃ id : Nat,
        newAllocas[i]? = some
          (Instruction.mk id (Sym.makeUniqueName F id (A.name ++ ".SROA." ++ toString i))
            (.alloca t al) (.ptr t) [.constInt 32 1]) ∧
        (Sym.makeUniqueName F id (A.name ++ ".SROA." ++ toString i) =
            A.name ++ ".SROA." ++ toString i →
          newAllocas[i]? = some
            (Instruction.mk id (A.name ++ ".SROA." ++ toString i) (.alloca t al) (.ptr t)
              [.constInt 32 1]))) ∧
      F2.entry = splitBlock A newAllocas (users F A.id) pre ++ newAllocas ++
        splitBlock A newAllocas (users F A.id) post ∧
      F2.rest = F.rest.map (splitBlock A newAllocas (users F A.id)) ∧
      ∀ (fuel : Nat) (wl : List Instruction) (c : Bool) (n m : Nat),
        workLoop Sym (fuel + 1) (A :: wl) (c, ⟨F, n, m⟩) =
          workLoop Sym fuel (newAllocas.reverse ++ wl) (true, ⟨F2, n + 1, m⟩) := by
  have hmem : A ∈ F.entry := by simp [hentry]
  have hs : A.isStructAlloca = true := isStructAlloca_iff.2 ⟨fs, al, hk⟩
  obtain ⟨F2, news, hsp⟩ := @split_succeeds Sym F A hwf hmem hs hel
  have hat := hwf.at_of_entry_eq hentry
  obtain ⟨h1, -, -⟩ := splitAlloca_spec hat hk hsp.result
  obtain ⟨h3, h4⟩ := hsp.entry_eq hentry
  refine ⟨F2, news, hsp.result, ?_, ?_, h3, h4, ?_⟩
  · rw [h1, fieldAllocas_length]
  · intro i t hi
    have hget : news[i]? = some
        (Instruction.mk (F.freshId + i)
          (Sym.makeUniqueName F (F.freshId + i) (A.name ++ ".SROA." ++ toString i))
          (.alloca t al) (.ptr t) [.constInt 32 1]) := by
      rw [h1, fieldAllocas_getElem?, hi]
      simp [newFieldAlloca, Instruction.getAlignment, hk]
    refine ⟨F.freshId + i, hget, fun e => ?_⟩
    rw [hget, e]
  · intro fuel wl c n m
    simp [workLoop, hs, hsp.accepted, hsp.result]

/-- The hypotheses of the amended C2 hold for `%a` of `pairFn`, and the sample
table grants both requests there. -/
theorem performScalarRepl_creates_field_allocas_witness :
    WellFormed pairFn ∧ specEligible pairFn pairAlloca = true ∧
    (∃ F2 newAllocas, splitAlloca sampleSymbolTable pairFn pairAlloca = .ok (F2, newAllocas) ∧
      newAllocas.length = [Ty.int 32, Ty.int 32].length ∧
      (∀ (i : Nat) (t : Ty), [Ty.int 32, Ty.int 32][i]? = some t → ∃ id : Nat,
        newAllocas[i]? = some
          (Instruction.mk id
            (sampleSymbolTable.makeUniqueName pairFn id
              (pairAlloca.name ++ ".SROA." ++ toString i))
            (.alloca t 4) (.ptr t) [.constInt 32 1]) ∧
        (sampleSymbolTable.makeUniqueName pairFn id
            (pairAlloca.name ++ ".SROA." ++ toString i) =
            pairAlloca.name ++ ".SROA." ++ toString i →
          newAllocas[i]? = some
            (Instruction.mk id (pairAlloca.name ++ ".SROA." ++ toString i) (.alloca t 4)
              (.ptr t) [.constInt 32 1]))) ∧
      F2.entry = splitBlock pairAlloca newAllocas (users pairFn pairAlloca.id) [] ++
        newAllocas ++ splitBlock pairAlloca newAllocas (users pairFn pairAlloca.id)
          (pairFn.entry.drop 1) ∧
      F2.rest = pairFn.rest.map (splitBlock pairAlloca newAllocas (users pairFn pairAlloca.id)) ∧
      ∀ (fuel : Nat) (wl : List Instruction) (c : Bool) (n m : Nat),
        workLoop sampleSymbolTable (fuel + 1) (pairAlloca :: wl) (c, ⟨pairFn, n, m⟩) =
          workLoop sampleSymbolTable fuel (newAllocas.reverse ++ wl)
            (true, ⟨F2, n + 1, m⟩)) ∧
    (splitAlloca sampleSymbolTable pairFn pairAlloca).map (fun r => r.2.map (fun n => n.name)) =
      .ok ["a.SROA.0", "a.SROA.1"] :=
  ⟨by decide, by decide,
    performScalarRepl_creates_field_allocas pairFn pairAlloca [] (pairFn.entry.drop 1)
      [.int 32, .int 32] 4 (by decide) rfl rfl (by decide),
    rfl⟩

/-! ### Field indices -/

theorem structIndex_constInt {bits val k : Nat}
    (h : structIndex (.constInt bits val) = some k) : val = k ∧ val < 2 ^ 32 := by
  have hsi : structIndex (.constInt bits val) =
      if bits = 32 ∧ val < 2 ^ 32 then some val else none := rfl
  rw [hsi] at h
  by_cases hb : bits = 32 ∧ val < 2 ^ 32
  · rw [if_pos hb] at h
    exact ⟨Option.some.inj h, hb.2⟩
  · rw [if_neg hb] at h
    cases h

/-- In a well-formed function the second index of a GEP on a struct allocation
selects one of the fields of the struct. -/
theorem field_index_typed {F : Function} (hwf : WellFormed F) {A G : Instruction}
    {fs : List Ty} {al : Nat} (hA : A ∈ F.insts) (hk : A.kind = .alloca (.struct fs) al)
    (hG : G ∈ F.insts) (hg : G.isGEP = true) {p i1 i2 : Value} {rest : List Value}
    (hops : G.operands = p :: i1 :: i2 :: rest) (hp : p.isInst A.id = true) :
    ∃ k, structIndex i2 = some k ∧ k < fs.length := by
  obtain ⟨ty, rfl⟩ := isInst_iff.1 hp
  have hvm : Value.inst A.id ty ∈ G.operands := by rw [hops]; simp
  obtain ⟨I, hI, e1, e2⟩ := hwf.resolves hG hvm
  have := hwf.id_inj hI hA e1
  subst this
  have hAty := (alloca_typed hk (hwf.2.2.1 I hI)).1
  have ht := hwf.2.2.1 G hG
  have hpt : (Value.inst I.id ty).getType = .ptr (.struct fs) := by
    simp [Value.getType, ← e2, hAty]
  simp only [Instruction.wellTyped, isGEP_iff.1 hg, hops, hpt] at ht
  cases hsi : structIndex i2 with
  | none => simp [hsi] at ht
  | some k =>
    simp only [hsi, Bool.and_eq_true, decide_eq_true_eq] at ht
    exact ⟨k, rfl, ht.1⟩

/-- The field allocation a GEP on a split allocation is redirected to is the
entry of `newAllocas` at its second index. -/
theorem Split.target_index {F F2 : Function} {A : Instruction} {news : List Instruction}
    (h : Split Sym F A F2 news) {G : Instruction} (hG : G ∈ users F A.id) :
    ∃ bits k n, G.getOperand 2 = some (.constInt bits k) ∧ news[k]? = some n ∧
      redirectTarget news G = some n := by
  obtain ⟨n, hn, -, -⟩ := h.target hG
  obtain ⟨bits, val, hop, hget⟩ := redirectTarget_eq_some hn
  obtain ⟨hGm, hg, p, i1, i2, hops, hp, -⟩ := accepted_user h.accepted hG
  obtain ⟨fs, al, hk⟩ := isStructAlloca_iff.1 h.struct
  obtain ⟨k, hk1, -⟩ := field_index_typed h.wf (mem_insts_of_mem_entry h.mem) hk hGm hg hops hp
  have e : i2 = .constInt bits val := by
    simpa [Instruction.getOperand, hops] using hop
  subst e
  obtain ⟨-, hlt⟩ := structIndex_constInt hk1
  rw [getLimitedValue_of_lt hlt] at hget
  exact ⟨bits, val, n, hop, hget, hn⟩

/-! ## C3: redirecting and erasing -/

/-- C3. For an eligible struct allocation `A` of the entry block the body of the
work-list loop returns, and in the function it leaves: every instruction that is
neither `A` nor a GEP on `A` is still there with the same kind, name, type and
number of operands; where it had the result of a GEP `G` on `A` with field index
`k` as operand it has the `k`-th new allocation at the same position, and its
other operands are unchanged; no instruction has the identity of `A` or of a GEP
on `A`; and no operand is the result of `A` or of a GEP on `A`. -/
theorem performScalarRepl_redirects_and_erases (F : Function) (A : Instruction)
    (hwf : WellFormed F) (hmem : A ∈ F.entry) (hs : A.isStructAlloca = true)
    (hel : specEligible F A = true) :
    ∃ F2 newAllocas, splitAlloca Sym F A = .ok (F2, newAllocas) ∧
      (∀ U ∈ F.insts, U.id ≠ A.id → U ∉ users F A.id →
        ∃ U2 ∈ F2.insts, U2.id = U.id ∧ U2.kind = U.kind ∧ U2.name = U.name ∧ U2.ty = U.ty ∧
          U2.operands.length = U.operands.length ∧
          (∀ (pos : Nat) (G : Instruction) (ty : Ty), G ∈ users F A.id →
            U.operands[pos]? = some (.inst G.id ty) →
            ∃ bits k n, G.getOperand 2 = some (.constInt bits k) ∧
              newAllocas[k]? = some n ∧ U2.operands[pos]? = some n.asValue) ∧
          (∀ (pos : Nat) (v : Value), U.operands[pos]? = some v →
            (∀ G ∈ users F A.id, v.isInst G.id = false) → U2.operands[pos]? = some v)) ∧
      (∀ I ∈ F2.insts, I.id ≠ A.id ∧ ∀ G ∈ users F A.id, I.id ≠ G.id) ∧
      (∀ I ∈ F2.insts, ∀ v ∈ I.operands,
        v.isInst A.id = false ∧ ∀ G ∈ users F A.id, v.isInst G.id = false) := by
  obtain ⟨F2, news, h⟩ := @split_succeeds Sym F A hwf hmem hs hel
  have hAm := mem_insts_of_mem_entry hmem
  refine ⟨F2, news, h.result, ?_, ?_, ?_⟩
  · intro U hU hne hnu
    have hkeep : splitKeep A (users F A.id) U = true := by
      rw [splitKeep_iff]
      refine ⟨hne, fun G hG _ e => hnu ?_⟩
      have := hwf.id_inj (mem_users.1 hG).1 hU e
      subst this; exact hG
    refine ⟨U.mapOperands (redirectOperand news (users F A.id)),
      h.mem_insts.2 (Or.inr ⟨U, hU, hkeep, rfl⟩), rfl, rfl, rfl, rfl, ?_, ?_, ?_⟩
    · simp [Instruction.mapOperands]
    · intro pos G ty hG hpos
      obtain ⟨bits, k, n, h1, h2, h3⟩ := h.target_index hG
      refine ⟨bits, k, n, h1, h2, ?_⟩
      have hvi : (Value.inst G.id ty).isInst G.id = true := by simp [Value.isInst]
      simp only [Instruction.mapOperands, List.getElem?_map, hpos, Option.map_some']
      rw [redirectOperand_of_gep_result news _ h.users_inj hG
        (accepted_user h.accepted hG).2.1 hvi h3]
    · intro pos v hpos hv
      simp only [Instruction.mapOperands, List.getElem?_map, hpos, Option.map_some']
      rw [redirectOperand_of_not_gep_result news _ v (fun G hG _ => hv G hG)]
  · intro I hI
    rcases h.mem_insts.1 hI with hn | ⟨I0, hI0, hkeep, rfl⟩
    · have hp := (h.new_props hn).2.2.2.2
      exact ⟨fun e => hp A hAm e.symm, fun G hG e => hp G (mem_users.1 hG).1 e.symm⟩
    · obtain ⟨h1, h2⟩ := splitKeep_iff.1 hkeep
      exact ⟨h1, fun G hG e => h2 G hG (accepted_user h.accepted hG).2.1 e.symm⟩
  · intro I hI v' hv'
    have hnew : ∀ n ∈ news, n.asValue.isInst A.id = false ∧
        ∀ G ∈ users F A.id, n.asValue.isInst G.id = false := by
      intro n hn
      have hp := (h.new_props hn).2.2.2.2
      refine ⟨?_, fun G hG => ?_⟩
      · simpa [Instruction.asValue, Value.isInst] using fun e => hp A hAm e.symm
      · simpa [Instruction.asValue, Value.isInst] using
          fun e => hp G (mem_users.1 hG).1 e.symm
    rcases h.mem_insts.1 hI with hn | ⟨I0, hI0, hkeep, rfl⟩
    · rw [(h.new_props hn).2.1] at hv'
      simp only [List.mem_singleton] at hv'
      subst hv'
      exact ⟨rfl, fun _ _ => rfl⟩
    · simp only [Instruction.mapOperands, List.mem_map] at hv'
      obtain ⟨v, hv, rfl⟩ := hv'
      rcases redirectOperand_cases news (users F A.id) v with e | ⟨G, hG, -, hvi, n, hn, e⟩
      · rw [e]
        constructor
        · cases hA : v.isInst A.id with
          | false => rfl
          | true =>
            have hu : I0 ∈ users F A.id := mem_users.2 ⟨hI0, v, hv, hA⟩
            rw [h.not_keep_user hu] at hkeep
            cases hkeep
        · intro G hG
          cases hvG : v.isInst G.id with
          | false => rfl
          | true =>
            obtain ⟨n, hn, -, hmemn⟩ := h.target hG
            have := redirectOperand_of_gep_result news _ h.users_inj hG
              (accepted_user h.accepted hG).2.1 hvG hn
            rw [e] at this
            rw [this] at hvG
            rw [(hnew n hmemn).2 G hG] at hvG
            cases hvG
      · rw [e]
        exact hnew n (h.redirect_target_mem hn)

/-- The hypotheses of C3 hold for `%a` of `pairFn`. -/
theorem performScalarRepl_redirects_and_erases_witness :
    WellFormed pairFn ∧ pairAlloca ∈ pairFn.entry ∧ pairAlloca.isStructAlloca = true ∧
    specEligible pairFn pairAlloca = true ∧
    ∃ F2 newAllocas, splitAlloca sampleSymbolTable pairFn pairAlloca = .ok (F2, newAllocas) ∧
      (∀ U ∈ pairFn.insts, U.id ≠ pairAlloca.id → U ∉ users pairFn pairAlloca.id →
        ∃ U2 ∈ F2.insts, U2.id = U.id ∧ U2.kind = U.kind ∧ U2.name = U.name ∧ U2.ty = U.ty ∧
          U2.operands.length = U.operands.length ∧
          (∀ (pos : Nat) (G : Instruction) (ty : Ty), G ∈ users pairFn pairAlloca.id →
            U.operands[pos]? = some (.inst G.id ty) →
            ∃ bits k n, G.getOperand 2 = some (.constInt bits k) ∧
              newAllocas[k]? = some n ∧ U2.operands[pos]? = some n.asValue) ∧
          (∀ (pos : Nat) (v : Value), U.operands[pos]? = some v →
            (∀ G ∈ users pairFn pairAlloca.id, v.isInst G.id = false) →
              U2.operands[pos]? = some v)) ∧
      (∀ I ∈ F2.insts, I.id ≠ pairAlloca.id ∧ ∀ G ∈ users pairFn pairAlloca.id, I.id ≠ G.id) ∧
      (∀ I ∈ F2.insts, ∀ v ∈ I.operands,
        v.isInst pairAlloca.id = false ∧
          ∀ G ∈ users pairFn pairAlloca.id, v.isInst G.id = false) :=
  ⟨by decide, by decide, by decide, by decide,
    performScalarRepl_redirects_and_erases pairFn pairAlloca (by decide) (by decide)
      (by decide) (by decide)⟩

/-! ## C1, C7, C5: inputs on which the legality check departs from its contract -/

/-- C1. Evaluation at a failing input: in the well-formed `splatIndexFn` the only
user of `%a` is a GEP whose second index is a constant vector, not a constant
integer, so `%a` is not eligible in the words of the specification; the
legality check returns eligible all the same, and the splitter then fails at
its `cast<ConstantInt>`. -/
theorem checkGEPU1Format_accepts_vector_index :
    WellFormed splatIndexFn ∧
      specEligible splatIndexFn pairAlloca = false ∧
      checkGEPU1Format splatIndexFn pairAlloca = .ok true ∧
      ∀ S : ValueSymbolTable, performScalarRepl S ⟨splatIndexFn, 0, 0⟩ = .error .castFailed :=
  ⟨by decide, by decide, rfl, fun _ => rfl⟩

/-- C7. Evaluation at a failing input: in the well-formed `escapeFn` the result
of the GEP on `%a` is an argument of a call, so the documented condition (U1)
does not hold; the legality check returns eligible all the same. -/
theorem checkGEPU1Format_ignores_gep_users :
    WellFormed escapeFn ∧
      docU1 escapeFn pairAlloca = false ∧
      checkGEPU1Format escapeFn pairAlloca = .ok true :=
  ⟨by decide, by decide, rfl⟩

/-- C5. Evaluation at a failing input: in the well-formed `varIndexFn` the only
allocation of the entry block has a use that is not of the required form (its
first index is not the constant zero); `performScalarRepl` does not return
false there, it ends at the failed `cast<Constant>` of the legality check. -/
theorem performScalarRepl_aborts_on_variable_first_index :
    WellFormed varIndexFn ∧
      entryAllocas varIndexFn = [pairAlloca] ∧
      specEligible varIndexFn pairAlloca = false ∧
      checkGEPU1Format varIndexFn pairAlloca = .error .castFailed ∧
      ∀ S : ValueSymbolTable, performScalarRepl S ⟨varIndexFn, 0, 0⟩ = .error .castFailed :=
  ⟨by decide, by decide, by decide, rfl, fun _ => rfl⟩

/-! ### The work-list loop on allocations that are all skipped -/

theorem workLoop_skip_all (wl : List Instruction) (F : Function)
    (h : ∀ A ∈ wl, A.isStructAlloca = false ∨ checkGEPU1Format F A = .ok false) :
    ∀ (fuel : Nat) (c : Bool) (n m : Nat), wl.length ≤ fuel →
      workLoop Sym fuel wl (c, ⟨F, n, m⟩) = .ok (c, ⟨F, n, m⟩) := by
  induction wl with
  | nil => intro fuel c n m _; cases fuel <;> rfl
  | cons A wl ih =>
    intro fuel c n m hf
    cases fuel with
    | zero => simp at hf
    | succ fuel =>
      have hf2 : wl.length ≤ fuel := by simpa using hf
      have ih2 := ih (fun B hB => h B (by simp [hB])) fuel c n m hf2
      simp only [workLoop]
      rcases h A (by simp) with hA | hA
      · simp [hA, ih2]
      · cases hs : A.isStructAlloca
        · simp [ih2]
        · simp [hA, ih2]

theorem one_le_workCost (t : Ty) : 1 ≤ t.workCost := by
  cases t <;> simp [Ty.workCost]

theorem length_le_workListFuel (wl : List Instruction) : wl.length ≤ workListFuel wl := by
  induction wl with
  | nil => simp [workListFuel]
  | cons A wl ih =>
    have : 1 ≤ A.workCost := by
      unfold Instruction.workCost
      cases A.kind <;> simp [one_le_workCost]
    simp only [workListFuel, List.map_cons, List.sum_cons, List.length_cons] at ih ⊢
    omega

/-- When every allocation of the entry block is skipped, `performScalarRepl`
returns false and changes nothing. -/
theorem performScalarRepl_noop (st : State)
    (h : ∀ A ∈ entryAllocas st.F, A.isStructAlloca = false ∨
      checkGEPU1Format st.F A = .ok false) :
    performScalarRepl Sym st = .ok (false, st) := by
  obtain ⟨F, n, m⟩ := st
  unfold performScalarRepl
  exact workLoop_skip_all _ F (fun A hA => h A (List.mem_reverse.1 hA)) _ false n m
    (length_le_workListFuel _)

/-! ## C10: the measure that decreases with every split -/

theorem structNodes_mapOperands (σ : Value → Value) (I : Instruction) :
    (I.mapOperands σ).structNodes = I.structNodes := rfl

theorem sum_structNodes_fieldAllocas (A : Instruction) (fs : List Ty) (I base : Nat) :
    ((fieldAllocas uniqueName A fs I base).map Instruction.structNodes).sum =
      Ty.structNodesList fs := by
  induction fs generalizing I base with
  | nil => rfl
  | cons t ts ih =>
    simp [fieldAllocas, Ty.structNodesList, ih, newFieldAlloca, Instruction.structNodes]

theorem sum_structNodes_filter (p : Instruction → Bool) (l : List Instruction)
    (h : ∀ I ∈ l, p I = false → I.structNodes = 0) :
    ((l.filter p).map Instruction.structNodes).sum = (l.map Instruction.structNodes).sum := by
  induction l with
  | nil => rfl
  | cons I l ih =>
    have ih2 := ih (fun J hJ => h J (by simp [hJ]))
    cases hp : p I with
    | true => simp [List.filter_cons, hp, ih2]
    | false => simp [List.filter_cons, hp, ih2, h I (by simp) hp]

theorem isGEP_structNodes {I : Instruction} (h : I.isGEP = true) : I.structNodes = 0 := by
  simp [Instruction.structNodes, isGEP_iff.1 h]

/-- An instruction of the function that a split removes and that is not the
allocation itself is one of the GEPs on the allocation. -/
theorem Split.removed_is_gep {F F2 : Function} {A : Instruction} {news : List Instruction}
    (h : Split Sym F A F2 news) {I : Instruction} (hI : I ∈ F.insts) (hne : I.id ≠ A.id)
    (hk : splitKeep A (users F A.id) I = false) : I ∈ users F A.id ∧ I.isGEP = true := by
  have : ¬ (I.id ≠ A.id ∧ ∀ G ∈ users F A.id, G.isGEP = true → G.id ≠ I.id) := by
    rw [← splitKeep_iff, hk]; simp
  simp only [hne, ne_eq, not_false_eq_true, true_and, not_forall, not_not] at this
  obtain ⟨G, hG, hg, e⟩ := this
  have := h.wf.id_inj (mem_users.1 hG).1 hI e
  subst this
  exact ⟨hG, hg⟩

/-- The number of struct type constructors over all allocations goes down by
one with a split. -/
theorem Split.structNodeCount_eq {F F2 : Function} {A : Instruction} {news : List Instruction}
    (h : Split Sym F A F2 news) : structNodeCount F2 + 1 = structNodeCount F := by
  obtain ⟨pre, post, fs, al, hat, hk, h1, h2⟩ := h.spec
  have hentry := hat.entry
  obtain ⟨he, hr⟩ := h.entry_eq hentry
  have hzero : ∀ l : List Instruction, (∀ I ∈ l, I ∈ F.insts ∧ I.id ≠ A.id) →
      ((splitBlock A news (users F A.id) l).map Instruction.structNodes).sum =
        (l.map Instruction.structNodes).sum := by
    intro l hl
    simp only [splitBlock, List.map_map]
    have e : (Instruction.structNodes ∘
        Instruction.mapOperands (redirectOperand news (users F A.id))) =
          Instruction.structNodes := rfl
    rw [e]
    apply sum_structNodes_filter
    intro I hI hkp
    exact isGEP_structNodes (h.removed_is_gep (hl I hI).1 (hl I hI).2 hkp).2
  have hnodup := h.wf.1
  simp only [Function.insts, hentry, List.map_append, List.map_cons, List.append_assoc] at hnodup
  rw [List.nodup_append] at hnodup
  obtain ⟨-, hn2, -⟩ := hnodup
  rw [List.cons_append, List.nodup_cons] at hn2
  have hpre : ∀ I ∈ pre, I ∈ F.insts ∧ I.id ≠ A.id := fun I hI =>
    ⟨by simp [Function.insts, hentry, hI], hat.pre I hI⟩
  have hpost : ∀ I ∈ post, I ∈ F.insts ∧ I.id ≠ A.id := fun I hI =>
    ⟨by simp [Function.insts, hentry, hI], fun e => hn2.1 (by
      rw [← e]; exact List.mem_append_left _ (List.mem_map_of_mem _ hI))⟩
  have hrest : ∀ I ∈ F.rest.flatten, I ∈ F.insts ∧ I.id ≠ A.id := fun I hI =>
    ⟨by simp only [Function.insts, List.mem_append]; exact Or.inr hI, by
      obtain ⟨b, hb, hIb⟩ := List.mem_flatten.1 hI
      exact hat.rest b hb I hIb⟩
  have hrest2 : (List.map (splitBlock A news (users F A.id)) F.rest).flatten =
      splitBlock A news (users F A.id) F.rest.flatten := by
    simp only [splitBlock, List.map_flatten, List.filter_flatten, List.map_map]
    rfl
  have hA : A.structNodes = 1 + Ty.structNodesList fs := by
    simp [Instruction.structNodes, hk, Ty.structNodes]
  have hnews : (news.map Instruction.structNodes).sum = Ty.structNodesList fs := by
    rw [h1, sum_structNodes_fieldAllocas]
  simp only [structNodeCount, Function.insts, he, hr, hentry, hrest2, List.map_append,
    List.sum_append, List.map_cons, List.sum_cons, hzero pre hpre, hzero post hpost,
    hzero _ hrest, hA, hnews]
  omega

/-- C10 as stated fails: `%s` of `nestedFn` is eligible and is split, and the
function then has two struct-typed allocations where it had one. -/
theorem split_can_raise_struct_alloca_count :
    specEligible nestedFn nestedAlloca = true ∧
      ∀ S : ValueSymbolTable,
        ∃ F2 newAllocas, splitAlloca S nestedFn nestedAlloca = .ok (F2, newAllocas) ∧
          structAllocaCount nestedFn = 1 ∧ structAllocaCount F2 = 2 :=
  ⟨by decide, fun _ => ⟨_, _, rfl, by decide, rfl⟩⟩

/-- C10, amended. With every successful split of a struct allocation of the
entry block that passed the legality check, the number of struct type
constructors in the allocated types of the allocations of the function (each
struct-typed allocation counted with the structs nested in its type) becomes
strictly smaller, by exactly one. -/
theorem split_decreases_struct_nodes (F F2 : Function) (A : Instruction)
    (newAllocas : List Instruction) (hwf : WellFormed F) (hmem : A ∈ F.entry)
    (hs : A.isStructAlloca = true) (hacc : checkGEPU1Format F A = .ok true)
    (hres : splitAlloca Sym F A = .ok (F2, newAllocas)) :
    structNodeCount F2 < structNodeCount F ∧ structNodeCount F2 + 1 = structNodeCount F := by
  have h : Split Sym F A F2 newAllocas := ⟨hwf, hmem, hs, hacc, hres⟩
  have := h.structNodeCount_eq
  omega

/-! ### The out-of-range assertion -/

theorem redirectLoop_ne_indexOutOfRange (news : List Instruction) (us : List Instruction)
    (h : ∀ U ∈ us, U.isGEP = true → ∀ bits val, U.getOperand 2 = some (.constInt bits val) →
      getLimitedValue val < news.length) :
    ∀ (F : Function) (old : List Instruction),
      redirectLoop news us F old ≠ .error .indexOutOfRange := by
  induction us with
  | nil => intro F old; simp [redirectLoop]
  | cons U us ih =>
    intro F old
    have ih2 := ih (fun V hV => h V (by simp [hV]))
    simp only [redirectLoop]
    cases hg : U.isGEP with
    | false => simpa using ih2 F old
    | true =>
      simp only [if_true]
      split
      · rename_i bits val hop
        have hlt := h U (by simp) hg bits val hop
        obtain ⟨n, hn⟩ : ∃ n, news[getLimitedValue val]? = some n :=
          ⟨news[getLimitedValue val], List.getElem?_eq_getElem hlt⟩
        simp only [hn]
        split
        · exact ih2 _ _
        · simp
      · simp

/-- The users of an accepted struct allocation have a second index that is a
field number of the struct. -/
theorem accepted_user_index {F : Function} (hwf : WellFormed F) {A : Instruction}
    {fs : List Ty} {al : Nat} (hA : A ∈ F.insts) (hk : A.kind = .alloca (.struct fs) al)
    (hacc : checkGEPU1Format F A = .ok true) {G : Instruction} (hG : G ∈ users F A.id) :
    ∃ i2 k, G.getOperand 2 = some i2 ∧ structIndex i2 = some k ∧ k < fs.length := by
  obtain ⟨hGm, hg, p, i1, i2, hops, hp, -⟩ := accepted_user hacc hG
  obtain ⟨k, h1, h2⟩ := field_index_typed hwf hA hk hGm hg hops hp
  exact ⟨i2, k, by simp [Instruction.getOperand, hops], h1, h2⟩

theorem splitAlloca_ne_indexOutOfRange {F : Function} (hwf : WellFormed F) {A : Instruction}
    (hmem : A ∈ F.entry) (hs : A.isStructAlloca = true)
    (hacc : checkGEPU1Format F A = .ok true) :
    splitAlloca Sym F A ≠ .error .indexOutOfRange := by
  obtain ⟨pre, post, hat⟩ := hwf.at_of_mem_entry hmem
  obtain ⟨fs, al, hk⟩ := isStructAlloca_iff.1 hs
  unfold splitAlloca
  simp only [Instruction.getAllocatedType, hk, Ty.containedTypes]
  rw [createAllocas_spec A fs 0 F pre post hat]
  simp only [users_insert_fieldAllocas F hat]
  have hne := redirectLoop_ne_indexOutOfRange
    (fieldAllocas (Sym.makeUniqueName F) A fs 0 F.freshId) (users F A.id)
    (by
      intro G hG _ bits val hop
      obtain ⟨i2, k, h1, h2, h3⟩ :=
        accepted_user_index hwf (mem_insts_of_mem_entry hmem) hk hacc hG
      rw [hop] at h1
      cases h1
      obtain ⟨rfl, hlt⟩ := structIndex_constInt h2
      rw [getLimitedValue_of_lt hlt, fieldAllocas_length]
      exact h3)
    { entry := pre ++ fieldAllocas (Sym.makeUniqueName F) A fs 0 F.freshId ++ A :: post
      rest := F.rest } []
  split
  · rename_i e he
    intro h
    simp only [Except.error.injEq] at h
    subst h
    exact hne he
  · simp

/-! ### What a split leaves untouched -/

theorem isAlloca_not_isGEP {I : Instruction} (h : I.isAlloca = true) : I.isGEP = false := by
  obtain ⟨t, al, hk⟩ := isAlloca_iff.1 h
  simp [Instruction.isGEP, hk]

/-- Redirecting does not touch the uses of an allocation of the function. -/
theorem Split.redirect_isInst {F F2 : Function} {A : Instruction} {news : List Instruction}
    (h : Split Sym F A F2 news) {B : Instruction} (hB : B ∈ F.insts) (hBa : B.isAlloca = true)
    (v : Value) :
    (redirectOperand news (users F A.id) v).isInst B.id = v.isInst B.id := by
  rcases redirectOperand_cases news (users F A.id) v with e | ⟨G, hG, hg, hvi, n, hn, e⟩
  · rw [e]
  · rw [e]
    have h1 : n.asValue.isInst B.id = false := by
      have := (h.new_props (h.redirect_target_mem hn)).2.2.2.2 B hB
      simpa [Instruction.asValue, Value.isInst] using fun e => this e.symm
    have h2 : v.isInst B.id = false := by
      obtain ⟨ty, rfl⟩ := isInst_iff.1 hvi
      cases hb : (Value.inst G.id ty).isInst B.id with
      | false => rfl
      | true =>
        have e2 : G.id = B.id := by simpa [Value.isInst] using hb
        have := h.wf.id_inj (mem_users.1 hG).1 hB e2
        subst this
        rw [isAlloca_not_isGEP hBa] at hg
        cases hg
    rw [h1, h2]

/-- The users of another allocation all stay through a split. -/
theorem Split.keep_user_of_other {F F2 : Function} {A : Instruction} {news : List Instruction}
    (h : Split Sym F A F2 news) {B : Instruction} (hB : B ∈ F.insts) (hBa : B.isAlloca = true)
    (hne : B.id ≠ A.id) {U : Instruction} (hU : U ∈ users F B.id) :
    splitKeep A (users F A.id) U = true := by
  have hAm := mem_insts_of_mem_entry h.mem
  obtain ⟨hUm, v, hv, hvi⟩ := mem_users.1 hU
  rw [splitKeep_iff]
  constructor
  · intro e
    have := h.wf.id_inj hUm hAm e
    subst this
    exact h.wf.alloca_not_user hUm hB (isStructAlloca_isAlloca h.struct) hBa hU
  · intro G hG _ e
    have := h.wf.id_inj (mem_users.1 hG).1 hUm e
    subst this
    obtain ⟨-, -, p, i1, i2, hops, hp, -, hc1, -, hc2⟩ := accepted_user h.accepted hG
    rw [hops] at hv
    simp only [List.mem_cons, List.mem_singleton, List.not_mem_nil, or_false] at hv
    rcases hv with rfl | rfl | rfl
    · obtain ⟨ty, rfl⟩ := isInst_iff.1 hp
      simp only [Value.isInst, beq_iff_eq] at hvi
      exact hne hvi.symm
    · rw [isConstant_not_isInst hc1] at hvi; cases hvi
    · rw [isConstant_not_isInst hc2] at hvi; cases hvi

theorem checkUsers_map_congr (f : Instruction → Instruction) (us : List Instruction)
    (h : ∀ U ∈ us, checkUser (f U) = checkUser U) :
    checkUsers (us.map f) = checkUsers us := by
  induction us with
  | nil => rfl
  | cons U us ih =>
    simp only [List.map_cons, checkUsers, h U (by simp),
      ih (fun V hV => h V (by simp [hV]))]

theorem Split.checkUser_redirect {F F2 : Function} {A : Instruction} {news : List Instruction}
    (h : Split Sym F A F2 news) {U : Instruction} (hU : U ∈ F.insts) :
    checkUser (U.mapOperands (redirectOperand news (users F A.id))) = checkUser U := by
  obtain ⟨id, name, kind, ty, ops⟩ := U
  have ht : ∀ v ∈ ops, (redirectOperand news (users F A.id) v).getType = v.getType :=
    fun v hv => h.redirect_getType hU hv
  simp only [checkUser_eq, Instruction.mapOperands, Instruction.isGEP]
  match ops, ht with
  | [], _ => rfl
  | [_], _ => rfl
  | [_, _], _ => rfl
  | [p, i1, i2], ht =>
    simp only [List.map_cons, List.map_nil, ht p (by simp), redirectOperand_isConstant,
      redirectOperand_isZeroValue]
  | _ :: _ :: _ :: _ :: _, _ => rfl

/-- The legality check gives the same answer for any other allocation before and
after a split. -/
theorem Split.check_frame {F F2 : Function} {A : Instruction} {news : List Instruction}
    (h : Split Sym F A F2 news) {B : Instruction} (hB : B ∈ F.insts) (hBa : B.isAlloca = true)
    (hne : B.id ≠ A.id) : checkGEPU1Format F2 B = checkGEPU1Format F B := by
  obtain ⟨pre, post, fs, al, hat, hk, h1, h2⟩ := h.spec
  have hsb : splitBlock A news (users F A.id) =
      (List.map (Instruction.mapOperands (redirectOperand news (users F A.id)))) ∘
        (List.filter (splitKeep A (users F A.id))) := by
    funext l; rfl
  have hu := @users_insert_fieldAllocas (Sym.makeUniqueName F) F A pre post hat fs 0
    F.freshId B.id
  rw [← h1] at hu
  unfold checkGEPU1Format
  rw [h2, hsb, ← mapBlocks_mapBlocks,
    users_mapOperands _ _ _ (fun _ _ v _ => h.redirect_isInst hB hBa v), users_filter, hu,
    List.filter_eq_self.2 (fun U hU => h.keep_user_of_other hB hBa hne hU)]
  exact checkUsers_map_congr _ _ (fun U hU => h.checkUser_redirect (mem_users.1 hU).1)

/-! ### The allocations of the entry block -/

theorem WellFormed.mem_entryAllocas {F : Function} (h : WellFormed F) {B : Instruction} :
    B ∈ entryAllocas F ↔ B ∈ F.entry ∧ B.isAlloca = true := by
  have ht := h.2.2.2
  cases hl : F.entry.getLast? with
  | none => simp [hl] at ht
  | some T =>
    simp only [hl, Option.map_some', Option.some.injEq] at ht
    have he : F.entry.dropLast ++ [T] = F.entry :=
      List.dropLast_append_getLast? T (by simp [hl])
    simp only [entryAllocas, List.mem_filter]
    constructor
    · rintro ⟨h1, h2⟩
      exact ⟨List.mem_of_mem_dropLast h1, h2⟩
    · rintro ⟨h1, h2⟩
      refine ⟨?_, h2⟩
      rw [← he] at h1
      rcases List.mem_append.1 h1 with h1 | h1
      · exact h1
      · have : B = T := by simpa using h1
        subst this
        rw [isTerminator_not_isAlloca ht] at h2
        cases h2

/-- A split does not touch the other allocations. -/
theorem Split.alloca_fixed {F F2 : Function} {A : Instruction} {news : List Instruction}
    (h : Split Sym F A F2 news) {I : Instruction} (hI : I ∈ F.insts) (hIa : I.isAlloca = true) :
    I.mapOperands (redirectOperand news (users F A.id)) = I := by
  obtain ⟨t, al, hk⟩ := isAlloca_iff.1 hIa
  have hty := (alloca_typed hk (h.wf.2.2.1 I hI)).2
  have : I.operands.map (redirectOperand news (users F A.id)) = I.operands := by
    conv_rhs => rw [← List.map_id I.operands]
    apply List.map_congr_left
    intro v hv
    rcases redirectOperand_cases news (users F A.id) v with e | ⟨G, hG, hg, hvi, n, hn, e⟩
    · exact e
    · exfalso
      obtain ⟨ty, rfl⟩ := isInst_iff.1 hvi
      obtain ⟨J, hJ, e1, e2⟩ := h.wf.resolves hI hv
      have := h.wf.id_inj hJ (mem_users.1 hG).1 e1
      subst this
      obtain ⟨n', hn', hnt, hnm⟩ := h.target hG
      obtain ⟨t2, al2, hk2⟩ := isAlloca_iff.1 (h.new_props hnm).2.2.1
      have hnty := (alloca_typed hk2 (h.new_props hnm).2.2.2.1).1
      have := hty _ hv
      simp [Value.getType, ← e2, ← hnt, hnty, Ty.isInt] at this
  cases I
  simp only [Instruction.mapOperands] at this ⊢
  rw [this]

theorem Split.mem_entry_after {F F2 : Function} {A : Instruction} {news : List Instruction}
    (h : Split Sym F A F2 news) {B : Instruction} (hBa : B.isAlloca = true) :
    B ∈ F2.entry ↔ B ∈ news ∨ (B ∈ F.entry ∧ B.id ≠ A.id) := by
  obtain ⟨pre, post, hat⟩ := h.wf.at_of_mem_entry h.mem
  obtain ⟨he, -⟩ := h.entry_eq hat.entry
  have hin : ∀ l : List Instruction, (∀ I ∈ l, I ∈ F.entry) →
      (B ∈ splitBlock A news (users F A.id) l ↔ B ∈ l ∧ B.id ≠ A.id) := by
    intro l hl
    simp only [splitBlock, List.mem_map, List.mem_filter]
    constructor
    · rintro ⟨I, ⟨hI, hkeep⟩, rfl⟩
      have hIa : I.isAlloca = true := hBa
      rw [h.alloca_fixed (mem_insts_of_mem_entry (hl I hI)) hIa]
      exact ⟨hI, (splitKeep_iff.1 hkeep).1⟩
    · rintro ⟨hB, hne⟩
      have hBm := mem_insts_of_mem_entry (hl B hB)
      refine ⟨B, ⟨hB, ?_⟩, h.alloca_fixed hBm hBa⟩
      rw [splitKeep_iff]
      refine ⟨hne, fun G hG hg e => ?_⟩
      have := h.wf.id_inj (mem_users.1 hG).1 hBm e
      subst this
      rw [isAlloca_not_isGEP hBa] at hg
      cases hg
  have hpre : ∀ I ∈ pre, I ∈ F.entry := fun I hI => by simp [hat.entry, hI]
  have hpost : ∀ I ∈ post, I ∈ F.entry := fun I hI => by simp [hat.entry, hI]
  rw [he]
  simp only [List.mem_append, hin pre hpre, hin post hpost, hat.entry, List.mem_cons]
  constructor
  · rintro ((⟨h1, h2⟩ | h1) | ⟨h1, h2⟩)
    · exact Or.inr ⟨Or.inl h1, h2⟩
    · exact Or.inl h1
    · exact Or.inr ⟨Or.inr (Or.inr h1), h2⟩
  · rintro (h1 | ⟨h1 | h1 | h1, h2⟩)
    · exact Or.inl (Or.inr h1)
    · exact Or.inl (Or.inl ⟨h1, h2⟩)
    · subst h1; exact absurd rfl h2
    · exact Or.inr ⟨h1, h2⟩

/-! ### The invariant of the work-list loop -/

theorem WorkInv.init {F : Function} (h : WellFormed F) :
    WorkInv (entryAllocas F).reverse F := by
  refine ⟨h, ?_, ?_, ?_⟩
  · rw [List.map_reverse, List.nodup_reverse]
    have hs : List.Sublist (entryAllocas F) F.insts :=
      ((List.filter_sublist _).trans (List.dropLast_sublist _)).trans
        (List.sublist_append_left _ _)
    exact List.Nodup.sublist (hs.map _) h.1
  · intro B hB
    exact h.mem_entryAllocas.1 (List.mem_reverse.1 hB)
  · intro B hB _
    exact Or.inl (List.mem_reverse.2 hB)

theorem WorkInv.skip {F : Function} {A : Instruction} {wl : List Instruction}
    (h : WorkInv (A :: wl) F)
    (hA : A.isStructAlloca = false ∨ checkGEPU1Format F A = .ok false) : WorkInv wl F := by
  refine ⟨h.wf, ?_, fun B hB => h.mem B (by simp [hB]), ?_⟩
  · have := h.nodup
    rw [List.map_cons, List.nodup_cons] at this
    exact this.2
  · intro B hB hs
    rcases h.examined B hB hs with h1 | h1
    · rcases List.mem_cons.1 h1 with rfl | h1
      · rcases hA with hA | hA
        · rw [hA] at hs; cases hs
        · exact Or.inr hA
      · exact Or.inl h1
    · exact Or.inr h1

theorem WorkInv.split {F F2 : Function} {A : Instruction} {wl news : List Instruction}
    (h : WorkInv (A :: wl) F) (hs : A.isStructAlloca = true)
    (hacc : checkGEPU1Format F A = .ok true) (hres : splitAlloca Sym F A = .ok (F2, news)) :
    WorkInv (news.reverse ++ wl) F2 := by
  have hsp : Split Sym F A F2 news := ⟨h.wf, (h.mem A (by simp)).1, hs, hacc, hres⟩
  have hnd := h.nodup
  rw [List.map_cons, List.nodup_cons] at hnd
  have hwlne : ∀ B ∈ wl, B.id ≠ A.id := fun B hB e =>
    hnd.1 (by rw [← e]; exact List.mem_map_of_mem _ hB)
  refine ⟨hsp.wellFormed, ?_, ?_, ?_⟩
  · rw [List.map_append, List.map_reverse, List.nodup_append, List.nodup_reverse]
    refine ⟨hsp.news_nodup, hnd.2, ?_⟩
    intro x hx hx2
    rw [List.mem_reverse] at hx
    obtain ⟨n, hn, rfl⟩ := List.mem_map.1 hx
    obtain ⟨B, hB, e⟩ := List.mem_map.1 hx2
    exact (hsp.new_props hn).2.2.2.2 B
      (mem_insts_of_mem_entry (h.mem B (by simp [hB])).1) e
  · intro B hB
    rcases List.mem_append.1 hB with hB | hB
    · rw [List.mem_reverse] at hB
      have hBa := (hsp.new_props hB).2.2.1
      exact ⟨(hsp.mem_entry_after hBa).2 (Or.inl hB), hBa⟩
    · obtain ⟨h1, h2⟩ := h.mem B (by simp [hB])
      exact ⟨(hsp.mem_entry_after h2).2 (Or.inr ⟨h1, hwlne B hB⟩), h2⟩
  · intro B hB hBs
    obtain ⟨hB1, hBa⟩ := hsp.wellFormed.mem_entryAllocas.1 hB
    rcases (hsp.mem_entry_after hBa).1 hB1 with hB2 | ⟨hB2, hne⟩
    · exact Or.inl (List.mem_append_left _ (List.mem_reverse.2 hB2))
    · rcases h.examined B (h.wf.mem_entryAllocas.2 ⟨hB2, hBa⟩) hBs with h1 | h1
      · rcases List.mem_cons.1 h1 with rfl | h1
        · exact absurd rfl hne
        · exact Or.inl (List.mem_append_right _ h1)
      · right
        rw [hsp.check_frame (mem_insts_of_mem_entry hB2) hBa hne]
        exact h1

/-! ### The work-list loop -/

theorem workLoop_nil (fuel : Nat) (r : Bool × State) : workLoop Sym fuel [] r = .ok r := by
  cases fuel <;> rfl

theorem workLoop_cons_skip (fuel : Nat) (A : Instruction) (wl : List Instruction) (c : Bool)
    (st : State)
    (hA : A.isStructAlloca = false ∨ checkGEPU1Format st.F A = .ok false) :
    workLoop Sym (fuel + 1) (A :: wl) (c, st) = workLoop Sym fuel wl (c, st) := by
  simp only [workLoop]
  rcases hA with hA | hA
  · simp [hA]
  · cases hs : A.isStructAlloca
    · simp
    · simp [hA]

theorem workLoop_cons_split (fuel : Nat) (A : Instruction) (wl : List Instruction) (c : Bool)
    (st : State) {F2 : Function} {news : List Instruction}
    (hs : A.isStructAlloca = true) (hacc : checkGEPU1Format st.F A = .ok true)
    (hres : splitAlloca Sym st.F A = .ok (F2, news)) :
    workLoop Sym (fuel + 1) (A :: wl) (c, st) =
      workLoop Sym fuel (news.reverse ++ wl)
        (true, { st with F := F2, NumExpanded := st.NumExpanded + 1 }) := by
  simp [workLoop, hs, hacc, hres]

/-- The ways one iteration of the work-list loop can go. -/
theorem workLoop_cons_cases (fuel : Nat) (A : Instruction) (wl : List Instruction) (c : Bool)
    (st : State) :
    (A.isStructAlloca = false ∨ checkGEPU1Format st.F A = .ok false) ∨
      (A.isStructAlloca = true ∧ ∃ e, checkGEPU1Format st.F A = .error e ∧
        workLoop Sym (fuel + 1) (A :: wl) (c, st) = .error e) ∨
      (A.isStructAlloca = true ∧ checkGEPU1Format st.F A = .ok true ∧
        ∃ e, splitAlloca Sym st.F A = .error e ∧
          workLoop Sym (fuel + 1) (A :: wl) (c, st) = .error e) ∨
      (A.isStructAlloca = true ∧ checkGEPU1Format st.F A = .ok true ∧
        ∃ F2 news, splitAlloca Sym st.F A = .ok (F2, news)) := by
  cases hs : A.isStructAlloca with
  | false => exact Or.inl (Or.inl rfl)
  | true =>
    cases hc : checkGEPU1Format st.F A with
    | error e => exact Or.inr (Or.inl ⟨rfl, e, rfl, by simp [workLoop, hs, hc]⟩)
    | ok b =>
      cases b with
      | false => exact Or.inl (Or.inr rfl)
      | true =>
        cases hr : splitAlloca Sym st.F A with
        | error e =>
          exact Or.inr (Or.inr (Or.inl ⟨rfl, rfl, e, rfl, by simp [workLoop, hs, hc, hr]⟩))
        | ok r => exact Or.inr (Or.inr (Or.inr ⟨rfl, rfl, r.1, r.2, rfl⟩))

/-- What the work-list loop establishes when it returns. -/
theorem workLoop_inv : ∀ (fuel : Nat) (wl : List Instruction) (c : Bool) (st : State)
    (r : Bool × State), WorkInv wl st.F → workLoop Sym fuel wl (c, st) = .ok r →
      WorkInv [] r.2.F ∧ r.2.NumPromoted = st.NumPromoted ∧
        st.NumExpanded ≤ r.2.NumExpanded ∧
        structNodeCount r.2.F + (r.2.NumExpanded - st.NumExpanded) = structNodeCount st.F ∧
        r.1 = (c || decide (st.NumExpanded < r.2.NumExpanded)) ∧
        (r.2.NumExpanded = st.NumExpanded → r.2 = st) := by
  intro fuel
  induction fuel with
  | zero =>
    intro wl c st r hinv h
    cases wl with
    | nil =>
      simp only [workLoop, Except.ok.injEq] at h
      subst h
      simp [hinv]
    | cons A wl => simp [workLoop] at h
  | succ fuel ih =>
    intro wl c st r hinv h
    cases wl with
    | nil =>
      rw [workLoop_nil] at h
      simp only [Except.ok.injEq] at h
      subst h
      simp [hinv]
    | cons A wl =>
      rcases @workLoop_cons_cases Sym fuel A wl c st with
        hA | ⟨-, e, -, he⟩ | ⟨-, -, e, -, he⟩ |
        ⟨hs, hacc, F2, news, hres⟩
      · rw [workLoop_cons_skip fuel A wl c st hA] at h
        exact ih wl c st r (hinv.skip hA) h
      · rw [he] at h; cases h
      · rw [he] at h; cases h
      · rw [workLoop_cons_split fuel A wl c st hs hacc hres] at h
        have hsp : Split Sym st.F A F2 news := ⟨hinv.wf, (hinv.mem A (by simp)).1, hs, hacc, hres⟩
        have hcnt := hsp.structNodeCount_eq
        obtain ⟨h1, h2, h3, h4, h5, -⟩ := ih _ true _ r (hinv.split hs hacc hres) h
        simp only at h1 h2 h3 h4 h5
        refine ⟨h1, h2, by omega, by omega, ?_, fun e => by omega⟩
        rw [h5]
        have : st.NumExpanded < r.2.NumExpanded := by omega
        simp [this]

theorem createAllocas_workCost (A : Instruction) (fs : List Ty) :
    ∀ (I : Nat) (F : Function),
      workListFuel (createAllocas uniqueName A fs I F).2 = Ty.workCostList fs := by
  induction fs with
  | nil => intro I F; rfl
  | cons t ts ih =>
    intro I F
    have := ih (I + 1) (F.insertBefore A.id (newFieldAlloca uniqueName A t I F.freshId))
    simp only [workListFuel] at this ⊢
    simp only [createAllocas, List.map_cons, List.sum_cons, Ty.workCostList, this]
    rfl

theorem splitAlloca_news {F F2 : Function} {A : Instruction} {news : List Instruction}
    {fs : List Ty} {al : Nat} (hk : A.kind = .alloca (.struct fs) al)
    (h : splitAlloca Sym F A = .ok (F2, news)) :
    news = (createAllocas (Sym.makeUniqueName F) A fs 0 F).2 := by
  unfold splitAlloca at h
  simp only [Instruction.getAllocatedType, hk, Ty.containedTypes] at h
  split at h
  · cases h
  · simp only [Except.ok.injEq, Prod.mk.injEq] at h
    exact h.2.symm

theorem splitAlloca_error {F : Function} {A : Instruction} {e : Err}
    (h : splitAlloca Sym F A = .error e) :
    ∃ news us F1, redirectLoop news us F1 [] = .error e := by
  unfold splitAlloca at h
  cases hty : A.getAllocatedType with
  | none =>
    simp only [hty] at h
    split at h
    · rename_i e2 he2
      simp only [Except.error.injEq] at h
      subst h
      exact ⟨_, _, _, he2⟩
    · cases h
  | some t =>
    simp only [hty] at h
    split at h
    · rename_i e2 he2
      simp only [Except.error.injEq] at h
      subst h
      exact ⟨_, _, _, he2⟩
    · cases h

theorem workListFuel_append (l1 l2 : List Instruction) :
    workListFuel (l1 ++ l2) = workListFuel l1 + workListFuel l2 := by
  simp [workListFuel]

theorem workListFuel_reverse (l : List Instruction) :
    workListFuel l.reverse = workListFuel l := by
  simp [workListFuel, List.sum_reverse]

/-- The work-list loop never runs out of fuel when it starts with the fuel of
its work list. -/
theorem workLoop_ne_outOfFuel : ∀ (fuel : Nat) (wl : List Instruction) (r : Bool × State),
    workListFuel wl ≤ fuel → workLoop Sym fuel wl r ≠ .error .outOfFuel := by
  intro fuel
  induction fuel with
  | zero =>
    intro wl r hf
    cases wl with
    | nil => simp [workLoop]
    | cons A wl =>
      have := length_le_workListFuel (A :: wl)
      simp at this; omega
  | succ fuel ih =>
    intro wl r hf
    obtain ⟨c, st⟩ := r
    cases wl with
    | nil => simp [workLoop]
    | cons A wl =>
      have hcons : workListFuel (A :: wl) = A.workCost + workListFuel wl := by
        simp [workListFuel]
      rcases @workLoop_cons_cases Sym fuel A wl c st with
        hA | ⟨-, e, he1, he⟩ | ⟨-, -, e, he1, he⟩ |
        ⟨hs, hacc, F2, news, hres⟩
      · rw [workLoop_cons_skip fuel A wl c st hA]
        apply ih
        have : 1 ≤ A.workCost := by
          unfold Instruction.workCost
          cases A.kind <;> simp [one_le_workCost]
        omega
      · rw [he]
        intro h
        simp only [Except.error.injEq] at h
        subst h
        have : ∀ us, checkUsers us ≠ .error .outOfFuel := by
          intro us
          induction us with
          | nil => simp [checkUsers]
          | cons U us ihu =>
            simp only [checkUsers]
            have hU : checkUser U ≠ .error .outOfFuel := by
              rw [checkUser_eq]
              repeat' split
              all_goals simp
            cases hc : checkUser U with
            | error e => intro h; simp only [Except.error.injEq] at h; subst h; exact hU hc
            | ok b => cases b <;> simp [ihu]
        exact this _ he1
      · rw [he]
        intro h
        simp only [Except.error.injEq] at h
        subst h
        have hred : ∀ news us F old, redirectLoop news us F old ≠ .error .outOfFuel := by
          intro news us
          induction us with
          | nil => intro F old; simp [redirectLoop]
          | cons U us ihu =>
            intro F old
            simp only [redirectLoop]
            repeat' split
            all_goals first | exact ihu _ _ | simp
        obtain ⟨news, us, F1, hr⟩ := splitAlloca_error he1
        exact hred _ _ _ _ hr
      · rw [workLoop_cons_split fuel A wl c st hs hacc hres]
        apply ih
        obtain ⟨fs, al, hk⟩ := isStructAlloca_iff.1 hs
        rw [workListFuel_append, workListFuel_reverse, splitAlloca_news hk hres,
          createAllocas_workCost]
        have : A.workCost = 1 + Ty.workCostList fs := by
          simp [Instruction.workCost, hk, Ty.workCost]
        omega

theorem checkUser_error {U : Instruction} {e : Err} (h : checkUser U = .error e) :
    e = .castFailed := by
  rw [checkUser_eq] at h
  repeat' split at h
  all_goals first | (cases h; done) | (cases h; rfl)

theorem checkUsers_error {us : List Instruction} {e : Err} (h : checkUsers us = .error e) :
    e = .castFailed := by
  induction us with
  | nil => simp [checkUsers] at h
  | cons U us ih =>
    simp only [checkUsers] at h
    cases hc : checkUser U with
    | error e2 =>
      rw [hc] at h
      simp only [Except.error.injEq] at h
      subst h
      exact checkUser_error hc
    | ok b =>
      rw [hc] at h
      cases b
      · cases h
      · exact ih h

theorem workLoop_ne_indexOutOfRange : ∀ (fuel : Nat) (wl : List Instruction) (c : Bool)
    (st : State), WorkInv wl st.F → workLoop Sym fuel wl (c, st) ≠ .error .indexOutOfRange := by
  intro fuel
  induction fuel with
  | zero =>
    intro wl c st _
    cases wl <;> simp [workLoop]
  | succ fuel ih =>
    intro wl c st hinv
    cases wl with
    | nil => simp [workLoop]
    | cons A wl =>
      rcases @workLoop_cons_cases Sym fuel A wl c st with
        hA | ⟨-, e, he1, he⟩ | ⟨hs, hacc, e, he1, he⟩ |
        ⟨hs, hacc, F2, news, hres⟩
      · rw [workLoop_cons_skip fuel A wl c st hA]
        exact ih wl c st (hinv.skip hA)
      · rw [he, checkUsers_error he1]
        simp
      · rw [he]
        intro h
        simp only [Except.error.injEq] at h
        subst h
        exact splitAlloca_ne_indexOutOfRange hinv.wf (hinv.mem A (by simp)).1 hs hacc he1
      · rw [workLoop_cons_split fuel A wl c st hs hacc hres]
        exact ih _ _ _ (hinv.split hs hacc hres)

/-! ## C6: the field index is in range -/

/-- C6. In a well-formed function, for every struct allocation `A` of the entry
block that the legality check accepts, the second index of every GEP using `A`
selects a field whose number is below the number of new allocations built for
`A`, and the body of the work-list loop does not end at the out-of-range
assertion; and no run of `performScalarRepl` on the function ends at that
assertion. -/
theorem field_index_in_range (F : Function) (hwf : WellFormed F) :
    (∀ (A : Instruction) (fs : List Ty) (al : Nat), A ∈ F.entry →
      A.kind = .alloca (.struct fs) al → checkGEPU1Format F A = .ok true →
        (createAllocas (Sym.makeUniqueName F) A fs 0 F).2.length = fs.length ∧
        (∀ G ∈ users F A.id, ∃ i2 k, G.getOperand 2 = some i2 ∧ structIndex i2 = some k ∧
          k < (createAllocas (Sym.makeUniqueName F) A fs 0 F).2.length) ∧
        (∀ G ∈ users F A.id, ∀ bits val, G.getOperand 2 = some (.constInt bits val) →
          getLimitedValue val < (createAllocas (Sym.makeUniqueName F) A fs 0 F).2.length) ∧
        splitAlloca Sym F A ≠ .error .indexOutOfRange) ∧
      ∀ n m : Nat, performScalarRepl Sym ⟨F, n, m⟩ ≠ .error .indexOutOfRange := by
  constructor
  · intro A fs al hmem hk hacc
    obtain ⟨pre, post, hat⟩ := hwf.at_of_mem_entry hmem
    have hlen : (createAllocas (Sym.makeUniqueName F) A fs 0 F).2.length = fs.length := by
      rw [createAllocas_spec A fs 0 F pre post hat, fieldAllocas_length]
    have hAm := mem_insts_of_mem_entry hmem
    refine ⟨hlen, ?_, ?_, ?_⟩
    · intro G hG
      obtain ⟨i2, k, h1, h2, h3⟩ := accepted_user_index hwf hAm hk hacc hG
      exact ⟨i2, k, h1, h2, by rw [hlen]; exact h3⟩
    · intro G hG bits val hop
      obtain ⟨i2, k, h1, h2, h3⟩ := accepted_user_index hwf hAm hk hacc hG
      rw [hop] at h1
      cases h1
      obtain ⟨rfl, hlt⟩ := structIndex_constInt h2
      rw [getLimitedValue_of_lt hlt, hlen]
      exact h3
    · exact splitAlloca_ne_indexOutOfRange hwf hmem (isStructAlloca_iff.2 ⟨fs, al, hk⟩) hacc
  · intro n m
    exact workLoop_ne_indexOutOfRange _ _ false ⟨F, n, m⟩ (WorkInv.init hwf)

/-- The hypothesis of C6 holds for `pairFn`. -/
theorem field_index_in_range_witness :
    WellFormed pairFn ∧
    ((∀ (A : Instruction) (fs : List Ty) (al : Nat), A ∈ pairFn.entry →
      A.kind = .alloca (.struct fs) al → checkGEPU1Format pairFn A = .ok true →
        (createAllocas (sampleSymbolTable.makeUniqueName pairFn) A fs 0 pairFn).2.length =
          fs.length ∧
        (∀ G ∈ users pairFn A.id, ∃ i2 k, G.getOperand 2 = some i2 ∧
          structIndex i2 = some k ∧
          k < (createAllocas (sampleSymbolTable.makeUniqueName pairFn) A fs 0 pairFn).2.length) ∧
        (∀ G ∈ users pairFn A.id, ∀ bits val, G.getOperand 2 = some (.constInt bits val) →
          getLimitedValue val <
            (createAllocas (sampleSymbolTable.makeUniqueName pairFn) A fs 0 pairFn).2.length) ∧
        splitAlloca sampleSymbolTable pairFn A ≠ .error .indexOutOfRange) ∧
      ∀ n m : Nat, performScalarRepl sampleSymbolTable ⟨pairFn, n, m⟩ ≠ .error .indexOutOfRange) :=
  ⟨by decide, field_index_in_range pairFn (by decide)⟩

/-! ### The promotion driver -/

theorem promotionLoop_of_empty (P : Mem2Reg) (fuel : Nat) (c : Bool) (st : State)
    (h : promotableAllocas P st.F = []) :
    promotionLoop P (fuel + 1) (c, st) = .ok (c, st) := by
  simp [promotionLoop, h]

theorem promotionLoop_of_nonempty (P : Mem2Reg) (fuel : Nat) (c : Bool) (st : State)
    (h : promotableAllocas P st.F ≠ []) :
    promotionLoop P (fuel + 1) (c, st) =
      promotionLoop P fuel
        (true, { st with F := P.PromoteMemToReg (promotableAllocas P st.F) st.F
                         NumPromoted := st.NumPromoted + (promotableAllocas P st.F).length }) := by
  simp [promotionLoop, h]

/-- What the promotion driver establishes when it returns: a last scan found
nothing to promote; the other counter is untouched; a result of false means
that nothing was done. -/
theorem promotionLoop_inv (P : Mem2Reg) (hP : P.PreservesWellFormed) :
    ∀ (fuel : Nat) (c : Bool) (st : State) (r : Bool × State), WellFormed st.F →
      promotionLoop P fuel (c, st) = .ok r →
        WellFormed r.2.F ∧ promotableAllocas P r.2.F = [] ∧
          r.2.NumExpanded = st.NumExpanded ∧ (r.1 = false → c = false ∧ r.2 = st) ∧
          (c = true → r.1 = true) := by
  intro fuel
  induction fuel with
  | zero => intro c st r _ h; simp [promotionLoop] at h
  | succ fuel ih =>
    intro c st r hwf h
    by_cases he : promotableAllocas P st.F = []
    · rw [promotionLoop_of_empty P fuel c st he] at h
      simp only [Except.ok.injEq] at h
      subst h
      exact ⟨hwf, he, rfl, fun hc => ⟨hc, rfl⟩, fun hc => hc⟩
    · rw [promotionLoop_of_nonempty P fuel c st he] at h
      obtain ⟨h1, h2, h3, h4, h5⟩ := ih true _ r (hP st.F hwf he) h
      refine ⟨h1, h2, h3, fun hc => ?_, fun _ => h5 rfl⟩
      have := h5 rfl
      rw [hc] at this
      cases this

/-- What `performScalarRepl` establishes when it returns. -/
theorem performScalarRepl_inv {st : State} {r : Bool × State} (hwf : WellFormed st.F)
    (h : performScalarRepl Sym st = .ok r) :
    WellFormed r.2.F ∧
      (∀ B ∈ entryAllocas r.2.F, B.isStructAlloca = false ∨
        checkGEPU1Format r.2.F B = .ok false) ∧
      r.2.NumPromoted = st.NumPromoted ∧ st.NumExpanded ≤ r.2.NumExpanded ∧
      structNodeCount r.2.F + (r.2.NumExpanded - st.NumExpanded) = structNodeCount st.F ∧
      r.1 = decide (st.NumExpanded < r.2.NumExpanded) ∧ (r.1 = false → r.2 = st) := by
  obtain ⟨h1, h2, h3, h4, h5, h6⟩ := workLoop_inv _ _ false st r (WorkInv.init hwf) h
  refine ⟨h1.wf, ?_, h2, h3, h4, by simpa using h5, ?_⟩
  · intro B hB
    cases hs : B.isStructAlloca with
    | false => exact Or.inl rfl
    | true =>
      rcases h1.examined B hB hs with hm | hm
      · cases hm
      · exact Or.inr hm
  · intro hf
    apply h6
    rw [hf] at h5
    simp only [Bool.false_or] at h5
    have := h5.symm
    simp only [decide_eq_false_iff_not] at this
    omega

/-- After `performScalarRepl` has returned, a second call returns false and
changes nothing. -/
theorem performScalarRepl_idempotent {st : State} {r : Bool × State} (hwf : WellFormed st.F)
    (h : performScalarRepl Sym st = .ok r) : performScalarRepl Sym r.2 = .ok (false, r.2) :=
  performScalarRepl_noop r.2 (performScalarRepl_inv hwf h).2.1

/-! ## C8: the driver reaches a fixpoint -/

theorem fixpointLoop_fixpoint (P : Mem2Reg) (hP : P.PreservesWellFormed) (fuel : Nat) :
    ∀ (rounds : Nat) (c : Bool) (st : State) (r : Bool × State), WellFormed st.F →
      promotableAllocas P st.F = [] → fixpointLoop Sym P fuel rounds (c, st) = .ok r →
        WellFormed r.2.F ∧ promotableAllocas P r.2.F = [] ∧
          performScalarRepl Sym r.2 = .ok (false, r.2) := by
  intro rounds
  induction rounds with
  | zero => intro c st r _ _ h; simp [fixpointLoop] at h
  | succ rounds ih =>
    intro c st r hwf hemp h
    simp only [fixpointLoop] at h
    cases hs : performScalarRepl Sym st with
    | error e => rw [hs] at h; cases h
    | ok r1 =>
      obtain ⟨c1, st1⟩ := r1
      rw [hs] at h
      have hinv := performScalarRepl_inv hwf hs
      have hidem := performScalarRepl_idempotent hwf hs
      simp only at hinv hidem
      cases c1 with
      | false =>
        simp only [Except.ok.injEq] at h
        subst h
        have e := hinv.2.2.2.2.2.2 rfl
        subst e
        exact ⟨hwf, hemp, hidem⟩
      | true =>
        simp only at h
        cases hp : performPromotion P fuel st1 with
        | error e => rw [hp] at h; cases h
        | ok r2 =>
          obtain ⟨c2, st2⟩ := r2
          rw [hp] at h
          obtain ⟨q1, q2, q3, q4, q5⟩ := promotionLoop_inv P hP fuel false st1 _ hinv.1 hp
          simp only at q1 q2 q3 q4 q5
          cases c2 with
          | false =>
            simp only [Except.ok.injEq] at h
            subst h
            have e := (q4 rfl).2
            subst e
            exact ⟨q1, q2, hidem⟩
          | true => exact ih true st2 r q1 q2 h

/-- C8. Let the promotion utility return well-formed IR, and let `runOnFunction`
return on a well-formed function, leaving the state `st2`. Then on `st2` the
promotion driver and the splitter both report no change and leave the state as
it is, and so does a second `runOnFunction`, whatever positive bounds it is
given. -/
theorem runOnFunction_fixpoint (P : Mem2Reg) (fuel rounds : Nat) (st st2 : State) (c : Bool)
    (hwf : WellFormed st.F) (hP : P.PreservesWellFormed)
    (h : runOnFunction Sym P fuel rounds st = .ok (c, st2)) :
    ∀ fuel2 rounds2 : Nat, 0 < fuel2 → 0 < rounds2 →
      performPromotion P fuel2 st2 = .ok (false, st2) ∧
        performScalarRepl Sym st2 = .ok (false, st2) ∧
        runOnFunction Sym P fuel2 rounds2 st2 = .ok (false, st2) := by
  intro fuel2 rounds2 hf hr
  simp only [runOnFunction] at h
  cases hp : performPromotion P fuel st with
  | error e => rw [hp] at h; cases h
  | ok r0 =>
    obtain ⟨c0, st0⟩ := r0
    rw [hp] at h
    obtain ⟨q1, q2, -⟩ := promotionLoop_inv P hP fuel false st _ hwf hp
    obtain ⟨-, h2, h3⟩ := fixpointLoop_fixpoint P hP fuel rounds c0 st0 _ q1 q2 h
    simp only at h2 h3
    obtain ⟨f, rfl⟩ : ∃ f, fuel2 = f + 1 := ⟨fuel2 - 1, by omega⟩
    obtain ⟨k, rfl⟩ : ∃ k, rounds2 = k + 1 := ⟨rounds2 - 1, by omega⟩
    have hpp : performPromotion P (f + 1) st2 = .ok (false, st2) :=
      promotionLoop_of_empty P f false st2 h2
    refine ⟨hpp, h3, ?_⟩
    simp [runOnFunction, hpp, fixpointLoop, h3]

/-! ### Measures over the allocations -/

theorem structNodeCount_eq_allocaSum (F : Function) :
    structNodeCount F = allocaSum Ty.structNodes F := rfl

theorem structNodesList_eq_sum (fs : List Ty) :
    Ty.structNodesList fs = (fs.map Ty.structNodes).sum := by
  induction fs with
  | nil => rfl
  | cons t ts ih => simp [Ty.structNodesList, ih]

theorem workCostList_eq_sum (fs : List Ty) :
    Ty.workCostList fs = (fs.map Ty.workCost).sum := by
  induction fs with
  | nil => rfl
  | cons t ts ih => simp [Ty.workCostList, ih]

theorem structAdditive_structNodes : StructAdditive Ty.structNodes := by
  intro fs; simp [Ty.structNodes, structNodesList_eq_sum]

theorem structAdditive_workCost : StructAdditive Ty.workCost := by
  intro fs; simp [Ty.workCost, workCostList_eq_sum]

theorem sum_filter_of_zero {α : Type} (μ : α → Nat) (p : α → Bool) (l : List α)
    (h : ∀ I ∈ l, p I = false → μ I = 0) :
    ((l.filter p).map μ).sum = (l.map μ).sum := by
  induction l with
  | nil => rfl
  | cons I l ih =>
    have ih2 := ih (fun J hJ => h J (by simp [hJ]))
    cases hp : p I with
    | true => simp [List.filter_cons, hp, ih2]
    | false => simp [List.filter_cons, hp, ih2, h I (by simp) hp]

theorem sum_filter_le {α : Type} (μ : α → Nat) (p : α → Bool) (l : List α) :
    ((l.filter p).map μ).sum ≤ (l.map μ).sum := by
  induction l with
  | nil => simp
  | cons I l ih =>
    cases hp : p I with
    | true => simp [List.filter_cons, hp, ih]
    | false => simp only [List.filter_cons, hp, List.map_cons, List.sum_cons]; simp; omega

theorem sum_filter_lt {α : Type} (μ : α → Nat) (p : α → Bool) (l : List α) {B : α}
    (hB : B ∈ l) (hp : p B = false) (hμ : 0 < μ B) :
    ((l.filter p).map μ).sum < (l.map μ).sum := by
  induction l with
  | nil => cases hB
  | cons I l ih =>
    rcases List.mem_cons.1 hB with rfl | hB
    · have := sum_filter_le μ p l
      simp only [List.filter_cons, hp, List.map_cons, List.sum_cons]
      simp; omega
    · have := ih hB
      cases hq : p I with
      | true => simp [List.filter_cons, hq]; omega
      | false => simp only [List.filter_cons, hq, List.map_cons, List.sum_cons]; simp; omega

/-- The sum of such a measure changes with a split by the difference between
the fields and the struct. -/
theorem Split.allocaSum_eq {F F2 : Function} {A : Instruction} {news : List Instruction}
    (h : Split Sym F A F2 news) (g : Ty → Nat) (hg : StructAdditive g) :
    allocaSum g F2 + 1 = allocaSum g F := by
  obtain ⟨pre, post, fs, al, hat, hk, h1, h2⟩ := h.spec
  have hentry := hat.entry
  obtain ⟨he, hr⟩ := h.entry_eq hentry
  let μ : Instruction → Nat := fun I =>
    match I.kind with
    | .alloca t _ => g t
    | _ => 0
  have hμgep : ∀ I : Instruction, I.isGEP = true → μ I = 0 := by
    intro I hI
    simp only [μ, isGEP_iff.1 hI]
  have hzero : ∀ l : List Instruction, (∀ I ∈ l, I ∈ F.insts ∧ I.id ≠ A.id) →
      ((splitBlock A news (users F A.id) l).map μ).sum = (l.map μ).sum := by
    intro l hl
    simp only [splitBlock, List.map_map]
    have e : (μ ∘ Instruction.mapOperands (redirectOperand news (users F A.id))) = μ := rfl
    rw [e]
    apply sum_filter_of_zero
    intro I hI hkp
    exact hμgep I (h.removed_is_gep (hl I hI).1 (hl I hI).2 hkp).2
  have hnodup := h.wf.1
  simp only [Function.insts, hentry, List.map_append, List.map_cons, List.append_assoc] at hnodup
  rw [List.nodup_append] at hnodup
  obtain ⟨-, hn2, -⟩ := hnodup
  rw [List.cons_append, List.nodup_cons] at hn2
  have hpre : ∀ I ∈ pre, I ∈ F.insts ∧ I.id ≠ A.id := fun I hI =>
    ⟨by simp [Function.insts, hentry, hI], hat.pre I hI⟩
  have hpost : ∀ I ∈ post, I ∈ F.insts ∧ I.id ≠ A.id := fun I hI =>
    ⟨by simp [Function.insts, hentry, hI], fun e => hn2.1 (by
      rw [← e]; exact List.mem_append_left _ (List.mem_map_of_mem _ hI))⟩
  have hrest : ∀ I ∈ F.rest.flatten, I ∈ F.insts ∧ I.id ≠ A.id := fun I hI =>
    ⟨by simp only [Function.insts, List.mem_append]; exact Or.inr hI, by
      obtain ⟨b, hb, hIb⟩ := List.mem_flatten.1 hI
      exact hat.rest b hb I hIb⟩
  have hrest2 : (List.map (splitBlock A news (users F A.id)) F.rest).flatten =
      splitBlock A news (users F A.id) F.rest.flatten := by
    simp only [splitBlock, List.map_flatten, List.filter_flatten, List.map_map]
    rfl
  have hA : μ A = 1 + (fs.map g).sum := by
    simp only [μ, hk]; exact hg fs
  have hnews : (news.map μ).sum = (fs.map g).sum := by
    rw [h1]
    have : ∀ (fs : List Ty) (I base : Nat),
        ((fieldAllocas (Sym.makeUniqueName F) A fs I base).map μ).sum =
          (fs.map g).sum := by
      intro fs
      induction fs with
      | nil => intro I base; rfl
      | cons t ts ih =>
        intro I base
        simp only [fieldAllocas, List.map_cons, List.sum_cons, ih]
        rfl
    exact this fs 0 _
  show ((F2.insts.map μ).sum + 1 = (F.insts.map μ).sum)
  simp only [Function.insts, he, hr, hentry, hrest2, List.map_append,
    List.sum_append, List.map_cons, List.sum_cons, hzero pre hpre, hzero post hpost,
    hzero _ hrest, hA, hnews]
  omega

theorem workLoop_allocaSum (g : Ty → Nat) (hg : StructAdditive g) :
    ∀ (fuel : Nat) (wl : List Instruction) (c : Bool) (st : State) (r : Bool × State),
      WorkInv wl st.F → workLoop Sym fuel wl (c, st) = .ok r →
        allocaSum g r.2.F + (r.2.NumExpanded - st.NumExpanded) = allocaSum g st.F := by
  intro fuel
  induction fuel with
  | zero =>
    intro wl c st r hinv h
    cases wl with
    | nil =>
      simp only [workLoop, Except.ok.injEq] at h
      subst h
      simp
    | cons A wl => simp [workLoop] at h
  | succ fuel ih =>
    intro wl c st r hinv h
    cases wl with
    | nil =>
      rw [workLoop_nil] at h
      simp only [Except.ok.injEq] at h
      subst h
      simp
    | cons A wl =>
      rcases @workLoop_cons_cases Sym fuel A wl c st with
        hA | ⟨-, e, -, he⟩ | ⟨-, -, e, -, he⟩ |
        ⟨hs, hacc, F2, news, hres⟩
      · rw [workLoop_cons_skip fuel A wl c st hA] at h
        exact ih wl c st r (hinv.skip hA) h
      · rw [he] at h; cases h
      · rw [he] at h; cases h
      · rw [workLoop_cons_split fuel A wl c st hs hacc hres] at h
        have hsp : Split Sym st.F A F2 news := ⟨hinv.wf, (hinv.mem A (by simp)).1, hs, hacc, hres⟩
        have hcnt := hsp.allocaSum_eq g hg
        have h1 := ih _ true _ r (hinv.split hs hacc hres) h
        have h2 := (workLoop_inv _ _ true _ r (hinv.split hs hacc hres) h).2.2.1
        simp only at h1 h2
        omega

theorem performScalarRepl_allocaSum (g : Ty → Nat) (hg : StructAdditive g) {st : State}
    {r : Bool × State} (hwf : WellFormed st.F) (h : performScalarRepl Sym st = .ok r) :
    allocaSum g r.2.F + (r.2.NumExpanded - st.NumExpanded) = allocaSum g st.F :=
  workLoop_allocaSum g hg _ _ false st r (WorkInv.init hwf) h

theorem performScalarRepl_ne_outOfFuel (st : State) :
    performScalarRepl Sym st ≠ .error .outOfFuel :=
  workLoop_ne_outOfFuel _ _ _ (le_refl _)

/-! ### Promotion and the measures -/

theorem allocaSum_eq_filter (g : Ty → Nat) (F : Function) :
    allocaSum g F = ((F.insts.filter Instruction.isAlloca).map (fun I =>
      match I.kind with
      | .alloca t _ => g t
      | _ => 0)).sum := by
  unfold allocaSum
  symm
  apply sum_filter_of_zero
  intro I _ hI
  unfold Instruction.isAlloca at hI
  cases hk : I.kind <;> simp_all

theorem mem_promotableAllocas {P : Mem2Reg} {F : Function} {B : Instruction}
    (h : B ∈ promotableAllocas P F) : B ∈ F.insts ∧ B.isAlloca = true := by
  simp only [promotableAllocas, entryAllocas, List.mem_filter] at h
  exact ⟨mem_insts_of_mem_entry (List.mem_of_mem_dropLast h.1.1), h.1.2⟩

theorem promote_allocaSum_le (P : Mem2Reg) (hP : P.RemovesPromoted) (g : Ty → Nat)
    {G : Function} (hwf : WellFormed G) :
    allocaSum g (P.PromoteMemToReg (promotableAllocas P G) G) ≤ allocaSum g G := by
  rw [allocaSum_eq_filter, allocaSum_eq_filter, hP G hwf]
  exact sum_filter_le _ _ _

theorem promote_allocaSum_lt (P : Mem2Reg) (hP : P.RemovesPromoted) (g : Ty → Nat)
    (hg : ∀ t, 0 < g t) {G : Function} (hwf : WellFormed G)
    (hne : promotableAllocas P G ≠ []) :
    allocaSum g (P.PromoteMemToReg (promotableAllocas P G) G) < allocaSum g G := by
  rw [allocaSum_eq_filter, allocaSum_eq_filter, hP G hwf]
  obtain ⟨B, hB⟩ := List.exists_mem_of_ne_nil _ hne
  obtain ⟨hBm, hBa⟩ := mem_promotableAllocas hB
  apply sum_filter_lt _ _ _ (List.mem_filter.2 ⟨hBm, hBa⟩)
  · simp only [Bool.not_eq_false', List.any_eq_true, beq_iff_eq]
    exact ⟨B, hB, rfl⟩
  · obtain ⟨t, al, hk⟩ := isAlloca_iff.1 hBa
    simp only [hk]
    exact hg t

/-- The promotion driver returns when its fuel exceeds the work cost of the
allocations, and it does not raise the measures. -/
theorem promotionLoop_terminates (P : Mem2Reg) (hP1 : P.PreservesWellFormed)
    (hP2 : P.RemovesPromoted) :
    ∀ (fuel : Nat) (c : Bool) (st : State), WellFormed st.F → allocaCost st.F < fuel →
      ∃ r, promotionLoop P fuel (c, st) = .ok r ∧ allocaCost r.2.F ≤ allocaCost st.F ∧
        structNodeCount r.2.F ≤ structNodeCount st.F := by
  intro fuel
  induction fuel with
  | zero => intro c st _ h; omega
  | succ fuel ih =>
    intro c st hwf hf
    by_cases he : promotableAllocas P st.F = []
    · exact ⟨_, promotionLoop_of_empty P fuel c st he, le_refl _, le_refl _⟩
    · rw [promotionLoop_of_nonempty P fuel c st he]
      have hlt := promote_allocaSum_lt P hP2 Ty.workCost one_le_workCost hwf he
      have hle := promote_allocaSum_le P hP2 Ty.structNodes hwf
      obtain ⟨r, h1, h2, h3⟩ := ih true
        { st with F := P.PromoteMemToReg (promotableAllocas P st.F) st.F
                  NumPromoted := st.NumPromoted + (promotableAllocas P st.F).length }
        (hP1 st.F hwf he) (by simp only [allocaCost] at hf ⊢; omega)
      refine ⟨r, h1, ?_, ?_⟩
      · simp only [allocaCost] at h2 ⊢; omega
      · simp only [structNodeCount_eq_allocaSum] at h3 ⊢; omega

/-! ### The bound on the rounds -/

mutual
theorem structNodes_le_fieldCount : (t : Ty) → t.structNodes ≤ 1 + t.fieldCount
  | .struct fs => by
    have := structNodesList_le_fieldCountList fs
    simp only [Ty.structNodes, Ty.fieldCount]; omega
  | .void => by simp [Ty.structNodes]
  | .int _ => by simp [Ty.structNodes]
  | .float => by simp [Ty.structNodes]
  | .ptr _ => by simp [Ty.structNodes]
  | .array _ _ => by simp [Ty.structNodes]
  | .vector _ _ => by simp [Ty.structNodes]
theorem structNodesList_le_fieldCountList :
    (fs : List Ty) → Ty.structNodesList fs ≤ Ty.fieldCountList fs
  | [] => by simp [Ty.structNodesList]
  | t :: ts => by
    have h1 := structNodes_le_fieldCount t
    have h2 := structNodesList_le_fieldCountList ts
    simp only [Ty.structNodesList, Ty.fieldCountList]; omega
end

theorem structNodes_le_depth_add_fieldCount (t : Ty) :
    t.structNodes ≤ t.depth + t.fieldCount := by
  cases t with
  | struct fs =>
    have := structNodesList_le_fieldCountList fs
    simp only [Ty.structNodes, Ty.depth, Ty.fieldCount]; omega
  | _ => simp [Ty.structNodes]

theorem allocaSum_mono {g g2 : Ty → Nat} (h : ∀ t, g t ≤ g2 t) (F : Function) :
    allocaSum g F ≤ allocaSum g2 F := by
  unfold allocaSum
  induction F.insts with
  | nil => simp
  | cons I l ih =>
    simp only [List.map_cons, List.sum_cons]
    have : (match I.kind with | .alloca t _ => g t | _ => 0) ≤
        (match I.kind with | .alloca t _ => g2 t | _ => 0) := by
      cases I.kind <;> simp [h]
    omega

theorem structNodeCount_le_roundBound (F : Function) : structNodeCount F ≤ roundBound F :=
  allocaSum_mono structNodes_le_depth_add_fieldCount F

/-! ## C9: the driver terminates -/

theorem fixpointLoop_terminates (P : Mem2Reg) (hP1 : P.PreservesWellFormed)
    (hP2 : P.RemovesPromoted) (fuel : Nat) :
    ∀ (rounds : Nat) (c : Bool) (st : State), WellFormed st.F → allocaCost st.F < fuel →
      structNodeCount st.F < rounds →
        fixpointLoop Sym P fuel rounds (c, st) ≠ .error .outOfFuel := by
  intro rounds
  induction rounds with
  | zero => intro c st _ _ h; omega
  | succ rounds ih =>
    intro c st hwf hf hr
    simp only [fixpointLoop]
    cases hs : performScalarRepl Sym st with
    | error e =>
      intro h
      simp only [Except.error.injEq] at h
      subst h
      exact performScalarRepl_ne_outOfFuel st hs
    | ok r1 =>
      obtain ⟨c1, st1⟩ := r1
      cases c1 with
      | false => simp
      | true =>
        simp only
        have hinv := performScalarRepl_inv hwf hs
        have hsn := performScalarRepl_allocaSum Ty.structNodes structAdditive_structNodes hwf hs
        have hwc := performScalarRepl_allocaSum Ty.workCost structAdditive_workCost hwf hs
        simp only at hinv hsn hwc
        have hlt : st.NumExpanded < st1.NumExpanded := by
          have := hinv.2.2.2.2.2.1
          simpa using this.symm
        have hf1 : allocaCost st1.F < fuel := by
          simp only [allocaCost] at hf ⊢; omega
        obtain ⟨r2, hp, hp1, hp2⟩ :=
          promotionLoop_terminates P hP1 hP2 fuel false st1 hinv.1 hf1
        have hp' : performPromotion P fuel st1 = .ok r2 := hp
        rw [hp']
        obtain ⟨c2, st2⟩ := r2
        cases c2 with
        | false => simp
        | true =>
          simp only
          have hwf2 := (promotionLoop_inv P hP1 fuel false st1 _ hinv.1 hp).1
          apply ih true st2 hwf2
          · simp only at hp1; omega
          · simp only [structNodeCount_eq_allocaSum] at hr hp2 ⊢
            omega

/-- C9. Let the promotion utility return well-formed IR, remove each promoted
allocation and create no allocation. On a well-formed function,
`runOnFunction` stops (it returns, or ends at a failed cast or assertion) once
the bound on the scans of the promotion driver exceeds the work cost of the
allocations and the bound on the rounds of its loop exceeds the nesting depth
plus the field count of the struct types of the allocations: the loop makes at
most that many rounds with a split, and one more that finds nothing to split. -/
theorem runOnFunction_terminates (P : Mem2Reg) (fuel rounds : Nat) (st : State)
    (hwf : WellFormed st.F) (hP1 : P.PreservesWellFormed) (hP2 : P.RemovesPromoted)
    (hfuel : allocaCost st.F < fuel) (hrounds : roundBound st.F < rounds) :
    runOnFunction Sym P fuel rounds st ≠ .error .outOfFuel := by
  simp only [runOnFunction]
  obtain ⟨r0, hp, hp1, hp2⟩ := promotionLoop_terminates P hP1 hP2 fuel false st hwf hfuel
  have hp' : performPromotion P fuel st = .ok r0 := hp
  rw [hp']
  obtain ⟨c0, st0⟩ := r0
  simp only
  have hwf0 := (promotionLoop_inv P hP1 fuel false st _ hwf hp).1
  apply fixpointLoop_terminates P hP1 hP2 fuel rounds c0 st0 hwf0
  · simp only at hp1; omega
  · have := structNodeCount_le_roundBound st.F
    simp only at hp2; omega

/-! ### The sample promotion utility -/

theorem getLast?_filter_of_last {α : Type} (p : α → Bool) {l : List α} {T : α}
    (h : l.getLast? = some T) (hp : p T = true) : (l.filter p).getLast? = some T := by
  obtain ⟨ys, rfl⟩ := List.getLast?_eq_some_iff.1 h
  simp [List.filter_append, List.filter_cons, hp]

theorem mem_promotableAllocas_unused {F : Function} {B : Instruction}
    (h : B ∈ promotableAllocas unusedAllocaUtility F) :
    B ∈ F.insts ∧ B.isAlloca = true ∧ users F B.id = [] := by
  have h1 := mem_promotableAllocas h
  simp only [promotableAllocas, List.mem_filter, unusedAllocaUtility,
    List.isEmpty_iff] at h
  exact ⟨h1.1, h1.2, h.2⟩

theorem unusedAllocaUtility_preservesWellFormed : unusedAllocaUtility.PreservesWellFormed := by
  intro G hwf _
  have hres : unusedAllocaUtility.PromoteMemToReg (promotableAllocas unusedAllocaUtility G) G =
      G.mapBlocks (List.filter (fun I =>
        !((promotableAllocas unusedAllocaUtility G).any (fun B => B.id == I.id)))) :=
    eraseLoop_spec _ G
  rw [hres]
  have hk : ∀ I ∈ G.insts,
      (!((promotableAllocas unusedAllocaUtility G).any (fun B => B.id == I.id))) = false →
        I.isAlloca = true ∧ users G I.id = [] := by
    intro I hI h
    simp only [Bool.not_eq_false', List.any_eq_true, beq_iff_eq] at h
    obtain ⟨B, hB, e⟩ := h
    obtain ⟨h1, h2, h3⟩ := mem_promotableAllocas_unused hB
    have := hwf.id_inj h1 hI e
    subst this
    exact ⟨h2, h3⟩
  refine ⟨?_, ?_, ?_, ?_⟩
  · rw [insts_mapBlocks_filter]
    exact List.Nodup.sublist ((List.filter_sublist _).map _) hwf.1
  · intro U hU v hv
    rw [insts_mapBlocks_filter] at hU ⊢
    obtain ⟨hU1, -⟩ := List.mem_filter.1 hU
    cases v with
    | inst id ty =>
      obtain ⟨I, hI, e1, e2⟩ := hwf.resolves hU1 hv
      simp only [Value.resolvesIn, List.any_eq_true, List.mem_filter, Bool.and_eq_true,
        decide_eq_true_eq]
      refine ⟨I, ⟨hI, ?_⟩, e1, e2⟩
      cases hkp : (!((promotableAllocas unusedAllocaUtility G).any (fun B => B.id == I.id))) with
      | true => rfl
      | false =>
        exfalso
        have hu := (hk I hI hkp).2
        have : U ∈ users G I.id := mem_users.2 ⟨hU1, _, hv, by simp [Value.isInst, e1]⟩
        rw [hu] at this
        cases this
    | _ => rfl
  · intro U hU
    rw [insts_mapBlocks_filter] at hU
    exact hwf.2.2.1 U (List.mem_filter.1 hU).1
  · have ht := hwf.2.2.2
    cases hl : G.entry.getLast? with
    | none => simp [hl] at ht
    | some T =>
      simp only [hl, Option.map_some', Option.some.injEq] at ht
      have hTm : T ∈ G.insts := by
        obtain ⟨ys, hys⟩ := List.getLast?_eq_some_iff.1 hl
        exact mem_insts_of_mem_entry (by simp [hys])
      have hkT : (!((promotableAllocas unusedAllocaUtility G).any (fun B => B.id == T.id))) =
          true := by
        cases hkp : (!((promotableAllocas unusedAllocaUtility G).any
            (fun B => B.id == T.id))) with
        | true => rfl
        | false =>
          have := (hk T hTm hkp).1
          rw [isTerminator_not_isAlloca ht] at this
          cases this
      simp only [Function.mapBlocks]
      rw [getLast?_filter_of_last _ hl hkT]
      simp [ht]

theorem unusedAllocaUtility_removesPromoted : unusedAllocaUtility.RemovesPromoted := by
  intro G _
  have hres : unusedAllocaUtility.PromoteMemToReg (promotableAllocas unusedAllocaUtility G) G =
      G.mapBlocks (List.filter (fun I =>
        !((promotableAllocas unusedAllocaUtility G).any (fun B => B.id == I.id)))) :=
    eraseLoop_spec _ G
  rw [hres, insts_mapBlocks_filter, List.filter_filter, List.filter_filter]
  apply List.filter_congr
  intro I _
  exact Bool.and_comm _ _

/-- The hypotheses of the amended C10 hold for the split of `%s` in `nestedFn`. -/
theorem split_decreases_struct_nodes_witness :
    WellFormed nestedFn ∧ nestedAlloca ∈ nestedFn.entry ∧
      nestedAlloca.isStructAlloca = true ∧
      checkGEPU1Format nestedFn nestedAlloca = .ok true ∧
      splitAlloca sampleSymbolTable nestedFn nestedAlloca = .ok (nestedFnSplit, nestedNewAllocas) ∧
      (structNodeCount nestedFnSplit < structNodeCount nestedFn ∧
        structNodeCount nestedFnSplit + 1 = structNodeCount nestedFn) :=
  ⟨by decide, by decide, by decide, rfl, rfl,
    @split_decreases_struct_nodes sampleSymbolTable nestedFn nestedFnSplit nestedAlloca
      nestedNewAllocas (by decide) (by decide) (by decide) rfl rfl⟩

/-- The hypotheses of C8 hold for `pairFn` and the sample promotion utility. -/
theorem runOnFunction_fixpoint_witness :
    WellFormed pairFn ∧ unusedAllocaUtility.PreservesWellFormed ∧
      runOnFunction sampleSymbolTable unusedAllocaUtility 1 2 ⟨pairFn, 0, 0⟩ =
        .ok (true, ⟨pairFnSplit, 1, 0⟩) ∧
      ∀ fuel2 rounds2 : Nat, 0 < fuel2 → 0 < rounds2 →
        performPromotion unusedAllocaUtility fuel2 ⟨pairFnSplit, 1, 0⟩ =
            .ok (false, ⟨pairFnSplit, 1, 0⟩) ∧
          performScalarRepl sampleSymbolTable ⟨pairFnSplit, 1, 0⟩ =
            .ok (false, ⟨pairFnSplit, 1, 0⟩) ∧
          runOnFunction sampleSymbolTable unusedAllocaUtility fuel2 rounds2 ⟨pairFnSplit, 1, 0⟩ =
            .ok (false, ⟨pairFnSplit, 1, 0⟩) :=
  ⟨by decide, unusedAllocaUtility_preservesWellFormed, rfl,
    runOnFunction_fixpoint unusedAllocaUtility 1 2 ⟨pairFn, 0, 0⟩ ⟨pairFnSplit, 1, 0⟩ true
      (by decide) unusedAllocaUtility_preservesWellFormed rfl⟩

/-- The hypotheses of C9 hold for `pairFn` and the sample promotion utility. -/
theorem runOnFunction_terminates_witness :
    WellFormed pairFn ∧ unusedAllocaUtility.PreservesWellFormed ∧
      unusedAllocaUtility.RemovesPromoted ∧ allocaCost pairFn < 4 ∧ roundBound pairFn < 4 ∧
      runOnFunction sampleSymbolTable unusedAllocaUtility 4 4 ⟨pairFn, 0, 0⟩ ≠ .error .outOfFuel :=
  ⟨by decide, unusedAllocaUtility_preservesWellFormed, unusedAllocaUtility_removesPromoted,
    by decide, by decide,
    runOnFunction_terminates unusedAllocaUtility 4 4 ⟨pairFn, 0, 0⟩ (by decide)
      unusedAllocaUtility_preservesWellFormed unusedAllocaUtility_removesPromoted
      (by decide) (by decide)⟩

/-! ## C4: behaviour before and after a split -/

/-- C4. Evaluation at a failing input: every use of `%a` in the well-formed
`fieldStepFn` is a two-index GEP with first index zero and constant second
index, and `performScalarRepl` splits `%a`; the function returned 7 before the
split, and after it the load reads outside the object it addresses, so that the
behaviour is no longer defined, whatever names the symbol table gives the new
allocations. (On `pairFn`, where the field addresses go to loads and stores
only, the results before and after agree.) -/
theorem performScalarRepl_changes_behaviour :
    WellFormed fieldStepFn ∧
      specEligible fieldStepFn pairAlloca = true ∧
      performScalarRepl sampleSymbolTable ⟨fieldStepFn, 0, 0⟩ =
        .ok (true, ⟨fieldStepFnSplit, 1, 0⟩) ∧
      execFunction fieldStepFn = some (.int 7) ∧
      execFunction fieldStepFnSplit = none ∧
      execFunction pairFn = execFunction pairFnSplit ∧
      ∀ S : ValueSymbolTable, ∃ st2 : State,
        performScalarRepl S ⟨fieldStepFn, 0, 0⟩ = .ok (true, st2) ∧
          execFunction st2.F = none :=
  ⟨by decide, by decide, rfl, by decide, by decide, by decide, fun _ => ⟨_, rfl, rfl⟩⟩

/-! ### Result flags of the loops -/

theorem workLoop_flag : ∀ (fuel : Nat) (wl : List Instruction) (c : Bool) (st : State)
    (r : Bool × State), workLoop Sym fuel wl (c, st) = .ok r →
      (c = true → r.1 = true) ∧ (r.1 = false → r.2 = st) := by
  intro fuel
  induction fuel with
  | zero =>
    intro wl c st r h
    cases wl with
    | nil =>
      simp only [workLoop, Except.ok.injEq] at h
      subst h
      exact ⟨fun hc => hc, fun _ => rfl⟩
    | cons A wl => simp [workLoop] at h
  | succ fuel ih =>
    intro wl c st r h
    cases wl with
    | nil =>
      rw [workLoop_nil] at h
      simp only [Except.ok.injEq] at h
      subst h
      exact ⟨fun hc => hc, fun _ => rfl⟩
    | cons A wl =>
      rcases @workLoop_cons_cases Sym fuel A wl c st with
        hA | ⟨-, e, -, he⟩ | ⟨-, -, e, -, he⟩ |
        ⟨hs, hacc, F2, news, hres⟩
      · rw [workLoop_cons_skip fuel A wl c st hA] at h
        exact ih wl c st r h
      · rw [he] at h; cases h
      · rw [he] at h; cases h
      · rw [workLoop_cons_split fuel A wl c st hs hacc hres] at h
        have h1 := (ih _ true _ r h).1 rfl
        exact ⟨fun _ => h1, fun hf => by rw [hf] at h1; cases h1⟩

theorem promotionLoop_flag (P : Mem2Reg) : ∀ (fuel : Nat) (c : Bool) (st : State)
    (r : Bool × State), promotionLoop P fuel (c, st) = .ok r →
      (c = true → r.1 = true) ∧ (r.1 = false → r.2 = st) := by
  intro fuel
  induction fuel with
  | zero => intro c st r h; simp [promotionLoop] at h
  | succ fuel ih =>
    intro c st r h
    by_cases he : promotableAllocas P st.F = []
    · rw [promotionLoop_of_empty P fuel c st he] at h
      simp only [Except.ok.injEq] at h
      subst h
      exact ⟨fun hc => hc, fun _ => rfl⟩
    · rw [promotionLoop_of_nonempty P fuel c st he] at h
      have h1 := (ih true _ r h).1 rfl
      exact ⟨fun _ => h1, fun hf => by rw [hf] at h1; cases h1⟩

theorem fixpointLoop_flag (P : Mem2Reg) (fuel : Nat) : ∀ (rounds : Nat) (st : State)
    (r : Bool × State), fixpointLoop Sym P fuel rounds (true, st) = .ok r → r.1 = true := by
  intro rounds
  induction rounds with
  | zero => intro st r h; simp [fixpointLoop] at h
  | succ rounds ih =>
    intro st r h
    simp only [fixpointLoop] at h
    cases hs : performScalarRepl Sym st with
    | error e => rw [hs] at h; cases h
    | ok r1 =>
      obtain ⟨c1, st1⟩ := r1
      rw [hs] at h
      cases c1 with
      | false =>
        simp only [Except.ok.injEq] at h
        subst h; rfl
      | true =>
        simp only at h
        cases hp : performPromotion P fuel st1 with
        | error e => rw [hp] at h; cases h
        | ok r2 =>
          obtain ⟨c2, st2⟩ := r2
          rw [hp] at h
          cases c2 with
          | false =>
            simp only [Except.ok.injEq] at h
            subst h; rfl
          | true => exact ih st2 r h

/-! ## C11: the result of the driver -/

/-- C11. When `runOnFunction` returns the flag `c` and the state `st2`, the
first run of the promotion driver returned some flag `c0` and state `st0`, the
first run of the splitter on `st0` returned some flag `c1` and state `st1`, and
`c` is true exactly when `c0` or `c1` is. The run follows the state machine:
when the splitter reported no change the run stopped with `st1`; otherwise the
promotion driver ran on `st1`, the run stopped with its state when it reported
no change, and went round the loop again when it reported a change. When
`runOnFunction` returns false the state it leaves is the state it was given. -/
theorem runOnFunction_result (P : Mem2Reg) (fuel rounds : Nat) (st st2 : State) (c : Bool)
    (h : runOnFunction Sym P fuel rounds st = .ok (c, st2)) :
    ∃ c0 st0 c1 st1, performPromotion P fuel st = .ok (c0, st0) ∧
      performScalarRepl Sym st0 = .ok (c1, st1) ∧ c = (c0 || c1) ∧
      (c1 = false → st2 = st1) ∧
      (c1 = true → ∃ c2 st3, performPromotion P fuel st1 = .ok (c2, st3) ∧
        (c2 = false → st2 = st3) ∧
        (c2 = true → fixpointLoop Sym P fuel (rounds - 1) (true, st3) = .ok (c, st2))) ∧
      (c = false → st2 = st) := by
  simp only [runOnFunction] at h
  cases hp : performPromotion P fuel st with
  | error e => rw [hp] at h; cases h
  | ok r0 =>
    obtain ⟨c0, st0⟩ := r0
    rw [hp] at h
    simp only at h
    cases rounds with
    | zero => simp [fixpointLoop] at h
    | succ rounds =>
      simp only [fixpointLoop] at h
      cases hs : performScalarRepl Sym st0 with
      | error e => rw [hs] at h; cases h
      | ok r1 =>
        obtain ⟨c1, st1⟩ := r1
        rw [hs] at h
        have hpf := promotionLoop_flag P fuel false st _ hp
        have hsf := workLoop_flag _ _ false st0 _ hs
        simp only at hpf hsf
        refine ⟨c0, st0, c1, st1, rfl, hs, ?_⟩
        cases c1 with
        | false =>
          simp only [Except.ok.injEq, Prod.mk.injEq] at h
          obtain ⟨rfl, rfl⟩ := h
          refine ⟨by simp, fun _ => rfl, nofun, ?_⟩
          intro hc
          have e1 := hsf.2 rfl
          have e0 := hpf.2 hc
          rw [e1, e0]
        | true =>
          simp only at h
          cases hp2 : performPromotion P fuel st1 with
          | error e => rw [hp2] at h; cases h
          | ok r2 =>
            obtain ⟨c2, st3⟩ := r2
            rw [hp2] at h
            cases c2 with
            | false =>
              simp only [Except.ok.injEq, Prod.mk.injEq] at h
              obtain ⟨rfl, rfl⟩ := h
              refine ⟨by simp, nofun, ?_, nofun⟩
              intro _
              exact ⟨false, _, rfl, fun _ => rfl, nofun⟩
            | true =>
              simp only at h
              have hc := fixpointLoop_flag P fuel rounds st3 _ h
              simp only at hc
              subst hc
              refine ⟨by simp, nofun, ?_, nofun⟩
              intro _
              exact ⟨true, st3, rfl, nofun, fun _ => h⟩

/-- The hypothesis of C11 holds for `pairFn` and the sample promotion utility. -/
theorem runOnFunction_result_witness :
    runOnFunction sampleSymbolTable unusedAllocaUtility 1 2 ⟨pairFn, 0, 0⟩ =
      .ok (true, ⟨pairFnSplit, 1, 0⟩) ∧
    ∃ c0 st0 c1 st1, performPromotion unusedAllocaUtility 1 ⟨pairFn, 0, 0⟩ = .ok (c0, st0) ∧
      performScalarRepl sampleSymbolTable st0 = .ok (c1, st1) ∧ true = (c0 || c1) ∧
      (c1 = false → (⟨pairFnSplit, 1, 0⟩ : State) = st1) ∧
      (c1 = true → ∃ c2 st3, performPromotion unusedAllocaUtility 1 st1 = .ok (c2, st3) ∧
        (c2 = false → (⟨pairFnSplit, 1, 0⟩ : State) = st3) ∧
        (c2 = true → fixpointLoop sampleSymbolTable unusedAllocaUtility 1 (2 - 1) (true, st3) =
          .ok (true, ⟨pairFnSplit, 1, 0⟩))) ∧
      (true = false → (⟨pairFnSplit, 1, 0⟩ : State) = ⟨pairFn, 0, 0⟩) :=
  ⟨rfl, runOnFunction_result unusedAllocaUtility 1 2 ⟨pairFn, 0, 0⟩ ⟨pairFnSplit, 1, 0⟩ true rfl⟩

/-! ### Runs of the promotion loop -/

theorem promotableAllocas_eq (P : Mem2Reg) (F : Function) :
    promotableAllocas P F =
      F.entry.dropLast.filter (fun I => I.isAlloca && P.isAllocaPromotable F I) := by
  simp only [promotableAllocas, entryAllocas, List.filter_filter]
  congr 1
  funext I
  exact Bool.and_comm _ _

theorem PromotionRun.first_scan {P : Mem2Reg} {F F2 : Function}
    {batches : List (List Instruction)} (h : PromotionRun P F batches F2) :
    batches ≠ [] ↔ promotableAllocas P F ≠ [] := by
  cases h with
  | done _ he => simp [he]
  | step _ _ _ hne _ => simp [hne]

theorem PromotionRun.last_scan {P : Mem2Reg} {F F2 : Function}
    {batches : List (List Instruction)} (h : PromotionRun P F batches F2) :
    promotableAllocas P F2 = [] := by
  induction h with
  | done _ he => exact he
  | step _ _ _ _ _ ih => exact ih

theorem promotionLoop_run (P : Mem2Reg) : ∀ (fuel : Nat) (c : Bool) (st : State)
    (r : Bool × State), promotionLoop P fuel (c, st) = .ok r →
      ∃ batches, batches.length < fuel ∧ PromotionRun P st.F batches r.2.F ∧
        r.1 = (c || !batches.isEmpty) ∧
        r.2.NumPromoted = st.NumPromoted + (batches.map List.length).sum ∧
        r.2.NumExpanded = st.NumExpanded := by
  intro fuel
  induction fuel with
  | zero => intro c st r h; simp [promotionLoop] at h
  | succ fuel ih =>
    intro c st r h
    by_cases he : promotableAllocas P st.F = []
    · rw [promotionLoop_of_empty P fuel c st he] at h
      simp only [Except.ok.injEq] at h
      subst h
      exact ⟨[], by simp, PromotionRun.done _ he, by simp, by simp, rfl⟩
    · rw [promotionLoop_of_nonempty P fuel c st he] at h
      obtain ⟨batches, hlen, hrun, hc, hn, hx⟩ := ih true _ r h
      refine ⟨promotableAllocas P st.F :: batches, by simpa using hlen,
        PromotionRun.step _ _ _ he hrun, by simpa using hc, ?_, hx⟩
      simp only at hn
      rw [hn]
      simp only [List.map_cons, List.sum_cons]
      omega

theorem promotionLoop_of_run (P : Mem2Reg) {F F2 : Function}
    {batches : List (List Instruction)} (h : PromotionRun P F batches F2) :
    ∀ (fuel : Nat) (c : Bool) (e n : Nat), batches.length < fuel →
      promotionLoop P fuel (c, ⟨F, e, n⟩) =
        .ok (c || !batches.isEmpty, ⟨F2, e, n + (batches.map List.length).sum⟩) := by
  induction h with
  | done F he =>
    intro fuel c e n hf
    cases fuel with
    | zero => simp at hf
    | succ fuel =>
      rw [promotionLoop_of_empty P fuel c ⟨F, e, n⟩ he]
      simp
  | step F F2 batches hne _ ih =>
    intro fuel c e n hf
    cases fuel with
    | zero => simp at hf
    | succ fuel =>
      rw [promotionLoop_of_nonempty P fuel c ⟨F, e, n⟩ hne]
      simp only
      rw [ih fuel true e _ (by simpa using hf)]
      simp only [List.map_cons, List.sum_cons, List.isEmpty_cons, Bool.not_false,
        Bool.or_true, Bool.true_or, Nat.add_assoc]

/-! ## C12: the promotion driver -/

/-- C12. `performPromotion` returns the flag `c` and the state `st2` exactly
when its loop makes a run of fewer scans with a batch than the fuel allows, from
the function of `st` to the function of `st2`, in which every batch handed to
`PromoteMemToReg` is the list of the instructions of the entry block, the last
one excluded, that are allocations and pass `isAllocaPromotable`, in block
order, the run ends at the first scan that finds none, `c` is true if and only
if the first scan found at least one, the promoted counter grows by the sum of
the batch sizes and the expanded counter is unchanged. -/
theorem performPromotion_batches (P : Mem2Reg) (fuel : Nat) (st st2 : State) (c : Bool) :
    performPromotion P fuel st = .ok (c, st2) ↔
      ∃ batches : List (List Instruction), batches.length < fuel ∧
        PromotionRun P st.F batches st2.F ∧
        (∀ G, promotableAllocas P G =
          G.entry.dropLast.filter (fun I => I.isAlloca && P.isAllocaPromotable G I)) ∧
        promotableAllocas P st2.F = [] ∧
        (c = true ↔ promotableAllocas P st.F ≠ []) ∧
        st2.NumPromoted = st.NumPromoted + (batches.map List.length).sum ∧
        st2.NumExpanded = st.NumExpanded := by
  constructor
  · intro h
    obtain ⟨batches, hlen, hrun, hc, hn, hx⟩ := promotionLoop_run P fuel false st _ h
    refine ⟨batches, hlen, hrun, promotableAllocas_eq P, hrun.last_scan, ?_, hn, hx⟩
    rw [← hrun.first_scan]
    simp only [Bool.false_or] at hc
    rw [hc]
    cases batches <;> simp
  · rintro ⟨batches, hlen, hrun, -, -, hc, hn, hx⟩
    obtain ⟨F, e, n⟩ := st
    obtain ⟨F2, e2, n2⟩ := st2
    simp only at hrun hc hn hx
    subst hn hx
    rw [performPromotion, promotionLoop_of_run P hrun fuel false e2 n hlen]
    rw [← hrun.first_scan] at hc
    have : c = !batches.isEmpty := by
      cases c <;> cases batches <;> simp at hc ⊢
    rw [this, Bool.false_or]

/-- The driver on `deadAllocaFn`, with the utility that promotes the unused
allocations: one batch, holding `%d`. -/
theorem performPromotion_batches_witness :
    ∃ batches : List (List Instruction), batches.length < 2 ∧
      PromotionRun unusedAllocaUtility deadAllocaFn batches deadAllocaFnPromoted ∧
      (∀ G, promotableAllocas unusedAllocaUtility G =
        G.entry.dropLast.filter
          (fun I => I.isAlloca && unusedAllocaUtility.isAllocaPromotable G I)) ∧
      promotableAllocas unusedAllocaUtility deadAllocaFnPromoted = [] ∧
      (true = true ↔ promotableAllocas unusedAllocaUtility deadAllocaFn ≠ []) ∧
      1 = 0 + (batches.map List.length).sum ∧ 0 = 0 :=
  (performPromotion_batches unusedAllocaUtility 2 ⟨deadAllocaFn, 0, 0⟩
    ⟨deadAllocaFnPromoted, 0, 1⟩ true).mp rfl

/-! ### Runs of the work-list loop -/

theorem workLoop_run : ∀ (fuel : Nat) (wl : List Instruction) (c : Bool) (st : State)
    (r : Bool × State), workLoop Sym fuel wl (c, st) = .ok r →
      ∃ splits, WorkRun Sym wl st.F splits r.2.F ∧
        r.2.NumExpanded = st.NumExpanded + splits.length ∧
        r.2.NumPromoted = st.NumPromoted ∧ r.1 = (c || !splits.isEmpty) := by
  intro fuel
  induction fuel with
  | zero =>
    intro wl c st r h
    cases wl with
    | nil =>
      simp only [workLoop, Except.ok.injEq] at h
      subst h
      exact ⟨[], WorkRun.done _, by simp, rfl, by simp⟩
    | cons A wl => simp [workLoop] at h
  | succ fuel ih =>
    intro wl c st r h
    cases wl with
    | nil =>
      rw [workLoop_nil] at h
      simp only [Except.ok.injEq] at h
      subst h
      exact ⟨[], WorkRun.done _, by simp, rfl, by simp⟩
    | cons A wl =>
      rcases @workLoop_cons_cases Sym fuel A wl c st with
        hA | ⟨-, e, -, he⟩ | ⟨-, -, e, -, he⟩ |
        ⟨hs, hacc, F2, news, hres⟩
      · rw [workLoop_cons_skip fuel A wl c st hA] at h
        obtain ⟨splits, hrun, hx, hn, hc⟩ := ih wl c st r h
        exact ⟨splits, WorkRun.skip _ _ _ _ _ hA hrun, hx, hn, hc⟩
      · rw [he] at h; cases h
      · rw [he] at h; cases h
      · rw [workLoop_cons_split fuel A wl c st hs hacc hres] at h
        obtain ⟨splits, hrun, hx, hn, hc⟩ := ih _ true _ r h
        simp only at hrun hx hn
        refine ⟨A :: splits, WorkRun.split _ _ _ _ _ _ _ hs hacc hres hrun, ?_, hn, ?_⟩
        · rw [hx, List.length_cons]; omega
        · rw [hc]; simp

theorem workLoop_of_run {wl splits : List Instruction} {F F2 : Function}
    (h : WorkRun Sym wl F splits F2) :
    ∀ (fuel : Nat) (c : Bool) (e n : Nat), workListFuel wl ≤ fuel →
      workLoop Sym fuel wl (c, ⟨F, e, n⟩) =
        .ok (c || !splits.isEmpty, ⟨F2, e + splits.length, n⟩) := by
  induction h with
  | done F =>
    intro fuel c e n _
    rw [workLoop_nil]
    simp
  | skip A wl F F2 splits hA _ ih =>
    intro fuel c e n hf
    have hcons : workListFuel (A :: wl) = A.workCost + workListFuel wl := by
      simp [workListFuel]
    have h1 : 1 ≤ A.workCost := by
      unfold Instruction.workCost
      cases A.kind <;> simp [one_le_workCost]
    cases fuel with
    | zero => omega
    | succ fuel =>
      rw [workLoop_cons_skip fuel A wl c ⟨F, e, n⟩ hA]
      exact ih fuel c e n (by omega)
  | split A wl F F1 F2 news splits hs hacc hres _ ih =>
    intro fuel c e n hf
    have hcons : workListFuel (A :: wl) = A.workCost + workListFuel wl := by
      simp [workListFuel]
    obtain ⟨fs, al, hk⟩ := isStructAlloca_iff.1 hs
    have hA : A.workCost = 1 + Ty.workCostList fs := by
      simp [Instruction.workCost, hk, Ty.workCost]
    cases fuel with
    | zero => omega
    | succ fuel =>
      rw [workLoop_cons_split fuel A wl c ⟨F, e, n⟩ hs hacc hres]
      simp only
      rw [ih fuel true (e + 1) n]
      · simp only [List.isEmpty_cons, Bool.not_false, Bool.or_true, Bool.true_or,
          List.length_cons]
        congr 3
        omega
      · rw [workListFuel_append, workListFuel_reverse, splitAlloca_news hk hres,
          createAllocas_workCost]
        omega

/-! ## C13: the expanded counter and the result of the splitter -/

/-- C13. `performScalarRepl` returns the flag `c` and the state `st2` exactly
when its work-list loop makes a run from the allocations of the entry block and
the function of `st` to the function of `st2` that splits the allocations
`splits` (allocations of the entry block and new field allocations that went on
the work list alike), the expanded counter of `st2` is that of `st` plus the
number of the allocations split, the promoted counter is unchanged, and `c` is
true if and only if at least one allocation was split. -/
theorem performScalarRepl_counts_splits (st st2 : State) (c : Bool) :
    performScalarRepl Sym st = .ok (c, st2) ↔
      ∃ splits, WorkRun Sym (entryAllocas st.F).reverse st.F splits st2.F ∧
        st2.NumExpanded = st.NumExpanded + splits.length ∧
        st2.NumPromoted = st.NumPromoted ∧ (c = true ↔ 1 ≤ splits.length) := by
  constructor
  · intro h
    obtain ⟨splits, hrun, hx, hn, hc⟩ := workLoop_run _ _ false st _ h
    refine ⟨splits, hrun, hx, hn, ?_⟩
    simp only [Bool.false_or] at hc
    rw [hc]
    cases splits <;> simp
  · rintro ⟨splits, hrun, hx, hn, hc⟩
    obtain ⟨F, e, n⟩ := st
    obtain ⟨F2, e2, n2⟩ := st2
    simp only at hrun hx hn hc
    subst hx hn
    rw [performScalarRepl]
    simp only
    rw [workLoop_of_run hrun _ false e n2 (le_refl _)]
    have : c = !splits.isEmpty := by
      cases c <;> cases splits <;> simp at hc ⊢
    rw [this, Bool.false_or]

/-- The splitter on `deepFn`: three allocations are split, `%s` and its two
field allocations, and the counter grows by three. -/
theorem performScalarRepl_counts_splits_witness :
    ∃ splits,
      WorkRun sampleSymbolTable (entryAllocas deepFn).reverse deepFn splits deepFnSplit ∧
      3 = 0 + splits.length ∧ 0 = 0 ∧ (true = true ↔ 1 ≤ splits.length) :=
  (performScalarRepl_counts_splits ⟨deepFn, 0, 0⟩ ⟨deepFnSplit, 3, 0⟩ true).mp rfl

/-! ## C20: the legality check is not total -/

theorem checkUser_cast_fails {U : Instruction} {p i1 i2 : Value} (hg : U.isGEP = true)
    (hops : U.operands = [p, i1, i2]) (hp : p.getType.isPointer = true)
    (hi : i1.isConstant = false) : checkUser U = .error .castFailed := by
  rw [checkUser_eq]
  simp [hg, hops, hp, hi]

/-- C20. The legality check does not return a boolean for every allocation:
whenever the first user of the allocation is a GEP with exactly two indices, a
pointer-typed pointer operand and a first index that is not a constant, the
check ends at the failed `cast<Constant>` of that index. The well-formed
`varIndexFn` is such a function: the only user of `%a` is the GEP
`getelementptr { i32, i32 }* %a, i32 %n, i32 0`, and the check returns neither
true nor false there. -/
theorem checkGEPU1Format_fails_cast_on_variable_first_index :
    (∀ (F : Function) (A U : Instruction) (us : List Instruction) (p i1 i2 : Value),
      users F A.id = U :: us → U.isGEP = true → U.operands = [p, i1, i2] →
      p.getType.isPointer = true → i1.isConstant = false →
        checkGEPU1Format F A = .error .castFailed) ∧
      WellFormed varIndexFn ∧
      pairAlloca ∈ varIndexFn.entry ∧
      users varIndexFn pairAlloca.id =
        [Instruction.mk 2 "g" .gep (.ptr (.int 32))
          [.inst 1 (.ptr pairTy), .arg 0 (.int 32), .constInt 32 0]] ∧
      checkGEPU1Format varIndexFn pairAlloca = .error .castFailed ∧
      ∀ b : Bool, checkGEPU1Format varIndexFn pairAlloca ≠ .ok b := by
  refine ⟨?_, by decide, by decide, by decide, rfl, ?_⟩
  · intro F A U us p i1 i2 hu hg hops hp hi
    simp only [checkGEPU1Format, hu, checkUsers, checkUser_cast_fails hg hops hp hi]
  · intro b h
    have h2 : checkGEPU1Format varIndexFn pairAlloca = .error .castFailed := rfl
    rw [h2] at h
    cases h

/-! ## C23: the post-condition of the splitter -/

/-- C23. When `performScalarRepl` returns on a well-formed function, every
struct-typed allocation of the entry block of the function it leaves is
rejected by `checkGEPU1Format`, and a second call right after returns false and
leaves the state, the function included, as it is. -/
theorem performScalarRepl_leaves_no_eligible_alloca (st st2 : State) (c : Bool)
    (hwf : WellFormed st.F) (h : performScalarRepl Sym st = .ok (c, st2)) :
    (∀ B ∈ st2.F.entry, B.isStructAlloca = true → checkGEPU1Format st2.F B = .ok false) ∧
      performScalarRepl Sym st2 = .ok (false, st2) := by
  have hinv := performScalarRepl_inv hwf h
  refine ⟨?_, performScalarRepl_idempotent hwf h⟩
  intro B hB hs
  have hB2 : B ∈ entryAllocas st2.F :=
    hinv.1.mem_entryAllocas.2 ⟨hB, isStructAlloca_isAlloca hs⟩
  rcases hinv.2.1 B hB2 with h1 | h1
  · rw [hs] at h1; cases h1
  · exact h1

/-- The splitter on `nestedFn`: the two struct allocations it leaves have calls
as users and are rejected, and a second call changes nothing. -/
theorem performScalarRepl_leaves_no_eligible_alloca_witness :
    WellFormed nestedFn ∧
      performScalarRepl sampleSymbolTable ⟨nestedFn, 0, 0⟩ = .ok (true, ⟨nestedFnSplit, 1, 0⟩) ∧
      (∀ B ∈ nestedFnSplit.entry, B.isStructAlloca = true →
        checkGEPU1Format nestedFnSplit B = .ok false) ∧
      performScalarRepl sampleSymbolTable ⟨nestedFnSplit, 1, 0⟩ =
        .ok (false, ⟨nestedFnSplit, 1, 0⟩) :=
  ⟨by decide, rfl,
    performScalarRepl_leaves_no_eligible_alloca ⟨nestedFn, 0, 0⟩ ⟨nestedFnSplit, 1, 0⟩ true
      (by decide) rfl⟩

/-! ### The moments of the erase loop -/

theorem splitAlloca_eq_stage (F : Function) (A : Instruction) :
    splitAlloca Sym F A =
      match redirectStage Sym F A with
      | .error e => .error e
      | .ok (F1, oldInst) =>
        .ok ((eraseLoop oldInst F1).eraseFromParent A.id,
          (createAllocas (Sym.makeUniqueName F) A (match A.getAllocatedType with
            | some t => t.containedTypes
            | none => []) 0 F).2) := rfl

theorem users_eraseFromParent (F : Function) (id x : Nat) :
    users (F.eraseFromParent id) x = (users F x).filter (fun I => I.id != id) :=
  users_filter F _ x

theorem eraseLoopUnused_of_no_users (old : List Instruction) :
    ∀ F : Function, (∀ G ∈ old, users F G.id = []) → eraseLoopUnused old F = true := by
  induction old with
  | nil => intro F _; rfl
  | cons G old ih =>
    intro F h
    simp only [eraseLoopUnused, Bool.and_eq_true, List.isEmpty_iff]
    refine ⟨h G (by simp), ih _ ?_⟩
    intro G' hG'
    rw [users_eraseFromParent, h G' (by simp [hG'])]
    rfl

theorem users_eraseLoop (old : List Instruction) (F : Function) (x : Nat) :
    users (eraseLoop old F) x =
      (users F x).filter (fun I => !(old.any (fun G => G.id == I.id))) := by
  rw [eraseLoop_spec, users_filter]

/-- After the redirect loop of a split no operand is the result of a GEP on the
allocation. -/
theorem Split.redirect_not_gep_result {F F2 : Function} {A : Instruction}
    {news : List Instruction} (h : Split Sym F A F2 news) {G : Instruction}
    (hG : G ∈ users F A.id) (v : Value) :
    (redirectOperand news (users F A.id) v).isInst G.id = false := by
  have hg := (accepted_user h.accepted hG).2.1
  have hfresh : ∀ n ∈ news, n.asValue.isInst G.id = false := by
    intro n hn
    have := (h.new_props hn).2.2.2.2 G (mem_users.1 hG).1
    simpa [Instruction.asValue, Value.isInst] using fun e => this e.symm
  cases hv : v.isInst G.id with
  | true =>
    obtain ⟨n, hn, -, hmem⟩ := h.target hG
    rw [redirectOperand_of_gep_result news _ h.users_inj hG hg hv hn]
    exact hfresh n hmem
  | false =>
    rcases redirectOperand_cases news (users F A.id) v with e | ⟨G', -, -, -, n, hn, e⟩
    · rw [e]; exact hv
    · rw [e]; exact hfresh n (h.redirect_target_mem hn)

/-- The state of a split after its redirect loop, in closed form. -/
theorem Split.stage {F F2 : Function} {A : Instruction} {news : List Instruction}
    (h : Split Sym F A F2 news) :
    ∃ pre post, At F A pre post ∧
      redirectStage Sym F A = .ok
        (Function.mapBlocks
          (List.map (Instruction.mapOperands (redirectOperand news (users F A.id))))
          { entry := pre ++ news ++ A :: post, rest := F.rest },
          (users F A.id).reverse) := by
  obtain ⟨pre, post, fs, al, hat, hk, h1, -⟩ := h.spec
  refine ⟨pre, post, hat, ?_⟩
  have hres := h.result
  rw [splitAlloca_eq_stage] at hres
  unfold redirectStage at hres ⊢
  simp only [Instruction.getAllocatedType, hk, Ty.containedTypes] at hres ⊢
  rw [createAllocas_spec A fs 0 F pre post hat] at hres ⊢
  simp only [users_insert_fieldAllocas F hat] at hres ⊢
  rw [← h1] at hres ⊢
  cases hred : redirectLoop news (users F A.id)
      { entry := pre ++ news ++ A :: post, rest := F.rest } [] with
  | error e => rw [hred] at hres; cases hres
  | ok r =>
    have hfresh : ∀ n ∈ news, ∀ G ∈ users F A.id, n.id ≠ G.id := by
      intro n hn G hG e
      exact (h.new_props hn).2.2.2.2 G (mem_users.1 hG).1 e.symm
    have hspec := redirectLoop_spec _ _ hfresh _ _ _ hred
    have hall : (users F A.id).filter Instruction.isGEP = users F A.id := by
      rw [List.filter_eq_self]
      intro G hG
      exact (accepted_user h.accepted hG).2.1
    rw [hspec, hall, List.append_nil]

/-! ## C21: the erase discipline -/

/-- C21. For an eligible struct allocation `A` of the entry block of a
well-formed function the body of the work-list loop returns, and: the redirect
loop ends with `oldInst` holding the users of `A`, all of them GEPs on `A`; in
the erase loop every one of them has an empty user list at the moment
`eraseFromParent` is called on it; after that loop the user list of `A` is
empty, and `A` is erased; and in the function the body leaves no operand of any
instruction is the result of `A` or of an erased GEP. -/
theorem erase_discipline (F : Function) (A : Instruction)
    (hwf : WellFormed F) (hmem : A ∈ F.entry) (hs : A.isStructAlloca = true)
    (hel : specEligible F A = true) :
    ∃ F1 oldInst F2 newAllocas,
      redirectStage Sym F A = .ok (F1, oldInst) ∧
      splitAlloca Sym F A = .ok (F2, newAllocas) ∧
      F2 = (eraseLoop oldInst F1).eraseFromParent A.id ∧
      oldInst = (users F A.id).reverse ∧
      (∀ G ∈ oldInst, G.isGEP = true ∧ G ∈ F1.insts) ∧
      eraseLoopUnused oldInst F1 = true ∧
      users (eraseLoop oldInst F1) A.id = [] ∧
      ∀ U ∈ F2.insts, ∀ v ∈ U.operands,
        v.isInst A.id = false ∧ ∀ G ∈ oldInst, v.isInst G.id = false := by
  obtain ⟨F2, news, h⟩ := @split_succeeds Sym F A hwf hmem hs hel
  obtain ⟨pre, post, hat, hst⟩ := h.stage
  have hAm := mem_insts_of_mem_entry hmem
  have hAa := isStructAlloca_isAlloca hs
  have hF2 : F2 = (eraseLoop (users F A.id).reverse
      (Function.mapBlocks
        (List.map (Instruction.mapOperands (redirectOperand news (users F A.id))))
        { entry := pre ++ news ++ A :: post, rest := F.rest })).eraseFromParent A.id := by
    have hres := h.result
    rw [splitAlloca_eq_stage, hst] at hres
    simp only [Except.ok.injEq, Prod.mk.injEq] at hres
    exact hres.1.symm
  have hmemc : ∀ I : Instruction,
      I ∈ Function.insts { entry := pre ++ news ++ A :: post, rest := F.rest } ↔
        I ∈ news ∨ I ∈ F.insts := by
    intro I
    simp only [Function.insts, hat.entry, List.mem_append, List.mem_cons]
    tauto
  have hnoG : ∀ G ∈ users F A.id, ∀ x : Nat, x = G.id →
      users (Function.mapBlocks
        (List.map (Instruction.mapOperands (redirectOperand news (users F A.id))))
        { entry := pre ++ news ++ A :: post, rest := F.rest }) x = [] := by
    intro G hG x hx
    subst hx
    rw [List.eq_nil_iff_forall_not_mem]
    intro U hU
    obtain ⟨hUm, v, hv, hvi⟩ := mem_users.1 hU
    rw [insts_mapBlocks_map] at hUm
    obtain ⟨I, -, rfl⟩ := List.mem_map.1 hUm
    simp only [Instruction.mapOperands] at hv
    obtain ⟨v0, -, rfl⟩ := List.mem_map.1 hv
    rw [h.redirect_not_gep_result hG v0] at hvi
    cases hvi
  have hnoA : users (eraseLoop (users F A.id).reverse
      (Function.mapBlocks
        (List.map (Instruction.mapOperands (redirectOperand news (users F A.id))))
        { entry := pre ++ news ++ A :: post, rest := F.rest })) A.id = [] := by
    rw [users_eraseLoop, List.filter_eq_nil_iff]
    intro U hU
    obtain ⟨hUm, v, hv, hvi⟩ := mem_users.1 hU
    rw [insts_mapBlocks_map] at hUm
    obtain ⟨I, hI, rfl⟩ := List.mem_map.1 hUm
    simp only [Instruction.mapOperands] at hv
    obtain ⟨v0, hv0, rfl⟩ := List.mem_map.1 hv
    rw [h.redirect_isInst hAm hAa v0] at hvi
    have hIu : I ∈ users F A.id := by
      rcases (hmemc I).1 hI with hn | hF
      · rw [(h.new_props hn).2.1] at hv0
        simp only [List.mem_singleton] at hv0
        subst hv0
        cases hvi
      · exact mem_users.2 ⟨hF, v0, hv0, hvi⟩
    simp only [Bool.not_eq_true, Bool.not_eq_false', List.any_eq_true, List.mem_reverse]
    exact ⟨I, hIu, by simp [Instruction.mapOperands]⟩
  refine ⟨_, _, F2, news, hst, h.result, hF2, rfl, ?_, ?_, hnoA, ?_⟩
  · intro G hG
    have hG2 : G ∈ users F A.id := List.mem_reverse.1 hG
    have hacc := accepted_user h.accepted hG2
    refine ⟨hacc.2.1, ?_⟩
    rw [insts_mapBlocks_map]
    refine List.mem_map.2 ⟨G, (hmemc G).2 (Or.inr hacc.1), ?_⟩
    obtain ⟨p, i1, i2, hops, hp, -, hc1, -, hc2⟩ := hacc.2.2
    have hpA : redirectOperand news (users F A.id) p = p := by
      apply redirectOperand_of_not_gep_result
      intro G' hG' _
      obtain ⟨ty, rfl⟩ := isInst_iff.1 hp
      cases hb : (Value.inst A.id ty).isInst G'.id with
      | false => rfl
      | true =>
        have e : A.id = G'.id := by simpa [Value.isInst] using hb
        have := hwf.id_inj hAm (mem_users.1 hG').1 e
        subst this
        have := (accepted_user h.accepted hG').2.1
        rw [isAlloca_not_isGEP hAa] at this
        cases this
    cases G
    simp only [Instruction.mapOperands] at hops ⊢
    subst hops
    simp [hpA, redirectOperand_const _ _ _ hc1, redirectOperand_const _ _ _ hc2]
  · apply eraseLoopUnused_of_no_users
    intro G hG
    exact hnoG G (List.mem_reverse.1 hG) _ rfl
  · intro U hU v hv
    constructor
    · cases hvi : v.isInst A.id with
      | false => rfl
      | true =>
        have hu : U ∈ users F2 A.id := mem_users.2 ⟨hU, v, hv, hvi⟩
        rw [hF2, users_eraseFromParent, hnoA] at hu
        cases hu
    · intro G hG
      cases hvi : v.isInst G.id with
      | false => rfl
      | true =>
        have hu : U ∈ users F2 G.id := mem_users.2 ⟨hU, v, hv, hvi⟩
        rw [hF2, users_eraseFromParent, users_eraseLoop,
          hnoG G (List.mem_reverse.1 hG) _ rfl] at hu
        cases hu

/-- The hypotheses of C21 hold for `%a` of `pairFn`; before the redirect loop the
GEPs on `%a` still have users, and erasing them then would break the rule. -/
theorem erase_discipline_witness :
    WellFormed pairFn ∧ pairAlloca ∈ pairFn.entry ∧ pairAlloca.isStructAlloca = true ∧
    specEligible pairFn pairAlloca = true ∧
    (∃ F1 oldInst F2 newAllocas,
      redirectStage sampleSymbolTable pairFn pairAlloca = .ok (F1, oldInst) ∧
      splitAlloca sampleSymbolTable pairFn pairAlloca = .ok (F2, newAllocas) ∧
      F2 = (eraseLoop oldInst F1).eraseFromParent pairAlloca.id ∧
      oldInst = (users pairFn pairAlloca.id).reverse ∧
      (∀ G ∈ oldInst, G.isGEP = true ∧ G ∈ F1.insts) ∧
      eraseLoopUnused oldInst F1 = true ∧
      users (eraseLoop oldInst F1) pairAlloca.id = [] ∧
      ∀ U ∈ F2.insts, ∀ v ∈ U.operands,
        v.isInst pairAlloca.id = false ∧ ∀ G ∈ oldInst, v.isInst G.id = false) ∧
    eraseLoopUnused (users pairFn pairAlloca.id).reverse pairFn = false :=
  ⟨by decide, by decide, by decide, by decide,
    erase_discipline pairFn pairAlloca (by decide) (by decide) (by decide) (by decide),
    by decide⟩

/-! ### The work-list loop and its log -/

theorem workLoopLog_nil (fuel : Nat) (r : Bool × State) :
    workLoopLog Sym fuel [] r = .ok (r, ⟨[], []⟩) := by
  cases fuel <;> rfl

theorem workLoopLog_cons_skip (fuel : Nat) (A : Instruction) (wl : List Instruction) (c : Bool)
    (st : State)
    (hA : A.isStructAlloca = false ∨ checkGEPU1Format st.F A = .ok false) :
    workLoopLog Sym (fuel + 1) (A :: wl) (c, st) =
      (workLoopLog Sym fuel wl (c, st)).map (WorkLog.step A []) := by
  simp only [workLoopLog]
  rcases hA with hA | hA
  · simp [hA]
  · cases hs : A.isStructAlloca
    · simp
    · simp [hA]

theorem workLoopLog_cons_split (fuel : Nat) (A : Instruction) (wl : List Instruction)
    (c : Bool) (st : State) {F2 : Function} {news : List Instruction}
    (hs : A.isStructAlloca = true) (hacc : checkGEPU1Format st.F A = .ok true)
    (hres : splitAlloca Sym st.F A = .ok (F2, news)) :
    workLoopLog Sym (fuel + 1) (A :: wl) (c, st) =
      (workLoopLog Sym fuel (news.reverse ++ wl)
        (true, { st with F := F2, NumExpanded := st.NumExpanded + 1 })).map
          (WorkLog.step A news) := by
  simp [workLoopLog, hs, hacc, hres]

/-- Without its log, the loop with a log is the work-list loop. -/
theorem workLoopLog_erase : ∀ (fuel : Nat) (wl : List Instruction) (r : Bool × State),
    (workLoopLog Sym fuel wl r).map Prod.fst = workLoop Sym fuel wl r := by
  intro fuel
  induction fuel with
  | zero =>
    intro wl r
    cases wl <;> rfl
  | succ fuel ih =>
    intro wl r
    obtain ⟨c, st⟩ := r
    cases wl with
    | nil => rfl
    | cons A wl =>
      have hmap : ∀ (x : Except Err ((Bool × State) × WorkLog)) (news : List Instruction),
          (x.map (WorkLog.step A news)).map Prod.fst = x.map Prod.fst := by
        intro x news
        cases x <;> rfl
      rcases @workLoop_cons_cases Sym fuel A wl c st with
        hA | ⟨hs, e, he1, he⟩ |
        ⟨hs, hacc, e, he1, he⟩ | ⟨hs, hacc, F2, news, hres⟩
      · rw [workLoopLog_cons_skip fuel A wl c st hA, workLoop_cons_skip fuel A wl c st hA,
          hmap, ih]
      · rw [he]
        simp [workLoopLog, hs, he1, Except.map]
      · rw [he]
        simp [workLoopLog, hs, hacc, he1, Except.map]
      · rw [workLoopLog_cons_split fuel A wl c st hs hacc hres,
          workLoop_cons_split fuel A wl c st hs hacc hres, hmap, ih]

/-- What is examined is what was on the work list and what was pushed. -/
theorem workLoopLog_perm : ∀ (fuel : Nat) (wl : List Instruction) (r r2 : Bool × State)
    (log : WorkLog), workLoopLog Sym fuel wl r = .ok (r2, log) →
      log.examined.Perm (wl ++ log.pushed) := by
  intro fuel
  induction fuel with
  | zero =>
    intro wl r r2 log h
    cases wl with
    | nil =>
      simp only [workLoopLog, Except.ok.injEq, Prod.mk.injEq] at h
      obtain ⟨-, rfl⟩ := h
      exact List.Perm.refl _
    | cons A wl => simp [workLoopLog] at h
  | succ fuel ih =>
    intro wl r r2 log h
    obtain ⟨c, st⟩ := r
    cases wl with
    | nil =>
      rw [workLoopLog_nil] at h
      simp only [Except.ok.injEq, Prod.mk.injEq] at h
      obtain ⟨-, rfl⟩ := h
      exact List.Perm.refl _
    | cons A wl =>
      rcases @workLoop_cons_cases Sym fuel A wl c st with
        hA | ⟨hs, e, he1, -⟩ |
        ⟨hs, hacc, e, he1, -⟩ | ⟨hs, hacc, F2, news, hres⟩
      · rw [workLoopLog_cons_skip fuel A wl c st hA] at h
        cases hx : workLoopLog Sym fuel wl (c, st) with
        | error e => rw [hx] at h; cases h
        | ok x =>
          rw [hx] at h
          simp only [Except.map, WorkLog.step, Except.ok.injEq, Prod.mk.injEq] at h
          obtain ⟨-, rfl⟩ := h
          have := ih wl (c, st) x.1 x.2 hx
          simpa using this
      · simp [workLoopLog, hs, he1] at h
      · simp [workLoopLog, hs, hacc, he1] at h
      · rw [workLoopLog_cons_split fuel A wl c st hs hacc hres] at h
        cases hx : workLoopLog Sym fuel (news.reverse ++ wl)
            (true, { st with F := F2, NumExpanded := st.NumExpanded + 1 }) with
        | error e => rw [hx] at h; cases h
        | ok x =>
          rw [hx] at h
          simp only [Except.map, WorkLog.step, Except.ok.injEq, Prod.mk.injEq] at h
          obtain ⟨-, rfl⟩ := h
          have h1 := ih _ _ x.1 x.2 hx
          simp only [List.cons_append, List.perm_cons]
          refine h1.trans ?_
          rw [List.append_assoc, ← List.append_assoc wl news]
          refine (List.Perm.append_right _ (List.reverse_perm news)).trans ?_
          rw [← List.append_assoc]
          exact List.Perm.append_right _ List.perm_append_comm

/-! ## C22: the work list -/

theorem performScalarReplLog_erase (st : State) :
    (performScalarReplLog Sym st).map Prod.fst = performScalarRepl Sym st :=
  workLoopLog_erase _ _ _

/-- C22. Types are finite trees here, so every struct type is finitely nested.
The work-list loop of `performScalarRepl` never uses up the iterations the
types of the allocations on the work list allow it, whatever the function: it
ends. The loop with a log is the same loop. When the call returns, the
allocations it examined are, counted with multiplicity, the allocations of the
entry block it started from together with the new field allocations its splits
pushed: every pushed allocation was examined in this call, once for each time it
was pushed, and nothing else was. And on a well-formed function a pushed
allocation of struct type that is still in the entry block at the end is one the
legality check rejects, so a nested struct whose field allocations pass the
check is split until no struct allocation of it is left. -/
theorem worklist_terminates_and_examines_once (st : State) :
    (∀ fuel, workListFuel (entryAllocas st.F).reverse ≤ fuel →
      workLoop Sym fuel (entryAllocas st.F).reverse (false, st) ≠ .error .outOfFuel) ∧
      performScalarRepl Sym st ≠ .error .outOfFuel ∧
      (performScalarReplLog Sym st).map Prod.fst = performScalarRepl Sym st ∧
      ∀ (c : Bool) (st2 : State) (log : WorkLog),
        performScalarReplLog Sym st = .ok ((c, st2), log) →
          log.examined.Perm (entryAllocas st.F ++ log.pushed) ∧
          (∀ N, log.examined.count N = (entryAllocas st.F).count N + log.pushed.count N) ∧
          (∀ N ∈ log.pushed, N ∈ log.examined) ∧
          (WellFormed st.F → ∀ N ∈ log.pushed, N ∈ st2.F.entry → N.isStructAlloca = true →
            checkGEPU1Format st2.F N = .ok false) := by
  refine ⟨fun fuel hf => workLoop_ne_outOfFuel _ _ _ hf, performScalarRepl_ne_outOfFuel st,
    performScalarReplLog_erase st, ?_⟩
  intro c st2 log h
  have hperm : log.examined.Perm (entryAllocas st.F ++ log.pushed) :=
    (workLoopLog_perm _ _ _ _ _ h).trans
      (List.Perm.append_right _ (List.reverse_perm _))
  refine ⟨hperm, ?_, ?_, ?_⟩
  · intro N
    rw [hperm.count_eq, List.count_append]
  · intro N hN
    exact hperm.mem_iff.2 (List.mem_append_right _ hN)
  · intro hwf N _ hNe hs
    have hps : performScalarRepl Sym st = .ok (c, st2) := by
      rw [← performScalarReplLog_erase, h]
      rfl
    have hinv := performScalarRepl_inv hwf hps
    have hN2 : N ∈ entryAllocas st2.F :=
      hinv.1.mem_entryAllocas.2 ⟨hNe, isStructAlloca_isAlloca hs⟩
    rcases hinv.2.1 N hN2 with h1 | h1
    · rw [hs] at h1; cases h1
    · exact h1

/-- The splitter on `deepFn`: five allocations are examined, `%s` and the four
new ones, each once, and no struct allocation is left. -/
theorem worklist_terminates_and_examines_once_witness :
    WellFormed deepFn ∧
      performScalarReplLog sampleSymbolTable ⟨deepFn, 0, 0⟩ =
        .ok ((true, ⟨deepFnSplit, 3, 0⟩), deepFnLog) ∧
      deepFnSplit.entry.all (fun B => !B.isStructAlloca) = true ∧
      deepFnLog.examined.Perm (entryAllocas deepFn ++ deepFnLog.pushed) ∧
      (∀ N, deepFnLog.examined.count N =
        (entryAllocas deepFn).count N + deepFnLog.pushed.count N) ∧
      (∀ N ∈ deepFnLog.pushed, N ∈ deepFnLog.examined) ∧
      (WellFormed deepFn → ∀ N ∈ deepFnLog.pushed, N ∈ deepFnSplit.entry →
        N.isStructAlloca = true → checkGEPU1Format deepFnSplit N = .ok false) :=
  ⟨by decide, rfl, by decide,
    (@worklist_terminates_and_examines_once sampleSymbolTable ⟨deepFn, 0, 0⟩).2.2.2 true
      ⟨deepFnSplit, 3, 0⟩ deepFnLog rfl⟩

end SROA

namespace BranchInstCount

/-! # The branch classifier: theorems -/

/-! ### The loops commute with adding to the counters -/

theorem countCmp_add (p : Predicate) (a d : Statistics) :
    countCmp p (a.add d) = a.add (countCmp p d) := by
  cases p <;> simp only [countCmp, Statistics.add] <;> ext <;> simp only [] <;> omega

theorem countIncoming_add (v : Value) (a d : Statistics) :
    countIncoming v (a.add d) = a.add (countIncoming v d) := by
  cases v with
  | cmpInst p =>
    simp only [countIncoming]
    split_ifs <;> simp only [Statistics.add] <;> ext <;> simp only [] <;> omega
  | _ => rfl

theorem countPhi_add (vs : List Value) : ∀ (a d : Statistics),
    countPhi vs (a.add d) = a.add (countPhi vs d) := by
  induction vs with
  | nil => intro a d; rfl
  | cons v vs ih =>
    intro a d
    simp only [countPhi, countIncoming_add, ih]

theorem bump_cond_add (a d : Statistics) :
    ({ a.add d with NumCondBranch := (a.add d).NumCondBranch + 1 } : Statistics) =
      a.add { d with NumCondBranch := d.NumCondBranch + 1 } := by
  simp only [Statistics.add]; ext <;> rfl

theorem visitInstruction_add (I : Instruction) (a d : Statistics) :
    visitInstruction I (a.add d) = a.add (visitInstruction I d) := by
  unfold visitInstruction
  split
  · rename_i c _ _
    simp only [bump_cond_add]
    cases c with
    | cmpInst p => exact countCmp_add _ _ _
    | phiNode inc => exact countPhi_add _ _ _
    | binaryOperator => rfl
    | other => rfl
  · simp only [Statistics.add]; ext <;> rfl
  · rfl
  · rfl

theorem visitBlock_add (b : List Instruction) : ∀ (a d : Statistics),
    visitBlock b (a.add d) = a.add (visitBlock b d) := by
  induction b with
  | nil => intro a d; rfl
  | cons I b ih => intro a d; simp only [visitBlock, visitInstruction_add, ih]

theorem visitBlocks_add (bs : List (List Instruction)) : ∀ (a d : Statistics),
    visitBlocks bs (a.add d) = a.add (visitBlocks bs d) := by
  induction bs with
  | nil => intro a d; rfl
  | cons b bs ih => intro a d; simp only [visitBlocks, visitBlock_add, ih]

theorem Statistics.add_zero (a : Statistics) : a.add Statistics.zero = a := by
  simp only [Statistics.add, Statistics.zero]; ext <;> simp

theorem visitBlocks_eq_add (bs : List (List Instruction)) (s : Statistics) :
    visitBlocks bs s = s.add (visitBlocks bs Statistics.zero) := by
  have h := visitBlocks_add bs s Statistics.zero
  rw [Statistics.add_zero] at h
  exact h

/-! ### The branch counters -/

theorem countCmp_frame (p : Predicate) (s : Statistics) :
    (countCmp p s).NumCondBranch = s.NumCondBranch ∧
      (countCmp p s).NumUncondBranch = s.NumUncondBranch := by
  cases p <;> exact ⟨rfl, rfl⟩

theorem countIncoming_frame (v : Value) (s : Statistics) :
    (countIncoming v s).NumCondBranch = s.NumCondBranch ∧
      (countIncoming v s).NumUncondBranch = s.NumUncondBranch ∧
      (countIncoming v s).NumGTBranch = s.NumGTBranch ∧
      (countIncoming v s).NumGEBranch = s.NumGEBranch ∧
      (countIncoming v s).NumLTBranch = s.NumLTBranch ∧
      (countIncoming v s).NumLEBranch = s.NumLEBranch := by
  cases v with
  | cmpInst p =>
    simp only [countIncoming]
    split_ifs <;> exact ⟨rfl, rfl, rfl, rfl, rfl, rfl⟩
  | _ => exact ⟨rfl, rfl, rfl, rfl, rfl, rfl⟩

theorem countIncoming_eq_counters (v : Value) (s : Statistics) :
    (countIncoming v s).NumEqBranch =
        s.NumEqBranch + (if v.isCmpWith .ICMP_EQ then 1 else 0) ∧
      (countIncoming v s).NumNEqBranch =
        s.NumNEqBranch + (if v.isCmpWith .ICMP_NE then 1 else 0) := by
  cases v with
  | cmpInst p => cases p <;> exact ⟨rfl, rfl⟩
  | _ => exact ⟨rfl, rfl⟩

theorem countPhi_frame (vs : List Value) : ∀ (s : Statistics),
    (countPhi vs s).NumCondBranch = s.NumCondBranch ∧
      (countPhi vs s).NumUncondBranch = s.NumUncondBranch ∧
      (countPhi vs s).NumGTBranch = s.NumGTBranch ∧
      (countPhi vs s).NumGEBranch = s.NumGEBranch ∧
      (countPhi vs s).NumLTBranch = s.NumLTBranch ∧
      (countPhi vs s).NumLEBranch = s.NumLEBranch := by
  induction vs with
  | nil => intro s; exact ⟨rfl, rfl, rfl, rfl, rfl, rfl⟩
  | cons v vs ih =>
    intro s
    obtain ⟨h1, h2, h3, h4, h5, h6⟩ := ih (countIncoming v s)
    obtain ⟨g1, g2, g3, g4, g5, g6⟩ := countIncoming_frame v s
    simp only [countPhi]
    exact ⟨h1.trans g1, h2.trans g2, h3.trans g3, h4.trans g4, h5.trans g5, h6.trans g6⟩

theorem countPhi_eq_counters (vs : List Value) : ∀ (s : Statistics),
    (countPhi vs s).NumEqBranch = s.NumEqBranch + vs.countP (Value.isCmpWith .ICMP_EQ) ∧
      (countPhi vs s).NumNEqBranch =
        s.NumNEqBranch + vs.countP (Value.isCmpWith .ICMP_NE) := by
  induction vs with
  | nil => intro s; exact ⟨rfl, rfl⟩
  | cons v vs ih =>
    intro s
    obtain ⟨h1, h2⟩ := ih (countIncoming v s)
    obtain ⟨g1, g2⟩ := countIncoming_eq_counters v s
    simp only [countPhi, List.countP_cons]
    rw [h1, h2, g1, g2]
    constructor <;> omega

theorem visitInstruction_branch_counters (I : Instruction) (s : Statistics) :
    (visitInstruction I s).NumCondBranch =
        s.NumCondBranch + (if I.isConditional then 1 else 0) ∧
      (visitInstruction I s).NumUncondBranch =
        s.NumUncondBranch + (if I.isUnconditional then 1 else 0) := by
  unfold visitInstruction
  split
  · rename_i c _ _
    cases c with
    | cmpInst p =>
      simp only [(countCmp_frame p _).1, (countCmp_frame p _).2]
      exact ⟨rfl, rfl⟩
    | phiNode inc =>
      simp only [(countPhi_frame inc _).1, (countPhi_frame inc _).2.1]
      exact ⟨rfl, rfl⟩
    | binaryOperator => exact ⟨rfl, rfl⟩
    | other => exact ⟨rfl, rfl⟩
  · exact ⟨rfl, rfl⟩
  · rename_i ops h1 h2
    have hc : (Instruction.branchInst ops).isConditional = false := by
      match ops, h1, h2 with
      | [], _, _ => rfl
      | [_], _, h2 => exact absurd rfl (h2 _)
      | [_, _], _, _ => rfl
      | [_, _, _], h1, _ => exact absurd rfl (h1 _ _ _)
      | _ :: _ :: _ :: _ :: _, _, _ => rfl
    have hu : (Instruction.branchInst ops).isUnconditional = false := by
      match ops, h1, h2 with
      | [], _, _ => rfl
      | [_], _, h2 => exact absurd rfl (h2 _)
      | [_, _], _, _ => rfl
      | [_, _, _], _, _ => rfl
      | _ :: _ :: _ :: _ :: _, _, _ => rfl
    simp [hc, hu]
  · exact ⟨rfl, rfl⟩

theorem visitBlock_branch_counters (b : List Instruction) : ∀ (s : Statistics),
    (visitBlock b s).NumCondBranch = s.NumCondBranch + b.countP Instruction.isConditional ∧
      (visitBlock b s).NumUncondBranch =
        s.NumUncondBranch + b.countP Instruction.isUnconditional := by
  induction b with
  | nil => intro s; exact ⟨rfl, rfl⟩
  | cons I b ih =>
    intro s
    obtain ⟨h1, h2⟩ := ih (visitInstruction I s)
    obtain ⟨g1, g2⟩ := visitInstruction_branch_counters I s
    simp only [visitBlock, List.countP_cons]
    rw [h1, h2, g1, g2]
    constructor <;> omega

theorem visitBlocks_branch_counters (bs : List (List Instruction)) : ∀ (s : Statistics),
    (visitBlocks bs s).NumCondBranch =
        s.NumCondBranch + bs.flatten.countP Instruction.isConditional ∧
      (visitBlocks bs s).NumUncondBranch =
        s.NumUncondBranch + bs.flatten.countP Instruction.isUnconditional := by
  induction bs with
  | nil => intro s; exact ⟨rfl, rfl⟩
  | cons b bs ih =>
    intro s
    obtain ⟨h1, h2⟩ := ih (visitBlock b s)
    obtain ⟨g1, g2⟩ := visitBlock_branch_counters b s
    simp only [visitBlocks, List.flatten_cons, List.countP_append]
    rw [h1, h2, g1, g2]
    constructor <;> omega

/-! ### The class counters -/

theorem visitInstruction_cmp_follows_table (p : Predicate) (ifFalse ifTrue : Value)
    (s : Statistics) :
    (specClasses p).length ≤ 1 ∧
      (specClasses p = [] ↔ p ∈ specOutside) ∧
      (visitInstruction (.branchInst [.cmpInst p, ifFalse, ifTrue]) s).NumCondBranch =
        s.NumCondBranch + 1 ∧
      (visitInstruction (.branchInst [.cmpInst p, ifFalse, ifTrue]) s).NumUncondBranch =
        s.NumUncondBranch ∧
      ∀ k : CmpClass,
        (visitInstruction (.branchInst [.cmpInst p, ifFalse, ifTrue]) s).classCounter k =
          s.classCounter k + (if k ∈ specClasses p then 1 else 0) := by
  refine ⟨by cases p <;> decide, by cases p <;> decide, ?_, ?_, ?_⟩
  · cases p <;> rfl
  · cases p <;> rfl
  · intro k
    cases p <;> cases k <;> rfl

theorem visitInstruction_classCounter (I : Instruction) (s : Statistics) (k : CmpClass) :
    (visitInstruction I s).classCounter k = s.classCounter k + classDelta k I := by
  cases I with
  | other => cases k <;> rfl
  | branchInst ops =>
    match ops with
    | [] => cases k <;> rfl
    | [_] => cases k <;> rfl
    | [_, _] => cases k <;> rfl
    | _ :: _ :: _ :: _ :: _ => cases k <;> rfl
    | [c, ifFalse, ifTrue] =>
      cases c with
      | cmpInst p => exact (visitInstruction_cmp_follows_table p ifFalse ifTrue s).2.2.2.2 k
      | binaryOperator => cases k <;> rfl
      | other => cases k <;> rfl
      | phiNode incoming =>
        obtain ⟨-, -, h3, h4, h5, h6⟩ := countPhi_frame incoming
          { s with NumCondBranch := s.NumCondBranch + 1 }
        obtain ⟨g1, g2⟩ := countPhi_eq_counters incoming
          { s with NumCondBranch := s.NumCondBranch + 1 }
        cases k
        · exact g1
        · exact g2
        · exact h3
        · exact h4
        · exact h5
        · exact h6

theorem visitBlock_classCounter (b : List Instruction) (k : CmpClass) :
    ∀ s : Statistics, (visitBlock b s).classCounter k =
      s.classCounter k + (b.map (classDelta k)).sum := by
  induction b with
  | nil => intro s; rfl
  | cons I b ih =>
    intro s
    simp only [visitBlock, List.map_cons, List.sum_cons]
    rw [ih, visitInstruction_classCounter]
    omega

theorem visitBlocks_classCounter (bs : List (List Instruction)) (k : CmpClass) :
    ∀ s : Statistics, (visitBlocks bs s).classCounter k =
      s.classCounter k + (bs.flatten.map (classDelta k)).sum := by
  induction bs with
  | nil => intro s; rfl
  | cons b bs ih =>
    intro s
    simp only [visitBlocks, List.flatten_cons, List.map_append, List.sum_append]
    rw [ih, visitBlock_classCounter]
    omega

theorem classDelta_of_not_phi (k : CmpClass) (I : Instruction) (h : I.isPhiBranch = false) :
    classDelta k I = if I.isCmpBranchOfClass k then 1 else 0 := by
  cases I with
  | other => rfl
  | branchInst ops =>
    match ops, h with
    | [], _ => rfl
    | [_], _ => rfl
    | [_, _], _ => rfl
    | _ :: _ :: _ :: _ :: _, _ => rfl
    | [c, _, _], h =>
      cases c with
      | cmpInst p => simp [classDelta, Instruction.isCmpBranchOfClass]
      | binaryOperator => rfl
      | other => rfl
      | phiNode incoming => cases h

theorem sum_classDelta_eq_countP (k : CmpClass) (l : List Instruction)
    (h : ∀ I ∈ l, I.isPhiBranch = false) :
    (l.map (classDelta k)).sum = l.countP (Instruction.isCmpBranchOfClass k) := by
  induction l with
  | nil => rfl
  | cons I l ih =>
    have h1 := classDelta_of_not_phi k I (h I (by simp))
    have h2 := ih (fun J hJ => h J (by simp [hJ]))
    simp only [List.map_cons, List.sum_cons, List.countP_cons, h1, h2]
    omega

/-! ## C14: the predicate table -/

/-- C14. The table of the specification gives every predicate at most one
class, and none exactly to always-false, always-true, ordered and unordered. A
conditional branch whose condition is a comparison with the predicate `p` adds
one to the conditional-branch counter, nothing to the unconditional one, and
one to the counter of a class exactly when the table gives `p` that class. For
the run on a function: every class counter grows by the sum, over all
instructions of all basic blocks, of what `classDelta` says the instruction is
to add; and when no conditional branch of the function is on a phi node, the
counter of the class `k` grows by the number of conditional branches whose
condition is directly a comparison to which the table gives the class `k`. -/
theorem runOnFunction_cmp_follows_table (F : Function) (s : Statistics) :
    (∀ p : Predicate,
      (specClasses p).length ≤ 1 ∧ (specClasses p = [] ↔ p ∈ specOutside)) ∧
      (∀ (p : Predicate) (ifFalse ifTrue : Value) (s0 : Statistics),
        (visitInstruction (.branchInst [.cmpInst p, ifFalse, ifTrue]) s0).NumCondBranch =
          s0.NumCondBranch + 1 ∧
        (visitInstruction (.branchInst [.cmpInst p, ifFalse, ifTrue]) s0).NumUncondBranch =
          s0.NumUncondBranch ∧
        ∀ k : CmpClass,
          (visitInstruction (.branchInst [.cmpInst p, ifFalse, ifTrue]) s0).classCounter k =
            s0.classCounter k + (if k ∈ specClasses p then 1 else 0)) ∧
      (∀ k : CmpClass, (runOnFunction F s).2.classCounter k =
        s.classCounter k + (F.insts.map (classDelta k)).sum) ∧
      ((∀ I ∈ F.insts, I.isPhiBranch = false) →
        ∀ k : CmpClass, (runOnFunction F s).2.classCounter k =
          s.classCounter k + F.insts.countP (Instruction.isCmpBranchOfClass k)) := by
  refine ⟨?_, ?_, ?_, ?_⟩
  · intro p
    exact ⟨(visitInstruction_cmp_follows_table p .other .other s).1,
      (visitInstruction_cmp_follows_table p .other .other s).2.1⟩
  · intro p ifFalse ifTrue s0
    exact (visitInstruction_cmp_follows_table p ifFalse ifTrue s0).2.2
  · intro k
    exact visitBlocks_classCounter F.blocks k s
  · intro h k
    rw [← sum_classDelta_eq_countP k F.insts h]
    exact visitBlocks_classCounter F.blocks k s

/-- The run on `cmpFn`, from counters at zero: two branches on equality tests
and one on a less-than test are counted in their classes. -/
theorem runOnFunction_cmp_follows_table_witness :
    (runOnFunction cmpFn Statistics.zero).2 = ⟨3, 1, 2, 0, 1, 0, 0, 0⟩ ∧
      cmpFn.insts.countP (Instruction.isCmpBranchOfClass .Eq) = 2 ∧
      cmpFn.insts.countP (Instruction.isCmpBranchOfClass .Lt) = 1 ∧
      cmpFn.insts.countP (Instruction.isCmpBranchOfClass .Gt) = 0 ∧
      (∀ I ∈ cmpFn.insts, I.isPhiBranch = false) ∧
      ∀ k : CmpClass, (runOnFunction cmpFn Statistics.zero).2.classCounter k =
        Statistics.zero.classCounter k +
          cmpFn.insts.countP (Instruction.isCmpBranchOfClass k) :=
  ⟨rfl, rfl, rfl, rfl, by decide,
    (runOnFunction_cmp_follows_table cmpFn Statistics.zero).2.2.2 (by decide)⟩

/-! ## C15: phi conditions -/

/-- C15. What the pass does with a conditional branch on a phi node: the
equal-test counter grows by the number of incoming values that are comparisons
with the predicate `ICMP_EQ`, the not-equal counter by the number of those with
`ICMP_NE`, and the four other class counters do not change. The float equality
predicates, which the table puts in the Eq class and the `switch` on a direct
comparison counts there, are not counted: in `phiFloatEqFn` the phi node has an
incoming `fcmp oeq` and the run leaves the equal-test counter at zero. -/
theorem countPhi_misses_float_equality :
    (∀ (incoming : List Value) (ifFalse ifTrue : Value) (s : Statistics),
      (visitInstruction (.branchInst [.phiNode incoming, ifFalse, ifTrue]) s).NumEqBranch =
          s.NumEqBranch + incoming.countP (Value.isCmpWith .ICMP_EQ) ∧
        (visitInstruction (.branchInst [.phiNode incoming, ifFalse, ifTrue]) s).NumNEqBranch =
          s.NumNEqBranch + incoming.countP (Value.isCmpWith .ICMP_NE) ∧
        (visitInstruction (.branchInst [.phiNode incoming, ifFalse, ifTrue]) s).NumGTBranch =
          s.NumGTBranch ∧
        (visitInstruction (.branchInst [.phiNode incoming, ifFalse, ifTrue]) s).NumGEBranch =
          s.NumGEBranch ∧
        (visitInstruction (.branchInst [.phiNode incoming, ifFalse, ifTrue]) s).NumLTBranch =
          s.NumLTBranch ∧
        (visitInstruction (.branchInst [.phiNode incoming, ifFalse, ifTrue]) s).NumLEBranch =
          s.NumLEBranch) ∧
      specClasses .FCMP_OEQ = [.Eq] ∧
      (visitInstruction (.branchInst [.cmpInst .FCMP_OEQ, .other, .other])
        Statistics.zero).NumEqBranch = 1 ∧
      (visitInstruction (.branchInst [.phiNode [.cmpInst .FCMP_OEQ, .other], .other, .other])
        Statistics.zero).NumEqBranch = 0 ∧
      (runOnFunction phiFloatEqFn Statistics.zero).2 = ⟨2, 1, 0, 0, 0, 0, 0, 0⟩ := by
  refine ⟨?_, rfl, rfl, rfl, rfl⟩
  intro incoming ifFalse ifTrue s
  obtain ⟨-, -, h3, h4, h5, h6⟩ := countPhi_frame incoming
    { s with NumCondBranch := s.NumCondBranch + 1 }
  obtain ⟨g1, g2⟩ := countPhi_eq_counters incoming
    { s with NumCondBranch := s.NumCondBranch + 1 }
  exact ⟨g1, g2, h3, h4, h5, h6⟩

/-! ## C16: the branch totals -/

/-- C16. One run returns false, adds to the conditional-branch counter the
number of conditional branch instructions of all basic blocks and to the
unconditional-branch counter the number of unconditional ones; an instruction
that is not a branch changes no counter, and an unconditional branch changes
only the unconditional-branch counter, by one. -/
theorem runOnFunction_counts_branches (F : Function) (s : Statistics) :
    (runOnFunction F s).1 = false ∧
      (runOnFunction F s).2.NumCondBranch =
        s.NumCondBranch + F.insts.countP Instruction.isConditional ∧
      (runOnFunction F s).2.NumUncondBranch =
        s.NumUncondBranch + F.insts.countP Instruction.isUnconditional ∧
      (∀ I : Instruction, I.isBranchInst = false → visitInstruction I s = s) ∧
      (∀ I : Instruction, I.isUnconditional = true →
        visitInstruction I s = { s with NumUncondBranch := s.NumUncondBranch + 1 }) := by
  refine ⟨rfl, (visitBlocks_branch_counters F.blocks s).1,
    (visitBlocks_branch_counters F.blocks s).2, ?_, ?_⟩
  · intro I hI
    cases I with
    | branchInst ops => cases hI
    | other => rfl
  · intro I hI
    cases I with
    | other => cases hI
    | branchInst ops =>
      match ops, hI with
      | [_], _ => rfl

/-- The totals of `xorFn`: two conditional branches and one unconditional. -/
theorem runOnFunction_counts_branches_witness :
    xorFn.insts.countP Instruction.isConditional = 2 ∧
      xorFn.insts.countP Instruction.isUnconditional = 1 ∧
      (runOnFunction xorFn Statistics.zero).2 = ⟨2, 1, 0, 0, 1, 0, 0, 0⟩ ∧
      (runOnFunction xorFn Statistics.zero).2.NumCondBranch =
        Statistics.zero.NumCondBranch + xorFn.insts.countP Instruction.isConditional :=
  ⟨rfl, rfl, rfl, (runOnFunction_counts_branches xorFn Statistics.zero).2.1⟩

/-! ## C17: additivity -/

/-- C17. A run adds to the counters the same amounts whatever their starting
values, namely the counters a run from zero ends with; a second run on the
unchanged function adds them once more; and starting from counters at zero,
every counter after two runs is twice the counter after one run. -/
theorem runOnFunction_additive (F : Function) (s : Statistics) :
    (runOnFunction F s).2 = s.add (runOnFunction F Statistics.zero).2 ∧
      (runOnFunction F (runOnFunction F s).2).2 =
        s.add ((runOnFunction F Statistics.zero).2.add (runOnFunction F Statistics.zero).2) ∧
      (runOnFunction F (runOnFunction F Statistics.zero).2).2.toList =
        (runOnFunction F Statistics.zero).2.toList.map (fun n => 2 * n) := by
  have h1 : ∀ t, (runOnFunction F t).2 = t.add (runOnFunction F Statistics.zero).2 :=
    fun t => visitBlocks_eq_add F.blocks t
  refine ⟨h1 s, ?_, ?_⟩
  · rw [h1 (runOnFunction F s).2, h1 s]
    simp only [Statistics.add]
    ext <;> simp only [Nat.add_assoc]
  · rw [h1 (runOnFunction F Statistics.zero).2]
    simp only [Statistics.add, Statistics.toList, List.map_cons, List.map_nil, Nat.two_mul]

/-- Two runs on `xorFn` from counters at zero. -/
theorem runOnFunction_additive_witness :
    (runOnFunction xorFn Statistics.zero).2 = ⟨2, 1, 0, 0, 1, 0, 0, 0⟩ ∧
      (runOnFunction xorFn (runOnFunction xorFn Statistics.zero).2).2 =
        ⟨4, 2, 0, 0, 2, 0, 0, 0⟩ ∧
      (runOnFunction xorFn (runOnFunction xorFn Statistics.zero).2).2.toList =
        (runOnFunction xorFn Statistics.zero).2.toList.map (fun n => 2 * n) :=
  ⟨rfl, rfl, (runOnFunction_additive xorFn Statistics.zero).2.2⟩

/-! ## C18: the equal-test counter -/

/-- C18. Evaluation at a failing input: `phiTwoEqFn` has one conditional
branch, on a phi node with two incoming `icmp eq` comparisons. Whatever the
counters at the start, one run adds one to the conditional-branch counter and
two to the equal-test counter, so the increase of the equal-test counter exceeds
the number of conditional branches. -/
theorem eq_counter_exceeds_conditional_branches :
    phiTwoEqFn.insts.countP Instruction.isConditional = 1 ∧
      (∀ s : Statistics,
        (runOnFunction phiTwoEqFn s).2.NumCondBranch = s.NumCondBranch + 1 ∧
        (runOnFunction phiTwoEqFn s).2.NumEqBranch = s.NumEqBranch + 2) ∧
      ¬ ((runOnFunction phiTwoEqFn Statistics.zero).2.NumEqBranch ≤
        (runOnFunction phiTwoEqFn Statistics.zero).2.NumCondBranch) := by
  refine ⟨rfl, fun s => ⟨rfl, rfl⟩, by decide⟩

/-! ## C19: conditions produced by a binary operator -/

/-- C19. A conditional branch whose condition is produced by a binary operator
adds one to the conditional-branch counter and changes no other counter; in
particular none of the six comparison-class counters. -/
theorem binaryOperator_condition_counts_nothing (I : Instruction) (s : Statistics)
    (h : I.getCondition = some .binaryOperator) :
    visitInstruction I s = { s with NumCondBranch := s.NumCondBranch + 1 } ∧
      ∀ k : CmpClass, (visitInstruction I s).classCounter k = s.classCounter k := by
  cases I with
  | other => cases h
  | branchInst ops =>
    match ops, h with
    | [c, _, _], h =>
      simp only [Instruction.getCondition, Option.some.injEq] at h
      subst h
      exact ⟨rfl, fun k => by cases k <;> rfl⟩

/-- The branch on the exclusive-or of `xorFn`. -/
theorem binaryOperator_condition_counts_nothing_witness :
    (Instruction.branchInst [.binaryOperator, .other, .other]).getCondition =
        some .binaryOperator ∧
      visitInstruction (.branchInst [.binaryOperator, .other, .other]) Statistics.zero =
        ⟨1, 0, 0, 0, 0, 0, 0, 0⟩ ∧
      ∀ k : CmpClass,
        (visitInstruction (.branchInst [.binaryOperator, .other, .other])
          Statistics.zero).classCounter k = Statistics.zero.classCounter k :=
  ⟨rfl, rfl,
    (binaryOperator_condition_counts_nothing (.branchInst [.binaryOperator, .other, .other])
      Statistics.zero rfl).2⟩

end BranchInstCount
